import Mathlib

/-!
Verification development for the animabotics computational-geometry engine
(`src/animabotics/algorithms.py`): the Bentley-Ottmann sweep-line intersection
engine, the monotone polygon triangulation engine, and the convex partition.

The geometric primitives (`Point2D`, `Segment` from `simplex.py`) and the
container library (`SortedDict`, `PriorityQueue` from
`data_structures/binary_search_tree.py`) are not part of the source tree;
they are modelled from the specification where needed, as noted on each
definition.

Exact rational arithmetic is represented by unnormalized fractions
(`Frac`) so that every run of the embedded algorithms can be evaluated by
the kernel: all operations reduce to integer arithmetic, with no gcd
normalization.
-/

namespace Animabotics

/-- An unnormalized fraction: numerator, positive denominator.
Represents the rational number `num / den`.  Equality and order are the
value equality and order (decided by cross multiplication), not structural
equality. -/
structure Frac where
  num : ℤ
  den : ℤ
  den_pos : 0 < den

/-- Embed an integer. -/
def Frac.ofInt (n : ℤ) : Frac := ⟨n, 1, one_pos⟩

/-- The rational value of a fraction, for specification purposes. -/
def Frac.val (a : Frac) : ℚ := (a.num : ℚ) / (a.den : ℚ)

def Frac.add (a b : Frac) : Frac :=
  ⟨a.num * b.den + b.num * a.den, a.den * b.den, mul_pos a.den_pos b.den_pos⟩

def Frac.sub (a b : Frac) : Frac :=
  ⟨a.num * b.den - b.num * a.den, a.den * b.den, mul_pos a.den_pos b.den_pos⟩

def Frac.mul (a b : Frac) : Frac :=
  ⟨a.num * b.num, a.den * b.den, mul_pos a.den_pos b.den_pos⟩

def Frac.neg (a : Frac) : Frac := ⟨-a.num, a.den, a.den_pos⟩

/-- Division.  Division by a zero fraction yields zero (that case is never
reached by the embedded algorithms, which guard all divisions). -/
def Frac.div (a b : Frac) : Frac :=
  if h : 0 < b.num then ⟨a.num * b.den, a.den * b.num, mul_pos a.den_pos h⟩
  else if h2 : b.num < 0 then
    ⟨-(a.num * b.den), a.den * (-b.num), mul_pos a.den_pos (by omega)⟩
  else Frac.ofInt 0

/-- Strict order, decided by cross multiplication. -/
def Frac.ltb (a b : Frac) : Bool := a.num * b.den < b.num * a.den

/-- Value equality, decided by cross multiplication. -/
def Frac.eqb (a b : Frac) : Bool := a.num * b.den = b.num * a.den

def Frac.leb (a b : Frac) : Bool := a.num * b.den ≤ b.num * a.den

def Frac.abs (a : Frac) : Frac := ⟨|a.num|, a.den, a.den_pos⟩

def Frac.fmin (a b : Frac) : Frac := if Frac.ltb b a then b else a

def Frac.fmax (a b : Frac) : Frac := if Frac.ltb a b then b else a

/-- Floor of a fraction, as an integer (Python `//` semantics). -/
def Frac.floorI (a : Frac) : ℤ := Int.fdiv a.num a.den

/-- Nonnegative remainder modulo a positive fraction (Python `%` semantics). -/
def Frac.fmod (a m : Frac) : Frac :=
  Frac.sub a (Frac.mul m (Frac.ofInt (Frac.floorI (Frac.div a m))))

/-- Round to the nearest integer, halves to the even integer.
Modelled from the spec: the engine merges near-coincident intersections by
fixed-decimal rounding; Python's `round` rounds halves to even. -/
def Frac.roundHalfEven (a : Frac) : ℤ :=
  let f := Frac.floorI a
  let r2 := 2 * a.num - (2 * f + 1) * a.den
  if r2 < 0 then f
  else if 0 < r2 then f + 1
  else if f % 2 = 0 then f else f + 1

/-- Round to `n` decimal digits. -/
def Frac.roundTo (a : Frac) (n : ℕ) : Frac :=
  ⟨Frac.roundHalfEven ⟨a.num * (10 ^ n : ℕ), a.den, a.den_pos⟩, (10 ^ n : ℕ),
    by positivity⟩

theorem Frac.ltb_asymm {a b : Frac} (h : Frac.ltb a b = true) :
    Frac.ltb b a = false := by
  simp only [Frac.ltb, decide_eq_true_eq, decide_eq_false_iff_not, not_lt] at *
  omega

theorem Frac.eqb_of_not_ltb {a b : Frac} (h1 : Frac.ltb a b = false)
    (h2 : Frac.ltb b a = false) : Frac.eqb a b = true := by
  simp only [Frac.ltb, Frac.eqb, decide_eq_true_eq, decide_eq_false_iff_not,
    not_lt] at *
  omega

theorem Frac.ltb_or_of_not_eqb {a b : Frac} (h : Frac.eqb a b = false) :
    Frac.ltb a b = true ∨ Frac.ltb b a = true := by
  simp only [Frac.ltb, Frac.eqb, decide_eq_true_eq, decide_eq_false_iff_not] at *
  omega

theorem Frac.eqb_symm {a b : Frac} (h : Frac.eqb a b = true) :
    Frac.eqb b a = true := by
  simp only [Frac.eqb, decide_eq_true_eq] at *
  omega

/-- Modelled from the spec: a 2D point with exact coordinates
(`Point2D` of the external geometric-primitives collaborator). -/
structure Pt where
  x : Frac
  y : Frac

/-- Point value equality, coordinatewise. -/
def Pt.eqb (p q : Pt) : Bool := Frac.eqb p.x q.x && Frac.eqb p.y q.y

/-- Modelled from the spec: the total order on points used by the engine
(`Point2D.__lt__`), lexicographic on `(x, y)`.  The engine relies on the
first-processed vertex of a polygon (the minimum in this order) being an
ENTER vertex, which forces the `x`-then-`y` lexicographic order. -/
def Pt.ltb (p q : Pt) : Bool :=
  Frac.ltb p.x q.x || (Frac.eqb p.x q.x && Frac.ltb p.y q.y)

def Pt.gtb (p q : Pt) : Bool := Pt.ltb q p

/-- Round both coordinates to `n` decimal digits. -/
def Pt.roundTo (p : Pt) (n : ℕ) : Pt := ⟨Frac.roundTo p.x n, Frac.roundTo p.y n⟩

/-- Modelled from the spec: a directed line segment (`Segment`): two
endpoints in construction order; the canonical orientation (minimum
endpoint first) is obtained explicitly via `min(segment, segment.twin)`. -/
structure Seg where
  p1 : Pt
  p2 : Pt

/-- Segment value equality (endpoints in order). -/
def Seg.eqb (s t : Seg) : Bool := Pt.eqb s.p1 t.p1 && Pt.eqb s.p2 t.p2

/-- Modelled from the spec: the total order on segments
(lexicographic on the endpoint pair). -/
def Seg.ltb (s t : Seg) : Bool :=
  Pt.ltb s.p1 t.p1 || (Pt.eqb s.p1 t.p1 && Pt.ltb s.p2 t.p2)

/-- The reversed segment (`Segment.twin`). -/
def Seg.twin (s : Seg) : Seg := ⟨s.p2, s.p1⟩

/-- Python `min(segment, segment.twin)`: the canonical orientation with the
minimum endpoint first. -/
def Seg.canon (s : Seg) : Seg := if Seg.ltb (Seg.twin s) s then Seg.twin s else s

def Seg.minX (s : Seg) : Frac := Frac.fmin s.p1.x s.p2.x

def Seg.maxX (s : Seg) : Frac := Frac.fmax s.p1.x s.p2.x

def Seg.minY (s : Seg) : Frac := Frac.fmin s.p1.y s.p2.y

/-- Whether the segment is vertical. -/
def Seg.vertical (s : Seg) : Bool := Frac.eqb s.p1.x s.p2.x

/-- Slope of a non-vertical segment (junk value on vertical segments; every
use in the engine guards for verticality first). -/
def Seg.slope (s : Seg) : Frac :=
  Frac.div (Frac.sub s.p2.y s.p1.y) (Frac.sub s.p2.x s.p1.x)

/-- The `y`-value of the segment's supporting line at abscissa `x`
(`Segment.point_at(x).y`, used only on non-vertical segments). -/
def Seg.pointAtY (s : Seg) (x : Frac) : Frac :=
  Frac.add s.p1.y (Frac.mul (Seg.slope s) (Frac.sub x s.p1.x))

/-- Modelled from the spec: `Segment.orientation(a, b, c)`, the signed
orientation of the turn `a -> b -> c`: `-1` for a counter-clockwise (left)
turn, `1` for a clockwise (right) turn, `0` for collinear points.  The
sign convention is fixed by the engine: the minimum vertex of a
counter-clockwise polygon ring must classify as ENTER, which the
triangulation code equates with orientation `-1`. -/
def orientation (a b c : Pt) : ℤ :=
  let cr := Frac.sub
    (Frac.mul (Frac.sub b.x a.x) (Frac.sub c.y b.y))
    (Frac.mul (Frac.sub b.y a.y) (Frac.sub c.x b.x))
  if Frac.ltb (Frac.ofInt 0) cr then -1
  else if Frac.ltb cr (Frac.ofInt 0) then 1
  else 0

/-- Modelled from the spec: `Segment.intersect(other, include_end)` with
endpoint-inclusive semantics: the unique common point of the two closed
segments, or `none` if they do not meet.  Parallel (hence also
collinear-overlapping) inputs yield `none`; overlapping segments are
explicitly unsupported by the engine.  With `includeEnd = false` an
intersection lying at an endpoint of either segment is not reported. -/
def Seg.intersect (s t : Seg) (includeEnd : Bool) : Option Pt :=
  let d1x := Frac.sub s.p2.x s.p1.x
  let d1y := Frac.sub s.p2.y s.p1.y
  let d2x := Frac.sub t.p2.x t.p1.x
  let d2y := Frac.sub t.p2.y t.p1.y
  let den := Frac.sub (Frac.mul d1x d2y) (Frac.mul d1y d2x)
  if Frac.eqb den (Frac.ofInt 0) then none
  else
    let ex := Frac.sub t.p1.x s.p1.x
    let ey := Frac.sub t.p1.y s.p1.y
    let tN := Frac.div (Frac.sub (Frac.mul ex d2y) (Frac.mul ey d2x)) den
    let uN := Frac.div (Frac.sub (Frac.mul ex d1y) (Frac.mul ey d1x)) den
    let inside : Bool :=
      if includeEnd then
        Frac.leb (Frac.ofInt 0) tN && Frac.leb tN (Frac.ofInt 1) &&
        Frac.leb (Frac.ofInt 0) uN && Frac.leb uN (Frac.ofInt 1)
      else
        Frac.ltb (Frac.ofInt 0) tN && Frac.ltb tN (Frac.ofInt 1) &&
        Frac.ltb (Frac.ofInt 0) uN && Frac.ltb uN (Frac.ofInt 1)
    if inside then
      some ⟨Frac.add s.p1.x (Frac.mul tN d1x), Frac.add s.p1.y (Frac.mul tN d1y)⟩
    else none

/-- Modelled from the spec: `Segment.bearing`, the direction angle of
`p2 - p1` measured counter-clockwise from the positive `x`-axis, in
`[0, 2*pi)`.  Angles are represented by the exact rational pseudo-angle in
`[0, 4)` (a strictly monotone reparametrization of the angle, with `pi`
represented by `2`); reversal of a direction adds exactly `2` modulo `4`,
and all angle comparisons, modular reductions and half-turn shifts
performed by the engine are exact in this representation.  Means of two
pseudo-angles are a faithful midpoint only up to the monotone
reparametrization; the engine compares such means only for vertices with
coincident coordinates, a case no theorem below depends on. -/
def pseudoBearing (dx dy : Frac) : Frac :=
  if Frac.leb (Frac.ofInt 0) dy && Frac.ltb (Frac.ofInt 0) dx then
    -- angles in [0, pi/2): positive x-axis up to (excluding) positive y-axis
    Frac.div dy (Frac.add dx dy)
  else if Frac.ltb (Frac.ofInt 0) dy && Frac.leb dx (Frac.ofInt 0) then
    -- angles in [pi/2, pi)
    Frac.add (Frac.ofInt 1) (Frac.div (Frac.neg dx) (Frac.add (Frac.neg dx) dy))
  else if Frac.leb dy (Frac.ofInt 0) && Frac.ltb dx (Frac.ofInt 0) then
    -- angles in [pi, 3*pi/2)
    Frac.add (Frac.ofInt 2)
      (Frac.div (Frac.neg dy) (Frac.add (Frac.neg dx) (Frac.neg dy)))
  else if Frac.ltb dy (Frac.ofInt 0) && Frac.leb (Frac.ofInt 0) dx then
    -- angles in [3*pi/2, 2*pi)
    Frac.add (Frac.ofInt 3) (Frac.div dx (Frac.sub dx dy))
  else Frac.ofInt 0

/-- Bearing of a segment in construction direction. -/
def Seg.bearing (s : Seg) : Frac :=
  pseudoBearing (Frac.sub s.p2.x s.p1.x) (Frac.sub s.p2.y s.p1.y)

/-- The pseudo-angle representation of `pi` (see `pseudoBearing`). -/
def piB : Frac := Frac.ofInt 2

/-! ## The Bentley-Ottmann sweep-line intersection engine

Embedding of `bentley_ottmann` (`algorithms.py`).  Floating-point
`nextafter` steps (used by `swap` to separate segment wrappers crossing at
a common point) are modelled by the idealized value `y + e * epsilon` for
an infinitesimal `epsilon`: a pair `(y, e)` ordered lexicographically
(`Yv`).  Python's mutable per-wrapper cache and the class-wide sweep
position become explicit fields of `BOState`. -/

/-- A wrapper y-value: the exact value plus a signed number of
floating-point steps (idealized as infinitesimal offsets). -/
structure Yv where
  q : Frac
  e : ℤ

def Yv.ltb (a b : Yv) : Bool :=
  Frac.ltb a.q b.q || (Frac.eqb a.q b.q && decide (a.e < b.e))

def Yv.eqb (a b : Yv) : Bool := Frac.eqb a.q b.q && decide (a.e = b.e)

/-- `BOEvent` (an `IntEnum`): `START = 1`, `MEET = 2`, `END = 3`. -/
inductive BOEv where
  | START
  | MEET
  | END
deriving DecidableEq

/-- The integer value of the event enum, used for priority comparison. -/
def BOEv.val : BOEv → ℕ
  | .START => 1
  | .MEET => 2
  | .END => 3

/-- The last component of a priority tuple: the segment for START/END
events, the intersection's y-coordinate for MEET events. -/
inductive BOTb where
  | seg (s : Seg)
  | yv (q : Frac)

/-- Order on tiebreak components.  Components of different shapes are never
compared in a run (the event kind decides first); the cross-shape cases are
fixed arbitrarily to keep the order total. -/
def BOTb.ltb : BOTb → BOTb → Bool
  | .seg s, .seg t => Seg.ltb s t
  | .yv a, .yv b => Frac.ltb a b
  | .seg _, .yv _ => true
  | .yv _, .seg _ => false

def BOTb.eqb : BOTb → BOTb → Bool
  | .seg s, .seg t => Seg.eqb s t
  | .yv a, .yv b => Frac.eqb a b
  | _, _ => false

/-- A priority tuple `(x, event, tiebreak)`. -/
structure BOPrio where
  x : Frac
  ev : BOEv
  tb : BOTb

/-- Modelled from the spec: the removable priority queue compares priority
tuples lexicographically. -/
def BOPrio.ltb (p q : BOPrio) : Bool :=
  Frac.ltb p.x q.x ||
    (Frac.eqb p.x q.x &&
      (decide (p.ev.val < q.ev.val) ||
        (decide (p.ev.val = q.ev.val) && BOTb.ltb p.tb q.tb)))

def BOPrio.eqb (p q : BOPrio) : Bool :=
  Frac.eqb p.x q.x && decide (p.ev = q.ev) && BOTb.eqb p.tb q.tb

/-- An event payload: a segment (START/END) or an intersection point (MEET). -/
inductive BOData where
  | seg (s : Seg)
  | pt (p : Pt)

def BOData.eqb : BOData → BOData → Bool
  | .seg s, .seg t => Seg.eqb s t
  | .pt p, .pt q => Pt.eqb p q
  | _, _ => false

/-- A queue entry: the priority tuple and the payload `(event, data)`. -/
structure BOEntry where
  prio : BOPrio
  ev : BOEv
  data : BOData

/-- Modelled from the spec: `PriorityQueue.pop` removes and returns the
minimum-priority entry (the leftmost one among equal priorities). -/
def popMinAux (best : BOEntry) : List BOEntry → BOEntry × List BOEntry
  | [] => (best, [])
  | e :: rest =>
    if BOPrio.ltb e.prio best.prio then
      let (m, l) := popMinAux e rest
      (m, best :: l)
    else
      let (m, l) := popMinAux best rest
      (m, e :: l)

def popMin : List BOEntry → Option (BOEntry × List BOEntry)
  | [] => none
  | e :: rest => some (popMinAux e rest)

/-- Modelled from the spec: `PriorityQueue.remove` deletes a specific
previously-pushed `(priority, payload)` entry; absence is a lookup error
(`none`). -/
def queueRemove : List BOEntry → BOPrio → BOEv → BOData → Option (List BOEntry)
  | [], _, _, _ => none
  | e :: rest, prio, ev, data =>
    if BOPrio.eqb e.prio prio && decide (e.ev = ev) && BOData.eqb e.data data then
      some rest
    else
      (queueRemove rest prio ev data).map (e :: ·)

/-- The mutable cache of a `BOSegmentWrapper`: the sweep position at which
the cached y-value was computed (`_x`), and the cached y-value (`_y`). -/
structure WrapSt where
  cx : Option Frac
  cy : Option Yv

/-- The engine state: the global sweep position (`BOSegmentWrapper.sweep_x`,
`none` standing for the initial `-inf`), the priority queue, the tree of
active segments in bottom-to-top order, the wrapper cache per segment, the
per-pair intersection cache, the per-intersection contributing-segment
counter, and the per-(segment, intersection) interior flag. -/
structure BOState where
  nd : ℕ
  sweep : Option Frac
  queue : List BOEntry
  tree : List Seg
  wrappers : List (Seg × WrapSt)
  icache : List ((Seg × Seg) × Option Pt)
  counts : List (Pt × List (Seg × ℤ))
  simap : List ((Seg × Pt) × Bool)

/-- Look up a wrapper's cache (the engine only reads wrappers it created). -/
def lookupW : List (Seg × WrapSt) → Seg → WrapSt
  | [], _ => ⟨none, none⟩
  | (t, w) :: rest, s => if Seg.eqb t s then w else lookupW rest s

def updateW : List (Seg × WrapSt) → Seg → WrapSt → List (Seg × WrapSt)
  | [], s, w => [(s, w)]
  | (t, w0) :: rest, s, w =>
    if Seg.eqb t s then (t, w) :: rest else (t, w0) :: updateW rest s w

/-- The current y-value of a segment's wrapper (`_SegmentWrapper.y`): the
cached value if cached at the current sweep position; otherwise recomputed
from the segment - except that a vertical segment keeps its previous
y-value (initially its minimum y). -/
def wrapY (sweep : Option Frac) (s : Seg) (w : WrapSt) : Yv :=
  let fresh : Bool :=
    match w.cx, sweep with
    | some cx, some sx => Frac.eqb cx sx
    | _, _ => false
  if fresh then w.cy.getD ⟨Seg.minY s, 0⟩
  else if Seg.vertical s then w.cy.getD ⟨Seg.minY s, 0⟩
  else
    match sweep with
    | some sx => ⟨Seg.pointAtY s sx, 0⟩
    | none => ⟨Seg.minY s, 0⟩

/-- Strict comparison of the negated-slope key component, vertical segments
counting as slope plus-infinity (so negated, minus-infinity). -/
def negSlopeLtb (s t : Seg) : Bool :=
  if Seg.vertical s then !(Seg.vertical t)
  else if Seg.vertical t then false
  else Frac.ltb (Seg.slope t) (Seg.slope s)

def negSlopeEqb (s t : Seg) : Bool :=
  if Seg.vertical s then Seg.vertical t
  else if Seg.vertical t then false
  else Frac.eqb (Seg.slope s) (Seg.slope t)

/-- The comparison key of `BOSegmentWrapper`: `(y, -slope, segment)`,
compared lexicographically at the current sweep position. -/
def keyLtb (st : BOState) (s t : Seg) : Bool :=
  let ys := wrapY st.sweep s (lookupW st.wrappers s)
  let yt := wrapY st.sweep t (lookupW st.wrappers t)
  Yv.ltb ys yt ||
    (Yv.eqb ys yt &&
      (negSlopeLtb s t || (negSlopeEqb s t && Seg.ltb s t)))

/-- Modelled from the spec: `SortedDict` insertion places the new segment at
its ordered position with respect to the current comparison keys (the
eventually-consistent tree behaves, for neighbor queries, as if sorted by
the true vertical order at the sweep position). -/
def treeInsert (st : BOState) (s : Seg) : List Seg → List Seg
  | [] => [s]
  | e :: rest =>
    if keyLtb st s e then s :: e :: rest else e :: treeInsert st s rest

def idxOfSeg : List Seg → Seg → Option ℕ
  | [], _ => none
  | e :: rest, s =>
    if Seg.eqb e s then some 0 else (idxOfSeg rest s).map (· + 1)

def removeSeg : List Seg → Seg → Option (List Seg)
  | [], _ => none
  | e :: rest, s =>
    if Seg.eqb e s then some rest else (removeSeg rest s).map (e :: ·)

def icacheGet : List ((Seg × Seg) × Option Pt) → Seg × Seg → Option (Option Pt)
  | [], _ => none
  | (k, v) :: rest, key =>
    if Seg.eqb k.1 key.1 && Seg.eqb k.2 key.2 then some v else icacheGet rest key

def simapSet (m : List ((Seg × Pt) × Bool)) (s : Seg) (p : Pt) (b : Bool) :
    List ((Seg × Pt) × Bool) :=
  match m with
  | [] => [((s, p), b)]
  | (k, v) :: rest =>
    if Seg.eqb k.1 s && Pt.eqb k.2 p then (k, b) :: rest
    else (k, v) :: simapSet rest s p b

def simapGet : List ((Seg × Pt) × Bool) → Seg → Pt → Bool
  | [], _, _ => false
  | (k, v) :: rest, s, p =>
    if Seg.eqb k.1 s && Pt.eqb k.2 p then v else simapGet rest s p

def bumpCount : List (Seg × ℤ) → Seg → ℤ → List (Seg × ℤ)
  | [], s, d => [(s, d)]
  | (t, c) :: rest, s, d =>
    if Seg.eqb t s then (t, c + d) :: rest else (t, c) :: bumpCount rest s d

def countsGet : List (Pt × List (Seg × ℤ)) → Pt → List (Seg × ℤ)
  | [], _ => []
  | (q, inner) :: rest, p => if Pt.eqb q p then inner else countsGet rest p

def countsBump (m : List (Pt × List (Seg × ℤ))) (p : Pt) (s : Seg) (d : ℤ) :
    List (Pt × List (Seg × ℤ)) :=
  match m with
  | [] => [(p, [(s, d)])]
  | (q, inner) :: rest =>
    if Pt.eqb q p then (q, bumpCount inner s d) :: rest
    else (q, inner) :: countsBump rest p s d

/-- `Counter.total()`: the sum of all counts for an intersection point. -/
def countsTotal (st : BOState) (p : Pt) : ℤ :=
  (countsGet st.counts p).foldl (fun acc sc => acc + sc.2) 0

/-- `get_intersect(segment1, segment2)`: the cached, rounded,
endpoint-inclusive intersection of the two segments; on a cache miss the
intersection is computed, rounded to `nd` digits, recorded in the cache,
and the interior flag of each segment for that point (whether the point is
not one of the segment's own endpoints) is recorded. -/
def get_intersect (st : BOState) (s1 s2 : Seg) : BOState × Option Pt :=
  let key := if Seg.ltb s1 s2 then (s1, s2) else (s2, s1)
  match icacheGet st.icache key with
  | some v => (st, v)
  | none =>
    match Seg.intersect s1 s2 true with
    | some raw =>
      let ip := Pt.roundTo raw st.nd
      let flag1 := !(Pt.eqb ip s1.p1 || Pt.eqb ip s1.p2)
      let flag2 := !(Pt.eqb ip s2.p1 || Pt.eqb ip s2.p2)
      let st := { st with
        simap := simapSet (simapSet st.simap s1 ip flag1) s2 ip flag2,
        icache := st.icache ++ [(key, some ip)] }
      (st, some ip)
    | none =>
      ({ st with icache := st.icache ++ [(key, none)] }, none)

/-- Whether `x` is strictly before the sweep position (which starts at
`-inf`). -/
def beforeSweep (st : BOState) (x : Frac) : Bool :=
  match st.sweep with
  | some sx => Frac.ltb x sx
  | none => false

/-- Whether `x` is at or before the sweep position. -/
def atOrBeforeSweep (st : BOState) (x : Frac) : Bool :=
  match st.sweep with
  | some sx => Frac.ltb x sx || Frac.eqb x sx
  | none => false

/-- `schedule_intersect(segment1, segment2)`: look up the pair's
intersection; do nothing if there is none or it lies strictly before the
sweep position; push a MEET event if the point's contributing count is
still zero; then count both segments as contributing. -/
def schedule_intersect (st : BOState) (s1 s2 : Seg) : BOState :=
  let (st, ip?) := get_intersect st s1 s2
  match ip? with
  | none => st
  | some ip =>
    if beforeSweep st ip.x then st
    else
      let st :=
        if countsTotal st ip = 0 then
          { st with queue := st.queue ++
            [⟨⟨ip.x, BOEv.MEET, BOTb.yv ip.y⟩, BOEv.MEET, BOData.pt ip⟩] }
        else st
      { st with counts := countsBump (countsBump st.counts ip s1 1) ip s2 1 }

/-- `unschedule_intersect(segment1, segment2)`: look up the pair's
intersection; do nothing if there is none or it lies at or before the sweep
position; otherwise decrement both segments' contributions and, if the
total returns to zero, remove the MEET entry from the queue (absence of the
entry is a fatal lookup error). -/
def unschedule_intersect (st : BOState) (s1 s2 : Seg) : Option BOState :=
  let (st, ip?) := get_intersect st s1 s2
  match ip? with
  | none => some st
  | some ip =>
    if atOrBeforeSweep st ip.x then some st
    else
      let st := { st with
        counts := countsBump (countsBump st.counts ip s1 (-1)) ip s2 (-1) }
      if countsTotal st ip = 0 then
        (queueRemove st.queue ⟨ip.x, BOEv.MEET, BOTb.yv ip.y⟩ BOEv.MEET
          (BOData.pt ip)).map (fun q => { st with queue := q })
      else some st

/-- `get_tree_neighbors(segment)`: the at most two tree neighbors (previous,
then next) of the segment's node; the segment must be in the tree. -/
def get_tree_neighbors (st : BOState) (s : Seg) : Option (List Seg) :=
  match idxOfSeg st.tree s with
  | none => none
  | some i =>
    let prev := if i = 0 then [] else st.tree.drop (i - 1) |>.take 1
    let next := st.tree.drop (i + 1) |>.take 1
    some (prev ++ next)

/-- The first two statements of `insert_into_tree`: create a fresh wrapper
for the segment and insert it at its ordered tree position. -/
def insertWrapTree (st : BOState) (s : Seg) : BOState :=
  let st1 := { st with wrappers := updateW st.wrappers s ⟨none, none⟩ }
  { st1 with tree := treeInsert st1 s st1.tree }

/-- `insert_into_tree(segment)`: create a fresh wrapper, insert it at its
ordered tree position, unschedule the (at most one) intersection of its two
new neighbors with each other, then schedule its intersections with each
neighbor. -/
def insertNeighborOps (st : BOState) (s : Seg) (nbs : List Seg) :
    Option BOState :=
  match nbs with
  | [a, b] =>
    match unschedule_intersect st a b with
    | none => none
    | some st2 =>
      some (nbs.foldl (fun acc nb => schedule_intersect acc s nb) st2)
  | _ => some (nbs.foldl (fun acc nb => schedule_intersect acc s nb) st)

def insert_into_tree (st : BOState) (s : Seg) : Option BOState :=
  match get_tree_neighbors (insertWrapTree st s) s with
  | none => none
  | some nbs => insertNeighborOps (insertWrapTree st s) s nbs

/-- `remove_from_tree(segment)`: unschedule the segment's intersections with
its neighbors, schedule the intersection of the two neighbors uncovered by
its removal, and delete the segment's node. -/
def removeNeighborOps (st : BOState) (s : Seg) (nbs : List Seg) :
    Option BOState :=
  match nbs.foldlM (fun acc nb => unschedule_intersect acc s nb) st with
  | none => none
  | some st1 =>
    let st2 :=
      match nbs with
      | [a, b] => schedule_intersect st1 a b
      | _ => st1
    match removeSeg st2.tree s with
    | none => none
    | some t => some { st2 with tree := t }

def remove_from_tree (st : BOState) (s : Seg) : Option BOState :=
  match get_tree_neighbors st s with
  | none => none
  | some nbs => removeNeighborOps st s nbs

/-- Stable insertion sort (Python `sorted`). -/
def isortInsert (lt : α → α → Bool) (x : α) : List α → List α
  | [] => [x]
  | e :: rest => if lt x e then x :: e :: rest else e :: isortInsert lt x rest

def isort (lt : α → α → Bool) : List α → List α
  | [] => []
  | e :: rest => isortInsert lt e (isort lt rest)

/-- The sort order used by `swap`: key `(-slope, segment)`, so decreasing
slope with the segment order breaking ties. -/
def swapSortLtb (s t : Seg) : Bool :=
  negSlopeLtb s t || (negSlopeEqb s t && Seg.ltb s t)

/-- The step offsets used by `swap`:
`steps = list(range(-len(segments) // 2, len(segments) // 2 + 1))`, with
`0` removed when the group size is even (Python floor division). -/
def swapSteps (n : ℕ) : List ℤ :=
  let lo : ℤ := Int.fdiv (-(n : ℤ)) 2
  let hi : ℤ := Int.fdiv (n : ℤ) 2 + 1
  let l := (List.range (hi - lo).toNat).map (fun (i : ℕ) => lo + (i : ℤ))
  if n % 2 = 0 then l.erase 0 else l

/-- The wrapper y-value setter (`wrapper.y = nextafter(intersect.y, ...)`,
idealized): cache the synthetic value at the current sweep position. -/
def assignY (st : BOState) (ipy : Frac) (p : Seg × ℤ) : BOState :=
  { st with wrappers := updateW st.wrappers p.1 ⟨st.sweep, some ⟨ipy, p.2⟩⟩ }

/-- The final loop of `swap`: walking the tree upward from the bottom of the
crossing group, re-assign wrapper y-values and rewrite each node's
key/value with the reversed group (advancing only while a next node
exists). -/
def swapRewrite (ipy : Frac) : BOState → ℕ → List (Seg × ℤ) → BOState
  | st, _, [] => st
  | st, pos, (s, step) :: rest =>
    let st := assignY st ipy (s, step)
    let st := { st with tree := st.tree.set pos s }
    let pos2 := if pos + 1 < st.tree.length then pos + 1 else pos
    swapRewrite ipy st pos2 rest

/-- The bottom-neighbor block of `swap`: if the bottom of the crossing
group has a tree predecessor, unschedule the predecessor's intersection
with the old bottom segment and schedule it with the new bottom segment. -/
def swapOuterLow (st : BOState) (idx0 : ℕ) (s0 slast : Seg) :
    Option BOState :=
  if idx0 = 0 then some st
  else
    match st.tree[idx0 - 1]? with
    | none => none
    | some sprev =>
      match unschedule_intersect st sprev s0 with
      | none => none
      | some st2 => some (schedule_intersect st2 sprev slast)

/-- The top-neighbor block of `swap`: if the top of the crossing group has
a tree successor, unschedule the successor's intersection with the old top
segment and schedule it with the new top segment. -/
def swapOuterHigh (st : BOState) (s0 slast : Seg) : Option BOState :=
  match idxOfSeg st.tree slast with
  | none => none
  | some idxT =>
    if idxT + 1 < st.tree.length then
      match st.tree[idxT + 1]? with
      | none => none
      | some snext =>
        match unschedule_intersect st slast snext with
        | none => none
        | some st2 => some (schedule_intersect st2 s0 snext)
    else some st

/-- `swap(*segments)`: sort the crossing group by decreasing slope (the
bottom-to-top order immediately before the crossing), assign synthetic
y-values offset by `swapSteps`, unschedule/reschedule intersections with
the segments just outside the group, then write the reversed group back
into the tree bottom-to-top.  A group of fewer than two segments is a
runtime error in the source (`get_intersect` needs two arguments). -/
def swap (st0 : BOState) (group : List Seg) : Option BOState :=
  match isort swapSortLtb group with
  | [] => none
  | [_] => none
  | s0 :: s1 :: rest =>
    let order := s0 :: s1 :: rest
    let slast := (s1 :: rest).getLastD s1
    match get_intersect st0 s0 s1 with
    | (_, none) => none
    | (st, some ip) =>
      let steps := swapSteps order.length
      let st := (order.zip steps).foldl (fun acc p => assignY acc ip.y p) st
      match idxOfSeg st.tree s0 with
      | none => none
      | some idx0 =>
        match swapOuterLow st idx0 s0 slast with
        | none => none
        | some st =>
          match swapOuterHigh st s0 slast with
          | none => none
          | some st =>
            some (swapRewrite ip.y st idx0 (order.reverse.zip steps))

/-- `non_endpoint_intersect(intersect)`: whether at least two contributing
segments have the intersection as an interior (non-endpoint) point,
according to the recorded interior flags. -/
def non_endpoint_intersect (st : BOState) (p : Pt) : Bool :=
  2 ≤ (countsGet st.counts p).countP (fun sc => simapGet st.simap sc.1 p)

/-- One MEET emission: the intersection point, the contributing segments
recorded for it at that moment, and the computed interior condition. -/
structure Emission where
  pt : Pt
  contribs : List Seg
  interior : Bool

/-- One iteration of the main loop of `bentley_ottmann`: pop the minimum
event, advance the sweep position, and dispatch on the event kind. A MEET
event produces an emission; whether it is appended to the results is the
caller's decision (`include_end or non_endpoint_intersect(intersect)`). -/
def boStep (st : BOState) : Option (BOState × Option Emission) :=
  match popMin st.queue with
  | none => none
  | some (e, rest) =>
    let st := { st with queue := rest, sweep := some e.prio.x }
    match e.ev, e.data with
    | .START, .seg s => (insert_into_tree st s).map (fun st2 => (st2, none))
    | .END, .seg s => (remove_from_tree st s).map (fun st2 => (st2, none))
    | .MEET, .pt p =>
      let contribs := (countsGet st.counts p).map Prod.fst
      let flag := non_endpoint_intersect st p
      (swap st contribs).map (fun st2 => (st2, some ⟨p, contribs, flag⟩))
    | _, _ => none

/-- The main loop, recording every MEET emission (fuel-indexed; running out
of fuel with a non-empty queue is a failure, so a `some` result always
represents a complete run). -/
def boLoopA : ℕ → BOState → List Emission → Option (BOState × List Emission)
  | 0, st, acc => if st.queue.isEmpty then some (st, acc) else none
  | fuel + 1, st, acc =>
    if st.queue.isEmpty then some (st, acc)
    else
      match boStep st with
      | none => none
      | some (st2, none) => boLoopA fuel st2 acc
      | some (st2, some em) => boLoopA fuel st2 (acc ++ [em])

/-- The main loop as written in the source: a popped MEET intersection is
appended to the results if intersections at endpoints were requested
unconditionally (`include_end`) or the interior condition holds. -/
def boLoopF (includeEnd : Bool) : ℕ → BOState → List Pt →
    Option (BOState × List Pt)
  | 0, st, acc => if st.queue.isEmpty then some (st, acc) else none
  | fuel + 1, st, acc =>
    if st.queue.isEmpty then some (st, acc)
    else
      match boStep st with
      | none => none
      | some (st2, none) => boLoopF includeEnd fuel st2 acc
      | some (st2, some em) =>
        boLoopF includeEnd fuel st2
          (if includeEnd || em.interior then acc ++ [em.pt] else acc)

/-- The initial state: for every segment, canonicalized to its minimum
orientation, a START event at its minimum x and an END event at its
maximum x. -/
def boInit (segments : List Seg) (nd : ℕ) : BOState :=
  { nd := nd
    sweep := none
    queue := segments.foldl
      (fun q s =>
        let c := Seg.canon s
        q ++
          [⟨⟨Seg.minX c, BOEv.START, BOTb.seg c⟩, BOEv.START, BOData.seg c⟩,
           ⟨⟨Seg.maxX c, BOEv.END, BOTb.seg c⟩, BOEv.END, BOData.seg c⟩])
      []
    tree := []
    wrappers := []
    icache := []
    counts := []
    simap := [] }

/-- `bentley_ottmann(segments, include_end, ndigits)`: the list of reported
intersection points, in event order (`none` on invariant failure or
insufficient fuel). -/
def bentley_ottmann (segments : List Seg) (includeEnd : Bool) (nd fuel : ℕ) :
    Option (List Pt) :=
  (boLoopF includeEnd fuel (boInit segments nd) []).map Prod.snd

/-- The same run, recording every MEET emission with its contributing
segments and interior condition. -/
def boEmits (segments : List Seg) (nd fuel : ℕ) : Option (List Emission) :=
  (boLoopA fuel (boInit segments nd) []).map Prod.snd

/-! ## Claim C5: event ordering at equal x -/

theorem Frac.not_ltb_of_eqb {a b : Frac} (h : Frac.eqb a b = true) :
    Frac.ltb a b = false := by
  simp only [Frac.ltb, Frac.eqb, decide_eq_true_eq, decide_eq_false_iff_not,
    not_lt] at *
  omega

/-- A unit-length vertical segment, whose START and END events share their
x-coordinate and their payload tiebreak component. -/
def vertSeg : Seg := ⟨⟨Frac.ofInt 0, Frac.ofInt 0⟩, ⟨Frac.ofInt 0, Frac.ofInt 1⟩⟩

/-- C5, counterexample.  The claim asserts that for two events with equal
x-coordinate the relative order is not determined by the event kind but by
the final payload tiebreak component.  In the code the second lexicographic
component of the priority tuple is the event kind itself
(`(x, BOEvent, tiebreak)` with `START = 1 < MEET = 2 < END = 3`), so two
priorities with equal x and *equal* final tiebreak components are still
strictly ordered, by kind alone: here the START and END priorities of a
vertical segment (both at `x = 0`, both carrying the same segment as
tiebreak) compare strictly, which the tiebreak field cannot explain. -/
theorem c5_counterexample :
    BOPrio.ltb ⟨Frac.ofInt 0, BOEv.START, BOTb.seg vertSeg⟩
        ⟨Frac.ofInt 0, BOEv.END, BOTb.seg vertSeg⟩ = true
    ∧ BOPrio.ltb ⟨Frac.ofInt 0, BOEv.END, BOTb.seg vertSeg⟩
        ⟨Frac.ofInt 0, BOEv.START, BOTb.seg vertSeg⟩ = false
    ∧ BOTb.eqb (BOTb.seg vertSeg) (BOTb.seg vertSeg) = true
    ∧ Frac.eqb (Frac.ofInt 0) (Frac.ofInt 0) = true := by
  constructor
  · rfl
  constructor
  · rfl
  constructor
  · rfl
  · rfl

/-- C5, amended: for two events with equal x-coordinate, the relative order
in the priority queue *is* determined first by the event kind, with
START (1) before MEET (2) before END (3); the final payload tiebreak
component decides only between two events of the same kind. -/
theorem c5_amended (p q : BOPrio) (h : Frac.eqb p.x q.x = true) :
    BOPrio.ltb p q =
      (decide (p.ev.val < q.ev.val) ||
        (decide (p.ev = q.ev) && BOTb.ltb p.tb q.tb)) := by
  have h1 : Frac.ltb p.x q.x = false := Frac.not_ltb_of_eqb h
  have h2 : (decide (p.ev.val = q.ev.val)) = decide (p.ev = q.ev) := by
    cases p.ev <;> cases q.ev <;> rfl
  simp only [BOPrio.ltb, h1, h, h2, Bool.false_or, Bool.true_and]

/-- Witness for `c5_amended` at a concrete pair of priorities. -/
theorem c5_amended_witness :
    Frac.eqb (Frac.ofInt 3) (Frac.ofInt 3) = true
    ∧ BOPrio.ltb ⟨Frac.ofInt 3, BOEv.MEET, BOTb.yv (Frac.ofInt 7)⟩
        ⟨Frac.ofInt 3, BOEv.END, BOTb.seg vertSeg⟩ =
      (decide (BOEv.MEET.val < BOEv.END.val) ||
        (decide (BOEv.MEET = BOEv.END) &&
          BOTb.ltb (BOTb.yv (Frac.ofInt 7)) (BOTb.seg vertSeg))) :=
  ⟨by rfl,
    c5_amended ⟨Frac.ofInt 3, BOEv.MEET, BOTb.yv (Frac.ofInt 7)⟩
      ⟨Frac.ofInt 3, BOEv.END, BOTb.seg vertSeg⟩ (by rfl)⟩

/-! ## Value-equality toolkit -/

theorem Frac.eqb_refl (a : Frac) : Frac.eqb a a = true := by
  simp [Frac.eqb]

theorem Frac.eqb_trans {a b c : Frac} (h1 : Frac.eqb a b = true)
    (h2 : Frac.eqb b c = true) : Frac.eqb a c = true := by
  simp only [Frac.eqb, decide_eq_true_eq] at *
  have hb := b.den_pos
  have h3 : a.num * c.den * b.den = c.num * a.den * b.den := by
    linear_combination c.den * h1 + a.den * h2
  exact mul_right_cancel₀ (by omega) h3

theorem Frac.not_eqb_of_ltb {a b : Frac} (h : Frac.ltb a b = true) :
    Frac.eqb a b = false := by
  simp only [Frac.ltb, Frac.eqb, decide_eq_true_eq, decide_eq_false_iff_not] at *
  omega

theorem Pt.eqb_refl_pt (p : Pt) : Pt.eqb p p = true := by
  simp [Pt.eqb, Frac.eqb_refl]

theorem Pt.eqb_symm_pt {p q : Pt} (h : Pt.eqb p q = true) : Pt.eqb q p = true := by
  simp only [Pt.eqb, Bool.and_eq_true] at *
  exact ⟨Frac.eqb_symm h.1, Frac.eqb_symm h.2⟩

theorem Pt.eqb_trans_pt {p q r : Pt} (h1 : Pt.eqb p q = true)
    (h2 : Pt.eqb q r = true) : Pt.eqb p r = true := by
  simp only [Pt.eqb, Bool.and_eq_true] at *
  exact ⟨Frac.eqb_trans h1.1 h2.1, Frac.eqb_trans h1.2 h2.2⟩

theorem Seg.eqb_refl_seg (s : Seg) : Seg.eqb s s = true := by
  simp [Seg.eqb, Pt.eqb_refl_pt]

theorem Seg.eqb_symm_seg {s t : Seg} (h : Seg.eqb s t = true) :
    Seg.eqb t s = true := by
  simp only [Seg.eqb, Bool.and_eq_true] at *
  exact ⟨Pt.eqb_symm_pt h.1, Pt.eqb_symm_pt h.2⟩

theorem Seg.eqb_trans_seg {s t u : Seg} (h1 : Seg.eqb s t = true)
    (h2 : Seg.eqb t u = true) : Seg.eqb s u = true := by
  simp only [Seg.eqb, Bool.and_eq_true] at *
  exact ⟨Pt.eqb_trans_pt h1.1 h2.1, Pt.eqb_trans_pt h1.2 h2.2⟩

theorem Pt.ltb_asymm_pt {p q : Pt} (h : Pt.ltb p q = true) :
    Pt.ltb q p = false := by
  simp only [Pt.ltb, Frac.ltb, Frac.eqb, Bool.or_eq_true, Bool.and_eq_true,
    decide_eq_true_eq, Bool.or_eq_false_iff, Bool.and_eq_false_iff,
    decide_eq_false_iff_not, not_lt] at *
  omega

theorem Seg.ltb_asymm_seg {s t : Seg} (h : Seg.ltb s t = true) :
    Seg.ltb t s = false := by
  simp only [Seg.ltb, Pt.ltb, Pt.eqb, Frac.ltb, Frac.eqb, Bool.or_eq_true,
    Bool.and_eq_true, decide_eq_true_eq, Bool.or_eq_false_iff,
    Bool.and_eq_false_iff, decide_eq_false_iff_not, not_lt] at *
  omega

theorem negSlopeLtb_asymm {s t : Seg} (h : negSlopeLtb s t = true) :
    negSlopeLtb t s = false := by
  unfold negSlopeLtb at *
  by_cases hs : Seg.vertical s = true <;> by_cases ht : Seg.vertical t = true <;>
    simp [hs, ht] at *
  exact Frac.ltb_asymm h

theorem negSlope_not_eqb_of_ltb {s t : Seg} (h : negSlopeLtb s t = true) :
    negSlopeEqb s t = false := by
  unfold negSlopeLtb negSlopeEqb at *
  by_cases hs : Seg.vertical s = true <;> by_cases ht : Seg.vertical t = true <;>
    simp [hs, ht] at *
  have := Frac.not_eqb_of_ltb h
  simp only [Frac.eqb, decide_eq_true_eq, decide_eq_false_iff_not] at *
  omega

theorem negSlopeEqb_symm {s t : Seg} (h : negSlopeEqb s t = true) :
    negSlopeEqb t s = true := by
  unfold negSlopeEqb at *
  by_cases hs : Seg.vertical s = true <;> by_cases ht : Seg.vertical t = true <;>
    simp [hs, ht] at *
  exact Frac.eqb_symm h

theorem swapSortLtb_asymm {s t : Seg} (h : swapSortLtb s t = true) :
    swapSortLtb t s = false := by
  simp only [swapSortLtb, Bool.or_eq_true, Bool.and_eq_true] at h
  simp only [swapSortLtb, Bool.or_eq_false_iff, Bool.and_eq_false_iff]
  rcases h with h | ⟨he, hl⟩
  · refine ⟨negSlopeLtb_asymm h, Or.inl ?_⟩
    have := negSlope_not_eqb_of_ltb h
    by_cases hts : negSlopeEqb t s = true
    · have := negSlopeEqb_symm hts
      simp_all
    · simpa using hts
  · constructor
    · by_cases hts : negSlopeLtb t s = true
      · have := negSlope_not_eqb_of_ltb hts
        have := negSlopeEqb_symm he
        simp_all
      · simpa using hts
    · exact Or.inr (Seg.ltb_asymm_seg hl)

/-! ## Claim C9: `include_end` only selects which emissions are reported -/

/-- The points of the emissions selected by an `include_end` setting. -/
def selectEmits (includeEnd : Bool) (l : List Emission) : List Pt :=
  l.filterMap (fun e => if includeEnd || e.interior then some e.pt else none)

theorem selectEmits_append (ie : Bool) (l1 l2 : List Emission) :
    selectEmits ie (l1 ++ l2) = selectEmits ie l1 ++ selectEmits ie l2 :=
  List.filterMap_append l1 l2 _

theorem selectEmits_cons (ie : Bool) (e : Emission) (l : List Emission) :
    selectEmits ie (e :: l) =
      (if ie || e.interior then [e.pt] else []) ++ selectEmits ie l := by
  by_cases h : ie = true ∨ e.interior = true <;>
    simp [selectEmits, List.filterMap_cons, h]

theorem selectEmits_true (l : List Emission) :
    selectEmits true l = l.map Emission.pt := by
  induction l with
  | nil => rfl
  | cons e rest ih =>
    rw [selectEmits_cons, ih]
    simp

theorem selectEmits_false_sublist (l : List Emission) :
    (selectEmits false l).Sublist (l.map Emission.pt) := by
  induction l with
  | nil => simp [selectEmits]
  | cons e rest ih =>
    rw [selectEmits_cons, List.map_cons]
    cases h : e.interior
    · simp only [Bool.false_or, h, Bool.false_eq_true, if_false, List.nil_append]
      exact ih.cons e.pt
    · simp only [Bool.false_or, h, if_true, List.singleton_append]
      exact ih.cons₂ e.pt

/-- The loop as written is the annotated loop followed by emission
selection: the `include_end` flag is consulted nowhere except when a popped
MEET emission is (or is not) appended to the results. -/
theorem boLoopF_eq_boLoopA (ie : Bool) : ∀ (fuel : ℕ) (st : BOState)
    (acc : List Emission),
    boLoopF ie fuel st (selectEmits ie acc) =
      (boLoopA fuel st acc).map (fun r => (r.1, selectEmits ie r.2)) := by
  intro fuel
  induction fuel with
  | zero =>
    intro st acc
    simp only [boLoopF, boLoopA]
    by_cases h : st.queue.isEmpty <;> simp [h]
  | succ n ih =>
    intro st acc
    simp only [boLoopF, boLoopA]
    by_cases h : st.queue.isEmpty
    · simp [h]
    · simp only [h, Bool.false_eq_true, if_false]
      match hs : boStep st with
      | none => simp
      | some (st2, none) => simpa using ih st2 acc
      | some (st2, some em) =>
        simp only
        have hsingle : (if ie || em.interior then selectEmits ie acc ++ [em.pt]
            else selectEmits ie acc) = selectEmits ie (acc ++ [em]) := by
          rw [selectEmits_append, selectEmits_cons]
          cases hi : ie || em.interior <;> simp [selectEmits, hi]
        rw [hsingle]
        exact ih st2 (acc ++ [em])

/-- C9: the two runs of `bentley_ottmann` with `include_end = True` and
`include_end = False` traverse exactly the same sequence of events - the
flag influences only whether a popped MEET emission is appended to the
results, never the tree, queue, counters or caches - so the two final
states coincide, the `include_end = True` output is the full emission
list, and the `include_end = False` output is its subsequence consisting
of the emissions whose interior condition (at least two contributing
segments having the point as an interior point) holds. -/
theorem c9_include_end_filters (segs : List Seg) (nd fuel : ℕ) :
    (boLoopF true fuel (boInit segs nd) []).map Prod.fst
      = (boLoopF false fuel (boInit segs nd) []).map Prod.fst
    ∧ ∀ l, boEmits segs nd fuel = some l →
        bentley_ottmann segs true nd fuel = some (l.map Emission.pt)
        ∧ bentley_ottmann segs false nd fuel = some (selectEmits false l)
        ∧ (selectEmits false l).Sublist (l.map Emission.pt) := by
  have hT := boLoopF_eq_boLoopA true fuel (boInit segs nd) []
  have hF := boLoopF_eq_boLoopA false fuel (boInit segs nd) []
  have hsel : (selectEmits true [] : List Pt) = [] := rfl
  have hsel2 : (selectEmits false [] : List Pt) = [] := rfl
  rw [hsel] at hT
  rw [hsel2] at hF
  constructor
  · rw [hT, hF]
    cases boLoopA fuel (boInit segs nd) [] <;> rfl
  · intro l hl
    simp only [boEmits, Option.map_eq_some'] at hl
    obtain ⟨r, hr, hrl⟩ := hl
    refine ⟨?_, ?_, selectEmits_false_sublist l⟩
    · simp only [bentley_ottmann, hT, hr, Option.map_some', ← hrl,
        selectEmits_true]
    · simp only [bentley_ottmann, hF, hr, Option.map_some', ← hrl]

/-! ## Claim C6: the `swap` reordering at a MEET event -/

theorem isortInsert_chain (lt : α → α → Bool)
    (hasym : ∀ a b, lt a b = true → lt b a = false) (x : α) :
    ∀ l : List α, l.Chain' (fun a b => lt b a = false) →
      (isortInsert lt x l).Chain' (fun a b => lt b a = false) := by
  intro l
  induction l with
  | nil => intro _; simp [isortInsert]
  | cons e rest ih =>
    intro hl
    rw [List.chain'_cons'] at hl
    unfold isortInsert
    by_cases hlt : lt x e = true
    · simp only [hlt, if_true]
      rw [List.chain'_cons]
      exact ⟨hasym _ _ hlt, List.chain'_cons'.mpr hl⟩
    · simp only [hlt, Bool.false_eq_true, if_false]
      rw [List.chain'_cons']
      refine ⟨?_, ih hl.2⟩
      intro h hh
      cases rest with
      | nil =>
        simp only [isortInsert, List.head?_cons, Option.mem_def,
          Option.some_inj] at hh
        subst hh
        simpa using hlt
      | cons r t =>
        unfold isortInsert at hh
        by_cases hxr : lt x r = true
        · simp only [hxr, if_true, List.head?_cons, Option.mem_def,
            Option.some_inj] at hh
          subst hh
          simpa using hlt
        · simp only [hxr, Bool.false_eq_true, if_false, List.head?_cons,
            Option.mem_def, Option.some_inj] at hh
          subst hh
          exact hl.1 r rfl

theorem isort_chain (lt : α → α → Bool)
    (hasym : ∀ a b, lt a b = true → lt b a = false) (l : List α) :
    (isort lt l).Chain' (fun a b => lt b a = false) := by
  induction l with
  | nil => simp [isort]
  | cons e rest ih => exact isortInsert_chain lt hasym e _ ih

theorem isortInsert_perm (lt : α → α → Bool) (x : α) (l : List α) :
    (isortInsert lt x l).Perm (x :: l) := by
  induction l with
  | nil => simp [isortInsert]
  | cons e rest ih =>
    unfold isortInsert
    by_cases hlt : lt x e = true
    · simp [hlt]
    · simp only [hlt, Bool.false_eq_true, if_false]
      exact (List.Perm.cons e ih).trans (List.Perm.swap x e rest)

theorem isort_perm (lt : α → α → Bool) (l : List α) :
    (isort lt l).Perm l := by
  induction l with
  | nil => simp [isort]
  | cons e rest ih =>
    exact (isortInsert_perm lt e (isort lt rest)).trans (List.Perm.cons e ih)

theorem isort_length (lt : α → α → Bool) (l : List α) :
    (isort lt l).length = l.length :=
  (isort_perm lt l).length_eq

theorem rangeMap_pairwise (lo : ℤ) (k : ℕ) :
    ((List.range k).map (fun (i : ℕ) => lo + (i : ℤ))).Pairwise (· < ·) := by
  refine List.Pairwise.map _ ?_ (List.pairwise_lt_range k)
  intro a b hab
  omega

theorem rangeMap_mem (lo : ℤ) (k : ℕ) (e : ℤ) :
    e ∈ (List.range k).map (fun (i : ℕ) => lo + (i : ℤ)) ↔ lo ≤ e ∧ e < lo + k := by
  simp only [List.mem_map, List.mem_range]
  constructor
  · rintro ⟨i, hi, rfl⟩
    omega
  · rintro ⟨h1, h2⟩
    exact ⟨(e - lo).toNat, by omega, by omega⟩

/-- The list of offsets of `swapSteps` is strictly increasing. -/
theorem swapSteps_pairwise (n : ℕ) : (swapSteps n).Pairwise (· < ·) := by
  unfold swapSteps
  by_cases h : n % 2 = 0
  · simp only [h, if_true]
    exact (rangeMap_pairwise _ _).sublist (List.erase_sublist 0 _)
  · simp only [h, if_false]
    exact rangeMap_pairwise _ _

theorem map_snd_zip_eq_take (l1 : List α) :
    ∀ l2 : List β, ((l1.zip l2).map Prod.snd) = l2.take l1.length := by
  induction l1 with
  | nil => intro l2; simp
  | cons a t ih =>
    intro l2
    cases l2 with
    | nil => simp
    | cons b t2 => simp [List.zip_cons_cons, ih]

theorem map_fst_zip_eq_take (l1 : List α) :
    ∀ l2 : List β, ((l1.zip l2).map Prod.fst) = l1.take l2.length := by
  induction l1 with
  | nil => intro l2; simp
  | cons a t ih =>
    intro l2
    cases l2 with
    | nil => simp
    | cons b t2 => simp [List.zip_cons_cons, ih]

theorem swapSteps_fdiv_conv (a : ℤ) : Int.fdiv a 2 = a / 2 :=
  Int.fdiv_eq_ediv a (by omega)

theorem swapSteps_length (n : ℕ) (hn : 2 ≤ n) : n ≤ (swapSteps n).length := by
  unfold swapSteps
  simp only [swapSteps_fdiv_conv]
  by_cases h : n % 2 = 0
  · simp only [h, if_true]
    have hmem : (0 : ℤ) ∈ (List.range (((n : ℤ) / 2 + 1 -
        (-(n : ℤ)) / 2).toNat)).map (fun (i : ℕ) => (-(n : ℤ)) / 2 + (i : ℤ)) := by
      rw [rangeMap_mem]
      omega
    rw [List.length_erase_of_mem hmem]
    simp only [List.length_map, List.length_range]
    omega
  · simp only [h, if_false]
    simp only [List.length_map, List.length_range]
    omega

/-- Membership in the offsets list for an even group size: the block of
consecutive integers from `-(n/2)` to `n/2` with `0` removed. -/
theorem swapSteps_mem_even (n : ℕ) (hn : 2 ≤ n) (he : n % 2 = 0) (e : ℤ) :
    e ∈ swapSteps n ↔ (e ≠ 0 ∧ -((n : ℤ) / 2) ≤ e ∧ e ≤ (n : ℤ) / 2) := by
  unfold swapSteps
  simp only [swapSteps_fdiv_conv, he, if_true]
  have hnodup : ((List.range (((n : ℤ) / 2 + 1 - (-(n : ℤ)) / 2).toNat)).map
      (fun (i : ℕ) => (-(n : ℤ)) / 2 + (i : ℤ))).Nodup :=
    (rangeMap_pairwise _ _).nodup
  rw [hnodup.mem_erase_iff, rangeMap_mem]
  omega

/-- Sequential overwrite of tree slots starting at a position. -/
def writeList (l : List Seg) (pos : ℕ) : List Seg → List Seg
  | [] => l
  | s :: rest => writeList (l.set pos s) (pos + 1) rest

theorem assignY_tree (st : BOState) (ipy : Frac) (p : Seg × ℤ) :
    (assignY st ipy p).tree = st.tree := rfl

/-- Unfolding of one `swapRewrite` step. -/
theorem swapRewrite_cons (st : BOState) (ipy : Frac) (s : Seg) (step : ℤ)
    (pos : ℕ) (rest : List (Seg × ℤ)) :
    swapRewrite ipy st pos ((s, step) :: rest) =
      swapRewrite ipy
        { assignY st ipy (s, step) with
          tree := (assignY st ipy (s, step)).tree.set pos s }
        (if pos + 1 < st.tree.length then pos + 1 else pos) rest := by
  simp only [swapRewrite, assignY, List.length_set]

theorem swapRewrite_tree (ipy : Frac) :
    ∀ (pairs : List (Seg × ℤ)) (st : BOState) (pos : ℕ),
      pos + pairs.length ≤ st.tree.length →
      (swapRewrite ipy st pos pairs).tree =
        writeList st.tree pos (pairs.map Prod.fst) := by
  intro pairs
  induction pairs with
  | nil => intro st pos _; rfl
  | cons p rest ih =>
    intro st pos hlen
    obtain ⟨s, step⟩ := p
    simp only [List.length_cons] at hlen
    rw [swapRewrite_cons]
    cases rest with
    | nil => rfl
    | cons q t =>
      have hnext : pos + 1 < st.tree.length := by
        simp only [List.length_cons] at hlen
        omega
      rw [if_pos hnext, ih]
      · rfl
      · simp only [assignY_tree, List.length_set, List.length_cons] at *
        omega

theorem lookupW_updateW_self (m : List (Seg × WrapSt)) (s : Seg) (w : WrapSt) :
    lookupW (updateW m s w) s = w := by
  induction m with
  | nil => simp [updateW, lookupW, Seg.eqb_refl_seg]
  | cons e rest ih =>
    obtain ⟨t, w0⟩ := e
    by_cases h : Seg.eqb t s = true <;>
      simp [updateW, lookupW, h, ih]

theorem Seg.eqb_false_symm_seg {s t : Seg} (h : Seg.eqb s t = false) :
    Seg.eqb t s = false := by
  by_cases h2 : Seg.eqb t s = true
  · have := Seg.eqb_symm_seg h2
    simp_all
  · simpa using h2

theorem lookupW_updateW_ne (m : List (Seg × WrapSt)) (s t : Seg) (w : WrapSt)
    (hne : Seg.eqb t s = false) :
    lookupW (updateW m s w) t = lookupW m t := by
  induction m with
  | nil =>
    simp only [updateW, lookupW]
    simp [Seg.eqb_false_symm_seg hne]
  | cons e rest ih =>
    obtain ⟨h0, w0⟩ := e
    by_cases hh : Seg.eqb h0 s = true
    · have hht : Seg.eqb h0 t = false := by
        by_cases h2 : Seg.eqb h0 t = true
        · have := Seg.eqb_trans_seg (Seg.eqb_symm_seg h2) hh
          simp_all
        · simpa using h2
      simp [updateW, lookupW, hh, hht]
    · simp [updateW, lookupW, hh, ih]

/-- Wrapper assignments of `swapRewrite` do not touch segments outside the
written group. -/
theorem swapRewrite_wrappers_keep (ipy : Frac) :
    ∀ (pairs : List (Seg × ℤ)) (st : BOState) (pos : ℕ) (s : Seg),
      (∀ q ∈ pairs, Seg.eqb q.1 s = false) →
      lookupW (swapRewrite ipy st pos pairs).wrappers s =
        lookupW st.wrappers s := by
  intro pairs
  induction pairs with
  | nil => intro st pos s _; rfl
  | cons q rest ih =>
    intro st pos s hq
    obtain ⟨s0, e0⟩ := q
    rw [swapRewrite_cons, ih _ _ _ (fun q hh => hq q (by simp [hh]))]
    have hne : Seg.eqb s s0 = false :=
      Seg.eqb_false_symm_seg (hq (s0, e0) (by simp))
    exact lookupW_updateW_ne _ _ _ _ hne

/-- After `swapRewrite`, every segment of the (pairwise distinct) written
group carries the synthetic y-value with its assigned offset, cached at the
current sweep position. -/
theorem swapRewrite_wrappers (ipy : Frac) :
    ∀ (pairs : List (Seg × ℤ)) (st : BOState) (pos : ℕ),
      (pairs.map Prod.fst).Pairwise (fun s t => Seg.eqb s t = false) →
      ∀ s e, (s, e) ∈ pairs →
        lookupW (swapRewrite ipy st pos pairs).wrappers s =
          ⟨st.sweep, some ⟨ipy, e⟩⟩ := by
  intro pairs
  induction pairs with
  | nil => intro st pos _ s e h; simp at h
  | cons p rest ih =>
    intro st pos hnd s e hmem
    obtain ⟨s0, e0⟩ := p
    simp only [List.map_cons, List.pairwise_cons] at hnd
    rcases List.mem_cons.mp hmem with heq | hmem2
    · injection heq with h1 h2
      subst h1
      subst h2
      rw [swapRewrite_cons]
      rw [swapRewrite_wrappers_keep ipy rest _ _ s ?hrest]
      case hrest =>
        intro q hq
        exact Seg.eqb_false_symm_seg
          (hnd.1 q.1 (List.mem_map.mpr ⟨q, hq, rfl⟩))
      exact lookupW_updateW_self _ _ _
    · rw [swapRewrite_cons]
      exact ih _ _ hnd.2 s e hmem2

/-- The rising diagonal from `(0,0)` to `(2,2)`. -/
def diagUp : Seg := ⟨⟨Frac.ofInt 0, Frac.ofInt 0⟩, ⟨Frac.ofInt 2, Frac.ofInt 2⟩⟩

/-- The falling diagonal from `(0,2)` to `(2,0)`. -/
def diagDown : Seg := ⟨⟨Frac.ofInt 0, Frac.ofInt 2⟩, ⟨Frac.ofInt 2, Frac.ofInt 0⟩⟩

/-- The horizontal segment from `(0,1)` to `(2,1)`. -/
def horizMid : Seg := ⟨⟨Frac.ofInt 0, Frac.ofInt 1⟩, ⟨Frac.ofInt 2, Frac.ofInt 1⟩⟩

/-- The two diagonals of a square, crossing at `(1, 1)`. -/
def segsX : List Seg := [diagUp, diagDown]

/-- Three concurrent segments all passing through `(1, 1)`. -/
def tripleScene : List Seg := [diagUp, diagDown, horizMid]

/-- Iterate `boStep`, discarding emissions. -/
def stepN : ℕ → BOState → Option BOState
  | 0, st => some st
  | k + 1, st =>
    match boStep st with
    | none => none
    | some (st2, _) => stepN k st2

/-- C6, amended: at a MEET event `swap` sorts the crossing group by
decreasing slope (which is the bottom-to-top order immediately *before*
the crossing), and writes the *reversed* group back into the tree
bottom-to-top, i.e. the post-crossing bottom-to-top order is ascending
slope; each segment's wrapper receives a synthetic y-value whose
infinitesimal step offset strictly increases bottom-to-top, so the
synthetic values are pairwise distinct and their order matches the
post-crossing vertical order; the offsets are placed symmetrically around
the true intersection y only when the group size is even (for an odd
group the offset block is shifted one step below center). -/
theorem c6_amended (group : List Seg) (st : BOState) (ipy : Frac) (pos : ℕ)
    (hn : 2 ≤ group.length)
    (hpos : pos + group.length ≤ st.tree.length)
    (hnd : group.Pairwise (fun s t => Seg.eqb s t = false)) :
    (isort swapSortLtb group).Chain' (fun s t => swapSortLtb t s = false)
    ∧ ((isort swapSortLtb group).reverse.zip (swapSteps group.length)).map
        Prod.fst = (isort swapSortLtb group).reverse
    ∧ (swapRewrite ipy st pos ((isort swapSortLtb group).reverse.zip
        (swapSteps group.length))).tree
      = writeList st.tree pos (isort swapSortLtb group).reverse
    ∧ (((isort swapSortLtb group).reverse.zip
        (swapSteps group.length)).map Prod.snd).Pairwise (· < ·)
    ∧ (∀ s e, (s, e) ∈ (isort swapSortLtb group).reverse.zip
          (swapSteps group.length) →
        lookupW (swapRewrite ipy st pos ((isort swapSortLtb group).reverse.zip
          (swapSteps group.length))).wrappers s = ⟨st.sweep, some ⟨ipy, e⟩⟩)
    ∧ (group.length % 2 = 0 → ∀ e : ℤ,
        e ∈ swapSteps group.length ↔ -e ∈ swapSteps group.length) := by
  have hlenrev : (isort swapSortLtb group).reverse.length = group.length := by
    rw [List.length_reverse, isort_length]
  have hsteps : group.length ≤ (swapSteps group.length).length :=
    swapSteps_length _ hn
  have hfst : ((isort swapSortLtb group).reverse.zip
      (swapSteps group.length)).map Prod.fst =
        (isort swapSortLtb group).reverse := by
    rw [map_fst_zip_eq_take, List.take_of_length_le (by omega)]
  have hziplen : ((isort swapSortLtb group).reverse.zip
      (swapSteps group.length)).length = group.length := by
    rw [List.length_zip, hlenrev]
    omega
  refine ⟨isort_chain _ (fun a b h => swapSortLtb_asymm h) group, hfst,
    ?_, ?_, ?_, ?_⟩
  · rw [swapRewrite_tree _ _ _ _ (by omega), hfst]
  · rw [map_snd_zip_eq_take]
    exact (swapSteps_pairwise _).sublist (List.take_sublist _ _)
  · intro s e hmem
    refine swapRewrite_wrappers ipy _ st pos ?_ s e hmem
    rw [hfst]
    rw [List.pairwise_reverse]
    exact (((isort_perm swapSortLtb group).pairwise_iff
      (fun {a b} h => Seg.eqb_false_symm_seg h)).mpr hnd).imp
      (fun h => Seg.eqb_false_symm_seg h)
  · intro he e
    rw [swapSteps_mem_even _ hn he, swapSteps_mem_even _ hn he]
    omega

/-- A state with two tree slots, for the witness of `c6_amended`. -/
def c6WitnessState : BOState :=
  { nd := 9, sweep := some (Frac.ofInt 1), queue := [],
    tree := [diagUp, diagDown], wrappers := [], icache := [],
    counts := [], simap := [] }

/-- Witness for `c6_amended` at a concrete two-segment group. -/
theorem c6_amended_witness :
    (2 ≤ ([diagUp, diagDown] : List Seg).length)
    ∧ (0 + ([diagUp, diagDown] : List Seg).length ≤
        c6WitnessState.tree.length)
    ∧ ([diagUp, diagDown] : List Seg).Pairwise
        (fun s t => Seg.eqb s t = false)
    ∧ (isort swapSortLtb [diagUp, diagDown]).Chain'
        (fun s t => swapSortLtb t s = false)
    ∧ (([diagUp, diagDown] : List Seg).length % 2 = 0 → ∀ e : ℤ,
        e ∈ swapSteps ([diagUp, diagDown] : List Seg).length ↔
          -e ∈ swapSteps ([diagUp, diagDown] : List Seg).length) :=
  ⟨by decide, by decide, by decide,
    (c6_amended [diagUp, diagDown] c6WitnessState (Frac.ofInt 1) 0
      (by decide) (by decide) (by decide)).1,
    (c6_amended [diagUp, diagDown] c6WitnessState (Frac.ofInt 1) 0
      (by decide) (by decide) (by decide)).2.2.2.2.2⟩

/-- Whether a segment's wrapper currently caches the synthetic value
`q + e * epsilon`. -/
def wrapOffsetIs (st : BOState) (s : Seg) (q : Frac) (e : ℤ) : Bool :=
  match (lookupW st.wrappers s).cy with
  | some yv => Frac.eqb yv.q q && decide (yv.e = e)
  | none => false

/-- The state of the triple-crossing run right after its MEET event: the
three STARTs and the MEET at `(1,1)` have been processed. -/
def c6Check : Bool :=
  match stepN 4 (boInit tripleScene 9) with
  | none => false
  | some st =>
    (match st.tree with
     | [t0, t1, t2] =>
       Seg.eqb t0 diagDown && Seg.eqb t1 horizMid && Seg.eqb t2 diagUp
     | _ => false)
    && wrapOffsetIs st diagUp (Frac.ofInt 1) 0
    && wrapOffsetIs st horizMid (Frac.ofInt 1) (-1)
    && wrapOffsetIs st diagDown (Frac.ofInt 1) (-2)

/-- C6, counterexample.  For the three concurrent segments of
`tripleScene` (slopes 1, 0, -1 crossing at `(1,1)`), after the MEET event
the tree holds, bottom to top, the falling diagonal, the horizontal and
the rising diagonal - *ascending* slope, not the descending-slope order
the claim states - and the synthetic y-offsets assigned to them are
`-2, -1, 0`: the block of offsets is not placed symmetrically around the
true intersection y (the offset `-2` is used but `2` is not), because for
an odd group size Python's floor division shifts `range(-n // 2, n // 2
+ 1)` one step below center and the `0` offset is only removed for even
sizes. -/
theorem c6_counterexample :
    c6Check = true
    ∧ Frac.ltb (Seg.slope diagDown) (Seg.slope horizMid) = true
    ∧ Frac.ltb (Seg.slope horizMid) (Seg.slope diagUp) = true
    ∧ ((-2 : ℤ) ∈ ((isort swapSortLtb tripleScene).reverse.zip
        (swapSteps 3)).map Prod.snd)
    ∧ ¬((2 : ℤ) ∈ ((isort swapSortLtb tripleScene).reverse.zip
        (swapSteps 3)).map Prod.snd) := by
  refine ⟨by rfl, by rfl, by rfl, by decide, by decide⟩

/-- Witness for `c9_include_end_filters`, at the crossing-diagonals scene. -/
theorem c9_include_end_filters_witness :
    ∃ l, boEmits segsX 9 100 = some l
      ∧ bentley_ottmann segsX true 9 100 = some (l.map Emission.pt)
      ∧ bentley_ottmann segsX false 9 100 = some (selectEmits false l)
      ∧ (selectEmits false l).Sublist (l.map Emission.pt) := by
  have hs : (boEmits segsX 9 100).isSome = true := by rfl
  obtain ⟨l, hl⟩ := Option.isSome_iff_exists.mp hs
  obtain ⟨h1, h2, h3⟩ := (c9_include_end_filters segsX 9 100).2 l hl
  exact ⟨l, hl, h1, h2, h3⟩

/-! ## Claim C4: queue/counter bookkeeping invariants -/

/-- Whether a queue entry is the MEET entry for the point `p`. -/
def isMeetFor (e : BOEntry) (p : Pt) : Bool :=
  decide (e.ev = BOEv.MEET) &&
    (match e.data with
     | .pt q => Pt.eqb q p
     | _ => false)

/-- The bookkeeping invariant maintained between events: for every point,
at most one MEET entry is in the queue; a MEET entry is present only if the
point's contributing-segment count is positive; and the count is always
even (contributions are added and removed in pairs). -/
def qInv (st : BOState) : Prop :=
  ∀ p : Pt, (st.queue.countP (fun e => isMeetFor e p)) ≤ 1
    ∧ ((∃ e ∈ st.queue, isMeetFor e p = true) → 0 < countsTotal st p)
    ∧ countsTotal st p % 2 = 0

def sumSnd (l : List (Seg × ℤ)) : ℤ := (l.map Prod.snd).sum

theorem foldl_add_eq_sumSnd (l : List (Seg × ℤ)) :
    ∀ a : ℤ, l.foldl (fun acc sc => acc + sc.2) a = a + sumSnd l := by
  induction l with
  | nil => intro a; simp [sumSnd]
  | cons e rest ih =>
    intro a
    simp only [List.foldl_cons, ih, sumSnd, List.map_cons, List.sum_cons]
    ring

theorem countsTotal_eq (st : BOState) (p : Pt) :
    countsTotal st p = sumSnd (countsGet st.counts p) := by
  unfold countsTotal
  rw [foldl_add_eq_sumSnd]
  ring

theorem Pt.eqb_congr_right {p q : Pt} (r : Pt) (h : Pt.eqb p q = true) :
    Pt.eqb r p = Pt.eqb r q := by
  by_cases h1 : Pt.eqb r p = true
  · rw [h1, Pt.eqb_trans_pt h1 h]
  · simp only [Bool.not_eq_true] at h1
    rw [h1]
    by_cases h2 : Pt.eqb r q = true
    · have := Pt.eqb_trans_pt h2 (Pt.eqb_symm_pt h)
      simp_all
    · simp only [Bool.not_eq_true] at h2
      rw [h2]

theorem countsGet_congr (m : List (Pt × List (Seg × ℤ))) {p q : Pt}
    (h : Pt.eqb p q = true) : countsGet m p = countsGet m q := by
  induction m with
  | nil => rfl
  | cons e rest ih =>
    obtain ⟨r, inner⟩ := e
    simp only [countsGet, Pt.eqb_congr_right r h]
    by_cases h2 : Pt.eqb r q = true <;> simp [h2, ih]

theorem countsGet_countsBump_self (m : List (Pt × List (Seg × ℤ))) (ip : Pt)
    (s : Seg) (d : ℤ) :
    countsGet (countsBump m ip s d) ip = bumpCount (countsGet m ip) s d := by
  induction m with
  | nil => simp [countsBump, countsGet, bumpCount, Pt.eqb_refl_pt]
  | cons e rest ih =>
    obtain ⟨r, inner⟩ := e
    by_cases h : Pt.eqb r ip = true <;> simp [countsBump, countsGet, h, ih]

theorem countsGet_countsBump_other (m : List (Pt × List (Seg × ℤ))) (ip : Pt)
    (s : Seg) (d : ℤ) (p : Pt) (h : Pt.eqb p ip = false) :
    countsGet (countsBump m ip s d) p = countsGet m p := by
  induction m with
  | nil =>
    simp only [countsBump, countsGet]
    have : Pt.eqb ip p = false := by
      by_cases h2 : Pt.eqb ip p = true
      · have := Pt.eqb_symm_pt h2
        simp_all
      · simpa using h2
    simp [this]
  | cons e rest ih =>
    obtain ⟨r, inner⟩ := e
    by_cases h2 : Pt.eqb r ip = true
    · have hrp : Pt.eqb r p = false := by
        by_cases h3 : Pt.eqb r p = true
        · have := Pt.eqb_trans_pt (Pt.eqb_symm_pt h3) h2
          simp_all
        · simpa using h3
      simp [countsBump, countsGet, h2, hrp]
    · simp [countsBump, countsGet, h2, ih]

theorem sumSnd_bumpCount (l : List (Seg × ℤ)) (s : Seg) (d : ℤ) :
    sumSnd (bumpCount l s d) = sumSnd l + d := by
  induction l with
  | nil => simp [bumpCount, sumSnd]
  | cons e rest ih =>
    obtain ⟨t, c⟩ := e
    by_cases h : Seg.eqb t s = true
    · simp [bumpCount, sumSnd, h]
      ring
    · simp only [bumpCount, h, Bool.false_eq_true, if_false]
      simp only [sumSnd, List.map_cons, List.sum_cons] at *
      omega

/-- The contributing total of a point after a counter bump. -/
theorem ctot_bump (m : List (Pt × List (Seg × ℤ))) (ip : Pt) (s : Seg)
    (d : ℤ) (p : Pt) :
    sumSnd (countsGet (countsBump m ip s d) p) =
      sumSnd (countsGet m p) + (if Pt.eqb p ip = true then d else 0) := by
  by_cases h : Pt.eqb p ip = true
  · rw [countsGet_congr _ h, countsGet_congr m h, countsGet_countsBump_self,
      sumSnd_bumpCount]
    simp [h]
  · rw [countsGet_countsBump_other _ _ _ _ _ (by simpa using h)]
    simp [h]

theorem get_intersect_frame (st : BOState) (s1 s2 : Seg) :
    (get_intersect st s1 s2).1.queue = st.queue
    ∧ (get_intersect st s1 s2).1.counts = st.counts
    ∧ (get_intersect st s1 s2).1.sweep = st.sweep
    ∧ (get_intersect st s1 s2).1.tree = st.tree
    ∧ (get_intersect st s1 s2).1.wrappers = st.wrappers
    ∧ (get_intersect st s1 s2).1.nd = st.nd := by
  cases hic : icacheGet st.icache
      (if Seg.ltb s1 s2 = true then (s1, s2) else (s2, s1)) with
  | some v =>
    simp only [get_intersect, hic]
    exact ⟨trivial, trivial, trivial, trivial, trivial, trivial⟩
  | none =>
    cases hi : Seg.intersect s1 s2 true with
    | some raw =>
      simp only [get_intersect, hic, hi]
      exact ⟨trivial, trivial, trivial, trivial, trivial, trivial⟩
    | none =>
      simp only [get_intersect, hic, hi]
      exact ⟨trivial, trivial, trivial, trivial, trivial, trivial⟩

theorem queueRemove_sublist :
    ∀ (q : List BOEntry) (pr : BOPrio) (ev : BOEv) (da : BOData)
      (q2 : List BOEntry), queueRemove q pr ev da = some q2 → q2.Sublist q := by
  intro q
  induction q with
  | nil => intro pr ev da q2 h; simp [queueRemove] at h
  | cons e rest ih =>
    intro pr ev da q2 h
    simp only [queueRemove] at h
    by_cases hm : (BOPrio.eqb e.prio pr && decide (e.ev = ev) &&
        BOData.eqb e.data da) = true
    · simp only [hm, if_true, Option.some_inj] at h
      subst h
      exact (List.sublist_cons_self e rest).trans (List.Sublist.refl _)
    · simp only [hm, Bool.false_eq_true, if_false, Option.map_eq_some'] at h
      obtain ⟨q3, hq3, rfl⟩ := h
      exact (ih pr ev da q3 hq3).cons₂ e

/-- Removing a matching entry decrements the count of any predicate that
the matched entry satisfies. -/
theorem queueRemove_countP :
    ∀ (q : List BOEntry) (pr : BOPrio) (ev : BOEv) (da : BOData)
      (q2 : List BOEntry), queueRemove q pr ev da = some q2 →
      ∀ f : BOEntry → Bool,
        (∀ e, (BOPrio.eqb e.prio pr && decide (e.ev = ev) &&
          BOData.eqb e.data da) = true → f e = true) →
        q.countP f = q2.countP f + 1 := by
  intro q
  induction q with
  | nil => intro pr ev da q2 h; simp [queueRemove] at h
  | cons e rest ih =>
    intro pr ev da q2 h f hf
    simp only [queueRemove] at h
    by_cases hm : (BOPrio.eqb e.prio pr && decide (e.ev = ev) &&
        BOData.eqb e.data da) = true
    · simp only [hm, if_true, Option.some_inj] at h
      subst h
      rw [List.countP_cons_of_pos _ _ (hf e hm)]
    · simp only [hm, Bool.false_eq_true, if_false, Option.map_eq_some'] at h
      obtain ⟨q3, hq3, rfl⟩ := h
      rw [List.countP_cons, List.countP_cons, ih pr ev da q3 hq3 f hf]
      omega

theorem countsTotal_congr' (st : BOState) {p q : Pt} (h : Pt.eqb p q = true) :
    countsTotal st p = countsTotal st q := by
  rw [countsTotal_eq, countsTotal_eq, countsGet_congr _ h]

theorem qInv_frame {st st2 : BOState} (hq : st2.queue = st.queue)
    (hc : st2.counts = st.counts) (h : qInv st) : qInv st2 := by
  intro p
  obtain ⟨h1, h2, h3⟩ := h p
  have hct : countsTotal st2 p = countsTotal st p := by
    unfold countsTotal
    rw [hc]
  refine ⟨?_, ?_, ?_⟩
  · rw [hq]
    exact h1
  · intro hex
    rw [hq] at hex
    rw [hct]
    exact h2 hex
  · rw [hct]
    exact h3

theorem Pt.eqb_false_symm_pt {p q : Pt} (h : Pt.eqb p q = false) :
    Pt.eqb q p = false := by
  by_cases h2 : Pt.eqb q p = true
  · have := Pt.eqb_symm_pt h2
    simp_all
  · simpa using h2

theorem isMeetFor_meetEntry (ip p : Pt) :
    isMeetFor ⟨⟨ip.x, BOEv.MEET, BOTb.yv ip.y⟩, BOEv.MEET, BOData.pt ip⟩ p =
      Pt.eqb ip p := by
  simp [isMeetFor]

/-- The total of a point after the paired counter bumps of
`schedule_intersect` / `unschedule_intersect`. -/
theorem countsTotal_bump2 (st : BOState) (ip : Pt) (s1 s2 : Seg) (d : ℤ)
    (p : Pt) (st2 : BOState)
    (hc : st2.counts = countsBump (countsBump st.counts ip s1 d) ip s2 d) :
    countsTotal st2 p =
      countsTotal st p + (if Pt.eqb p ip = true then 2 * d else 0) := by
  rw [countsTotal_eq, countsTotal_eq, hc, ctot_bump, ctot_bump]
  by_cases h : Pt.eqb p ip = true <;> simp [h] <;> ring

/-- The queue/counter invariant survives pushing a fresh MEET entry for a
point with zero count while bumping its count by a pair. -/
theorem qInv_push_bump (st1 : BOState) (ip : Pt) (s1 s2 : Seg)
    (st2 : BOState)
    (hq : st2.queue = st1.queue ++
      [⟨⟨ip.x, BOEv.MEET, BOTb.yv ip.y⟩, BOEv.MEET, BOData.pt ip⟩])
    (hc : st2.counts = countsBump (countsBump st1.counts ip s1 1) ip s2 1)
    (hz : countsTotal st1 ip = 0) (h : qInv st1) : qInv st2 := by
  intro p
  obtain ⟨h1, h2, h3⟩ := h p
  have htot : countsTotal st2 p =
      countsTotal st1 p + (if Pt.eqb p ip = true then 2 else 0) := by
    have := countsTotal_bump2 st1 ip s1 s2 1 p st2 hc
    simpa using this
  refine ⟨?_, ?_, ?_⟩
  · rw [hq, List.countP_append]
    by_cases hpe : Pt.eqb ip p = true
    · have hpc : countsTotal st1 p = 0 := by
        rw [countsTotal_congr' st1 (Pt.eqb_symm_pt hpe)]
        exact hz
      have hnone : st1.queue.countP (fun e => isMeetFor e p) = 0 := by
        rw [List.countP_eq_zero]
        intro e he
        by_cases hm : isMeetFor e p = true
        · exact absurd (h2 ⟨e, he, hm⟩) (by omega)
        · simpa using hm
      simp [hnone, List.countP_cons, isMeetFor_meetEntry, hpe]
    · have hcz : (List.countP (fun e => isMeetFor e p)
          [⟨⟨ip.x, BOEv.MEET, BOTb.yv ip.y⟩, BOEv.MEET, BOData.pt ip⟩])
            = 0 := by
        simp [List.countP_cons, isMeetFor_meetEntry, hpe]
      omega
  · intro hex
    rw [htot]
    by_cases hpe : Pt.eqb p ip = true
    · simp only [hpe, if_true]
      have : 0 ≤ countsTotal st1 p := by
        rw [countsTotal_congr' st1 hpe, hz]
      omega
    · simp only [hpe, Bool.false_eq_true, if_false, add_zero]
      rw [hq] at hex
      obtain ⟨e, he, hm⟩ := hex
      rcases List.mem_append.mp he with hold | hnew
      · exact h2 ⟨e, hold, hm⟩
      · exfalso
        simp only [List.mem_singleton] at hnew
        subst hnew
        rw [isMeetFor_meetEntry] at hm
        exact absurd (Pt.eqb_symm_pt hm) (by simp [hpe])
  · rw [htot]
    by_cases hpe : Pt.eqb p ip = true <;> simp [hpe] <;> omega

/-- The queue/counter invariant survives a pair bump of an already-positive
count with no queue change. -/
theorem qInv_bump_only (st1 : BOState) (ip : Pt) (s1 s2 : Seg) (d : ℤ)
    (st2 : BOState) (hq : st2.queue = st1.queue)
    (hc : st2.counts = countsBump (countsBump st1.counts ip s1 d) ip s2 d)
    (hd : 0 < d) (h : qInv st1) : qInv st2 := by
  intro p
  obtain ⟨h1, h2, h3⟩ := h p
  have htot : countsTotal st2 p =
      countsTotal st1 p + (if Pt.eqb p ip = true then 2 * d else 0) :=
    countsTotal_bump2 st1 ip s1 s2 d p st2 hc
  refine ⟨?_, ?_, ?_⟩
  · rw [hq]
    exact h1
  · intro hex
    rw [hq] at hex
    have := h2 hex
    rw [htot]
    by_cases hpe : Pt.eqb p ip = true <;> simp [hpe] <;> omega
  · rw [htot]
    by_cases hpe : Pt.eqb p ip = true <;> simp [hpe] <;> omega

theorem isMeetFor_of_removeMatch (ip p : Pt) (e : BOEntry)
    (hpe : Pt.eqb p ip = true)
    (hm : (BOPrio.eqb e.prio ⟨ip.x, BOEv.MEET, BOTb.yv ip.y⟩ &&
      decide (e.ev = BOEv.MEET) && BOData.eqb e.data (BOData.pt ip)) = true) :
    isMeetFor e p = true := by
  simp only [Bool.and_eq_true, decide_eq_true_eq] at hm
  obtain ⟨⟨_, hev⟩, hdata⟩ := hm
  unfold isMeetFor
  cases hdat : e.data with
  | seg s => rw [hdat] at hdata; simp [BOData.eqb] at hdata
  | pt q =>
    rw [hdat] at hdata
    simp only [BOData.eqb] at hdata
    simp only [hev, decide_eq_true_eq, Bool.true_and, decide_True]
    exact Pt.eqb_trans_pt hdata (Pt.eqb_symm_pt hpe)

/-- The queue/counter invariant survives the unschedule path that removes
the MEET entry when the count returns to zero. -/
theorem qInv_unbump_remove (st1 : BOState) (ip : Pt) (s1 s2 : Seg)
    (st2 : BOState) (q2 : List BOEntry)
    (hrm : queueRemove st1.queue ⟨ip.x, BOEv.MEET, BOTb.yv ip.y⟩ BOEv.MEET
      (BOData.pt ip) = some q2)
    (hq : st2.queue = q2)
    (hc : st2.counts =
      countsBump (countsBump st1.counts ip s1 (-1)) ip s2 (-1))
    (h : qInv st1) : qInv st2 := by
  intro p
  obtain ⟨h1, h2, h3⟩ := h p
  have htot : countsTotal st2 p =
      countsTotal st1 p + (if Pt.eqb p ip = true then -2 else 0) := by
    have := countsTotal_bump2 st1 ip s1 s2 (-1) p st2 hc
    simpa using this
  have hsub : q2.Sublist st1.queue := queueRemove_sublist _ _ _ _ _ hrm
  by_cases hpe : Pt.eqb p ip = true
  · have hcount := queueRemove_countP _ _ _ _ _ hrm
      (fun e => isMeetFor e p) (fun e hm => isMeetFor_of_removeMatch ip p e hpe hm)
    have hzero : q2.countP (fun e => isMeetFor e p) = 0 := by omega
    refine ⟨?_, ?_, ?_⟩
    · rw [hq, hzero]
      omega
    · intro hex
      exfalso
      rw [hq] at hex
      obtain ⟨e, he, hm⟩ := hex
      have : 0 < q2.countP (fun e => isMeetFor e p) :=
        List.countP_pos.mpr ⟨e, he, hm⟩
      omega
    · rw [htot]
      simp only [hpe, if_true]
      omega
  · refine ⟨?_, ?_, ?_⟩
    · rw [hq]
      exact le_trans (hsub.countP_le _) h1
    · intro hex
      rw [hq] at hex
      obtain ⟨e, he, hm⟩ := hex
      have := h2 ⟨e, hsub.mem he, hm⟩
      rw [htot]
      simp only [hpe, Bool.false_eq_true, if_false, add_zero]
      exact this
    · rw [htot]
      simp only [hpe, Bool.false_eq_true, if_false, add_zero]
      exact h3

/-- The queue/counter invariant survives a pair decrement whose resulting
count is still nonzero. -/
theorem qInv_unbump_only (st1 : BOState) (ip : Pt) (s1 s2 : Seg)
    (st2 : BOState) (hq : st2.queue = st1.queue)
    (hc : st2.counts =
      countsBump (countsBump st1.counts ip s1 (-1)) ip s2 (-1))
    (hnz : ¬ countsTotal st2 ip = 0)
    (h : qInv st1) : qInv st2 := by
  intro p
  obtain ⟨h1, h2, h3⟩ := h p
  have htot : countsTotal st2 p =
      countsTotal st1 p + (if Pt.eqb p ip = true then -2 else 0) := by
    have := countsTotal_bump2 st1 ip s1 s2 (-1) p st2 hc
    simpa using this
  have htotp : countsTotal st2 ip =
      countsTotal st1 ip + -2 := by
    have := countsTotal_bump2 st1 ip s1 s2 (-1) ip st2 hc
    simpa [Pt.eqb_refl_pt] using this
  refine ⟨?_, ?_, ?_⟩
  · rw [hq]
    exact h1
  · intro hex
    rw [hq] at hex
    have hold := h2 hex
    rw [htot]
    by_cases hpe : Pt.eqb p ip = true
    · simp only [hpe, if_true]
      obtain ⟨_, _, h3ip⟩ := h ip
      have hip : countsTotal st1 p = countsTotal st1 ip :=
        countsTotal_congr' st1 hpe
      have hip2 : countsTotal st2 p = countsTotal st2 ip := by
        rw [htot, htotp, hip]
        simp [hpe]
      rw [hip] at *
      omega
    · simp only [hpe, Bool.false_eq_true, if_false, add_zero]
      exact hold
  · rw [htot]
    by_cases hpe : Pt.eqb p ip = true <;> simp [hpe] <;> omega

theorem schedule_preserves_qInv (st : BOState) (s1 s2 : Seg) (h : qInv st) :
    qInv (schedule_intersect st s1 s2) := by
  rcases hgi : get_intersect st s1 s2 with ⟨st1, ipq⟩
  have hfr := get_intersect_frame st s1 s2
  rw [hgi] at hfr
  have hst1 : qInv st1 := qInv_frame hfr.1 hfr.2.1 h
  cases ipq with
  | none => simpa only [schedule_intersect, hgi] using hst1
  | some ip =>
    simp only [schedule_intersect, hgi]
    by_cases hb : beforeSweep st1 ip.x = true
    · simpa only [hb, if_true] using hst1
    · simp only [hb, Bool.false_eq_true, if_false]
      by_cases hz : countsTotal st1 ip = 0
      · rw [if_pos hz]
        exact qInv_push_bump st1 ip s1 s2 _ rfl rfl hz hst1
      · rw [if_neg hz]
        exact qInv_bump_only st1 ip s1 s2 1 _ rfl rfl (by omega) hst1

theorem unschedule_preserves_qInv (st : BOState) (s1 s2 : Seg)
    (st2 : BOState) (h : qInv st)
    (hres : unschedule_intersect st s1 s2 = some st2) : qInv st2 := by
  rcases hgi : get_intersect st s1 s2 with ⟨st1, ipq⟩
  have hfr := get_intersect_frame st s1 s2
  rw [hgi] at hfr
  have hst1 : qInv st1 := qInv_frame hfr.1 hfr.2.1 h
  cases ipq with
  | none =>
    simp only [unschedule_intersect, hgi, Option.some_inj] at hres
    subst hres
    exact hst1
  | some ip =>
    simp only [unschedule_intersect, hgi] at hres
    by_cases hb : atOrBeforeSweep st1 ip.x = true
    · rw [if_pos hb, Option.some_inj] at hres
      subst hres
      exact hst1
    · rw [if_neg hb] at hres
      by_cases hz : countsTotal
          { st1 with counts :=
            countsBump (countsBump st1.counts ip s1 (-1)) ip s2 (-1) } ip = 0
      · rw [if_pos hz, Option.map_eq_some'] at hres
        obtain ⟨q2, hq2, hst2⟩ := hres
        subst hst2
        exact qInv_unbump_remove st1 ip s1 s2 _ q2 hq2 rfl rfl hst1
      · rw [if_neg hz, Option.some_inj] at hres
        subst hres
        exact qInv_unbump_only st1 ip s1 s2 _ rfl rfl hz hst1

theorem popMinAux_perm :
    ∀ (l : List BOEntry) (best : BOEntry),
      ((popMinAux best l).1 :: (popMinAux best l).2).Perm (best :: l) := by
  intro l
  induction l with
  | nil => intro best; simp [popMinAux]
  | cons e rest ih =>
    intro best
    simp only [popMinAux]
    by_cases hlt : BOPrio.ltb e.prio best.prio = true
    · simp only [hlt, if_true]
      rcases hmr : popMinAux e rest with ⟨m, l2⟩
      have h1 := ih e
      rw [hmr] at h1
      simp only at h1 ⊢
      exact (List.Perm.swap best m l2).trans (h1.cons best)
    · simp only [hlt, Bool.false_eq_true, if_false]
      rcases hmr : popMinAux best rest with ⟨m, l2⟩
      have h1 := ih best
      rw [hmr] at h1
      simp only at h1 ⊢
      exact ((List.Perm.swap e m l2).trans (h1.cons e)).trans
        (List.Perm.swap best e rest)

theorem popMin_perm (q : List BOEntry) (e : BOEntry) (rest : List BOEntry)
    (h : popMin q = some (e, rest)) : (e :: rest).Perm q := by
  cases q with
  | nil => simp [popMin] at h
  | cons e0 t =>
    simp only [popMin, Option.some_inj] at h
    have := popMinAux_perm t e0
    rw [h] at this
    exact this

/-- Popping the minimum preserves the queue/counter invariant, whatever the
new sweep position. -/
theorem qInv_pop (st : BOState) (e : BOEntry) (rest : List BOEntry)
    (sx : Option Frac) (h : qInv st) (hpop : popMin st.queue = some (e, rest)) :
    qInv { st with queue := rest, sweep := sx } := by
  have hperm := popMin_perm _ _ _ hpop
  intro p
  obtain ⟨h1, h2, h3⟩ := h p
  have hcnt : rest.countP (fun e => isMeetFor e p) ≤
      st.queue.countP (fun e => isMeetFor e p) := by
    rw [← hperm.countP_eq]
    rw [List.countP_cons]
    omega
  refine ⟨le_trans hcnt h1, ?_, h3⟩
  intro hex
  obtain ⟨e2, he2, hm⟩ := hex
  exact h2 ⟨e2, hperm.mem_iff.mp (by simp [he2]), hm⟩

theorem foldl_schedule_preserves (l : List Seg) :
    ∀ (st : BOState) (s : Seg), qInv st →
      qInv (l.foldl (fun acc nb => schedule_intersect acc s nb) st) := by
  induction l with
  | nil => intro st s h; exact h
  | cons nb rest ih =>
    intro st s h
    exact ih _ s (schedule_preserves_qInv st s nb h)

theorem foldlM_unschedule_preserves (l : List Seg) :
    ∀ (st : BOState) (s : Seg) (st2 : BOState), qInv st →
      l.foldlM (fun acc nb => unschedule_intersect acc s nb) st = some st2 →
      qInv st2 := by
  induction l with
  | nil =>
    intro st s st2 h hres
    simp only [List.foldlM_nil, Option.pure_def, Option.some_inj] at hres
    subst hres
    exact h
  | cons nb rest ih =>
    intro st s st2 h hres
    simp only [List.foldlM_cons] at hres
    cases hu : unschedule_intersect st s nb with
    | none => rw [hu] at hres; simp at hres
    | some st1 =>
      rw [hu] at hres
      have hres2 : rest.foldlM (fun acc nb => unschedule_intersect acc s nb)
          st1 = some st2 := hres
      exact ih st1 s st2 (unschedule_preserves_qInv st s nb st1 h hu) hres2

theorem insertNeighborOps_preserves (st : BOState) (s : Seg)
    (nbs : List Seg) (st2 : BOState) (h : qInv st)
    (hres : insertNeighborOps st s nbs = some st2) : qInv st2 := by
  rcases nbs with _ | ⟨a, _ | ⟨b, _ | ⟨c, t⟩⟩⟩
  · have hres2 : (some st : Option BOState) = some st2 := hres
    rw [← Option.some_inj.mp hres2]
    exact h
  · have hres2 : (some (schedule_intersect st s a) : Option BOState) =
        some st2 := hres
    rw [← Option.some_inj.mp hres2]
    exact schedule_preserves_qInv st s a h
  · have hres2 : (match unschedule_intersect st a b with
        | none => none
        | some stm => some (schedule_intersect (schedule_intersect stm s a)
            s b) : Option BOState) = some st2 := hres
    cases hu : unschedule_intersect st a b with
    | none =>
      rw [hu] at hres2
      exact Option.noConfusion hres2
    | some stm =>
      simp only [hu, Option.some_inj] at hres2
      rw [← hres2]
      exact schedule_preserves_qInv _ s b (schedule_preserves_qInv _ s a
        (unschedule_preserves_qInv st a b stm h hu))
  · have hres2 : (some ((a :: b :: c :: t).foldl
        (fun acc nb => schedule_intersect acc s nb) st) : Option BOState) =
        some st2 := hres
    rw [← Option.some_inj.mp hres2]
    exact foldl_schedule_preserves (a :: b :: c :: t) st s h

theorem insert_into_tree_preserves (st : BOState) (s : Seg) (st2 : BOState)
    (h : qInv st) (hres : insert_into_tree st s = some st2) : qInv st2 := by
  unfold insert_into_tree at hres
  have h1 : qInv (insertWrapTree st s) := qInv_frame rfl rfl h
  cases hnb : get_tree_neighbors (insertWrapTree st s) s with
  | none =>
    rw [hnb] at hres
    exact Option.noConfusion hres
  | some nbs =>
    rw [hnb] at hres
    exact insertNeighborOps_preserves _ s nbs st2 h1 hres

theorem removeNeighborOps_preserves (st : BOState) (s : Seg)
    (nbs : List Seg) (st2 : BOState) (h : qInv st)
    (hres : removeNeighborOps st s nbs = some st2) : qInv st2 := by
  have main : ∀ (stm : BOState), qInv stm →
      (match removeSeg stm.tree s with
        | none => none
        | some t => some { stm with tree := t }) = some st2 → qInv st2 := by
    intro stm hm hr
    cases hrm : removeSeg stm.tree s with
    | none =>
      rw [hrm] at hr
      exact Option.noConfusion hr
    | some t2 =>
      simp only [hrm, Option.some_inj] at hr
      rw [← hr]
      exact qInv_frame rfl rfl hm
  have step : ∀ (stf : BOState),
      (nbs.foldlM (fun acc nb => unschedule_intersect acc s nb) st
        = some stf) →
      (match removeSeg (match nbs with
          | [a, b] => schedule_intersect stf a b
          | _ => stf).tree s with
        | none => none
        | some t => some { (match nbs with
            | [a, b] => schedule_intersect stf a b
            | _ => stf) with tree := t }) = some st2 → qInv st2 := by
    intro stf hfold hr
    have hqf : qInv stf := foldlM_unschedule_preserves nbs st s stf h hfold
    rcases nbs with _ | ⟨a, _ | ⟨b, _ | ⟨c, t⟩⟩⟩
    · exact main stf hqf hr
    · exact main stf hqf hr
    · exact main (schedule_intersect stf a b)
        (schedule_preserves_qInv stf a b hqf) hr
    · exact main stf hqf hr
  unfold removeNeighborOps at hres
  cases hfold : nbs.foldlM (fun acc nb => unschedule_intersect acc s nb) st
    with
  | none =>
    rw [hfold] at hres
    exact Option.noConfusion hres
  | some stf =>
    rw [hfold] at hres
    exact step stf hfold hres

theorem remove_from_tree_preserves (st : BOState) (s : Seg) (st2 : BOState)
    (h : qInv st) (hres : remove_from_tree st s = some st2) : qInv st2 := by
  unfold remove_from_tree at hres
  cases hnb : get_tree_neighbors st s with
  | none =>
    rw [hnb] at hres
    exact Option.noConfusion hres
  | some nbs =>
    rw [hnb] at hres
    exact removeNeighborOps_preserves st s nbs st2 h hres

theorem foldl_assignY_frame (ipy : Frac) (l : List (Seg × ℤ)) :
    ∀ st : BOState,
      (l.foldl (fun acc p => assignY acc ipy p) st).queue = st.queue
      ∧ (l.foldl (fun acc p => assignY acc ipy p) st).counts = st.counts := by
  induction l with
  | nil => intro st; exact ⟨rfl, rfl⟩
  | cons p rest ih =>
    intro st
    simp only [List.foldl_cons]
    exact ih (assignY st ipy p)

theorem swapRewrite_frame (ipy : Frac) :
    ∀ (pairs : List (Seg × ℤ)) (st : BOState) (pos : ℕ),
      (swapRewrite ipy st pos pairs).queue = st.queue
      ∧ (swapRewrite ipy st pos pairs).counts = st.counts := by
  intro pairs
  induction pairs with
  | nil => intro st pos; exact ⟨rfl, rfl⟩
  | cons p rest ih =>
    intro st pos
    obtain ⟨s, step⟩ := p
    rw [swapRewrite_cons]
    exact ih _ _

theorem swapOuterLow_preserves (st : BOState) (idx0 : ℕ) (s0 slast : Seg)
    (st2 : BOState) (h : qInv st)
    (hres : swapOuterLow st idx0 s0 slast = some st2) : qInv st2 := by
  unfold swapOuterLow at hres
  by_cases h0 : idx0 = 0
  · rw [if_pos h0] at hres
    simp only [Option.some_inj] at hres
    subst hres
    exact h
  · rw [if_neg h0] at hres
    cases hg : st.tree[idx0 - 1]? with
    | none =>
      simp only [hg] at hres
      exact Option.noConfusion hres
    | some sprev =>
      simp only [hg] at hres
      cases hu : unschedule_intersect st sprev s0 with
      | none =>
        simp only [hu] at hres
        exact Option.noConfusion hres
      | some stu =>
        simp only [hu, Option.some_inj] at hres
        subst hres
        exact schedule_preserves_qInv _ _ _
          (unschedule_preserves_qInv _ _ _ _ h hu)

theorem swapOuterHigh_preserves (st : BOState) (s0 slast : Seg)
    (st2 : BOState) (h : qInv st)
    (hres : swapOuterHigh st s0 slast = some st2) : qInv st2 := by
  unfold swapOuterHigh at hres
  cases hidx : idxOfSeg st.tree slast with
  | none =>
    simp only [hidx] at hres
    exact Option.noConfusion hres
  | some idxT =>
    simp only [hidx] at hres
    by_cases hc : idxT + 1 < st.tree.length
    · rw [if_pos hc] at hres
      cases hg : st.tree[idxT + 1]? with
      | none =>
        simp only [hg] at hres
        exact Option.noConfusion hres
      | some snext =>
        simp only [hg] at hres
        cases hu : unschedule_intersect st slast snext with
        | none =>
          simp only [hu] at hres
          exact Option.noConfusion hres
        | some stu =>
          simp only [hu, Option.some_inj] at hres
          subst hres
          exact schedule_preserves_qInv _ _ _
            (unschedule_preserves_qInv _ _ _ _ h hu)
    · rw [if_neg hc] at hres
      simp only [Option.some_inj] at hres
      subst hres
      exact h

theorem swap_preserves_qInv (st : BOState) (group : List Seg) (st2 : BOState)
    (h : qInv st) (hres : swap st group = some st2) : qInv st2 := by
  unfold swap at hres
  rcases hsort : isort swapSortLtb group with _ | ⟨s0, _ | ⟨s1, rest⟩⟩ <;>
    rw [hsort] at hres
  · simp at hres
  · simp at hres
  · dsimp only at hres
    rcases hgi : get_intersect st s0 s1 with ⟨st1, ipq⟩
    have hfr := get_intersect_frame st s0 s1
    rw [hgi] at hfr
    have hst1 : qInv st1 := qInv_frame hfr.1 hfr.2.1 h
    rw [hgi] at hres
    cases ipq with
    | none => simp at hres
    | some ip =>
      dsimp only at hres
      have hstfq : qInv (((s0 :: s1 :: rest).zip
          (swapSteps (s0 :: s1 :: rest).length)).foldl
          (fun acc p => assignY acc ip.y p) st1) := by
        have := foldl_assignY_frame ip.y
          ((s0 :: s1 :: rest).zip (swapSteps (s0 :: s1 :: rest).length)) st1
        exact qInv_frame this.1 this.2 hst1
      cases hidx : idxOfSeg (((s0 :: s1 :: rest).zip
          (swapSteps (s0 :: s1 :: rest).length)).foldl
          (fun acc p => assignY acc ip.y p) st1).tree s0 with
      | none =>
        simp only [hidx] at hres
        exact Option.noConfusion hres
      | some idx0 =>
        simp only [hidx] at hres
        cases hlow : swapOuterLow (((s0 :: s1 :: rest).zip
            (swapSteps (s0 :: s1 :: rest).length)).foldl
            (fun acc p => assignY acc ip.y p) st1) idx0 s0
            ((s1 :: rest).getLastD s1) with
        | none =>
          simp only [hlow] at hres
          exact Option.noConfusion hres
        | some stl =>
          simp only [hlow] at hres
          cases hhigh : swapOuterHigh stl s0 ((s1 :: rest).getLastD s1) with
          | none =>
            simp only [hhigh] at hres
            exact Option.noConfusion hres
          | some sth =>
            simp only [hhigh, Option.some_inj] at hres
            subst hres
            have hl : qInv stl :=
              swapOuterLow_preserves _ _ _ _ _ hstfq hlow
            have hh : qInv sth :=
              swapOuterHigh_preserves _ _ _ _ hl hhigh
            have := swapRewrite_frame ip.y
              ((s0 :: s1 :: rest).reverse.zip
                (swapSteps (s0 :: s1 :: rest).length)) sth idx0
            exact qInv_frame this.1 this.2 hh

def popState (st : BOState) (e : BOEntry) (rest : List BOEntry) : BOState :=
  { st with queue := rest, sweep := some e.prio.x }

theorem boStep_preserves_qInv (st st2 : BOState) (em : Option Emission)
    (h : qInv st) (hres : boStep st = some (st2, em)) : qInv st2 := by
  unfold boStep at hres
  cases hpop : popMin st.queue with
  | none =>
    rw [hpop] at hres
    exact Option.noConfusion hres
  | some er =>
    obtain ⟨e, rest⟩ := er
    rw [hpop] at hres
    have hq : qInv (popState st e rest) := qInv_pop st e rest _ h hpop
    have hres2 : (match e.ev, e.data with
      | .START, .seg s =>
        (insert_into_tree (popState st e rest) s).map (fun st2 => (st2, none))
      | .END, .seg s =>
        (remove_from_tree (popState st e rest) s).map (fun st2 => (st2, none))
      | .MEET, .pt p =>
        (swap (popState st e rest)
          ((countsGet (popState st e rest).counts p).map Prod.fst)).map
          (fun st2 => (st2, some ⟨p,
            (countsGet (popState st e rest).counts p).map Prod.fst,
            non_endpoint_intersect (popState st e rest) p⟩))
      | _, _ => none) = some (st2, em) := hres
    clear hres
    cases hev : e.ev with
    | START =>
      cases hdata : e.data with
      | pt p =>
        simp only [hev, hdata] at hres2
        exact Option.noConfusion hres2
      | seg s =>
        simp only [hev, hdata] at hres2
        cases hri : insert_into_tree (popState st e rest) s with
        | none => rw [hri] at hres2; exact Option.noConfusion hres2
        | some stx =>
          rw [hri] at hres2
          simp only [Option.map_some', Option.some_inj, Prod.mk.injEq]
            at hres2
          rw [← hres2.1]
          exact insert_into_tree_preserves _ _ _ hq hri
    | MEET =>
      cases hdata : e.data with
      | seg s =>
        simp only [hev, hdata] at hres2
        exact Option.noConfusion hres2
      | pt p =>
        simp only [hev, hdata] at hres2
        cases hsw : swap (popState st e rest)
            ((countsGet (popState st e rest).counts p).map Prod.fst) with
        | none => rw [hsw] at hres2; exact Option.noConfusion hres2
        | some stx =>
          rw [hsw] at hres2
          simp only [Option.map_some', Option.some_inj, Prod.mk.injEq]
            at hres2
          rw [← hres2.1]
          exact swap_preserves_qInv _ _ _ hq hsw
    | END =>
      cases hdata : e.data with
      | pt p =>
        simp only [hev, hdata] at hres2
        exact Option.noConfusion hres2
      | seg s =>
        simp only [hev, hdata] at hres2
        cases hrr : remove_from_tree (popState st e rest) s with
        | none => rw [hrr] at hres2; exact Option.noConfusion hres2
        | some stx =>
          rw [hrr] at hres2
          simp only [Option.map_some', Option.some_inj, Prod.mk.injEq]
            at hres2
          rw [← hres2.1]
          exact remove_from_tree_preserves _ _ _ hq hrr

theorem boInit_queue_no_meet (segs : List Seg) (nd : ℕ) :
    ∀ e ∈ (boInit segs nd).queue, ¬ e.ev = BOEv.MEET := by
  have hgen : ∀ (l : List Seg) (q0 : List BOEntry),
      (∀ e ∈ q0, ¬ e.ev = BOEv.MEET) →
      ∀ e ∈ l.foldl (fun q s =>
        let c := Seg.canon s
        q ++
          [⟨⟨Seg.minX c, BOEv.START, BOTb.seg c⟩, BOEv.START, BOData.seg c⟩,
           ⟨⟨Seg.maxX c, BOEv.END, BOTb.seg c⟩, BOEv.END, BOData.seg c⟩]) q0,
      ¬ e.ev = BOEv.MEET := by
    intro l
    induction l with
    | nil => intro q0 h0 e he; exact h0 e he
    | cons s t ih =>
      intro q0 h0 e he
      refine ih _ ?_ e he
      intro e2 he2
      rcases List.mem_append.mp he2 with hold | hnew
      · exact h0 e2 hold
      · simp only [List.mem_cons, List.not_mem_nil, or_false] at hnew
        rcases hnew with h1 | h1 <;> rw [h1] <;> simp
  intro e he
  exact hgen segs [] (by simp) e he

theorem boInit_qInv (segs : List Seg) (nd : ℕ) : qInv (boInit segs nd) := by
  intro p
  have hno := boInit_queue_no_meet segs nd
  have hcount : (boInit segs nd).queue.countP (fun e => isMeetFor e p) = 0 := by
    rw [List.countP_eq_zero]
    intro e he
    have := hno e he
    simp only [isMeetFor, Bool.and_eq_true, decide_eq_true_eq]
    intro hcon
    exact this hcon.1
  have hct : countsTotal (boInit segs nd) p = 0 := rfl
  refine ⟨by omega, ?_, by simp [hct]⟩
  intro hex
  obtain ⟨e, he, hm⟩ := hex
  have : 0 < (boInit segs nd).queue.countP (fun e => isMeetFor e p) :=
    List.countP_pos.mpr ⟨e, he, hm⟩
  omega

/-- The scheduling guard is strict: an intersection strictly before the
sweep position leaves both the queue and the counters untouched. -/
theorem schedule_intersect_guard (st : BOState) (s1 s2 : Seg) (ip : Pt)
    (hip : (get_intersect st s1 s2).2 = some ip)
    (hb : beforeSweep st ip.x = true) :
    (schedule_intersect st s1 s2).queue = st.queue
    ∧ (schedule_intersect st s1 s2).counts = st.counts := by
  rcases hgi : get_intersect st s1 s2 with ⟨st1, ipq⟩
  have hfr := get_intersect_frame st s1 s2
  rw [hgi] at hfr hip
  simp only at hip
  subst hip
  have hb1 : beforeSweep st1 ip.x = true := by
    unfold beforeSweep at hb ⊢
    rw [hfr.2.2.1]
    exact hb
  simp only [schedule_intersect, hgi]
  rw [if_pos hb1]
  exact ⟨hfr.1, hfr.2.1⟩

/-- The unscheduling guard: an intersection at or before the sweep position
leaves both the queue and the counters untouched (and never fails). -/
theorem unschedule_intersect_guard (st : BOState) (s1 s2 : Seg) (ip : Pt)
    (hip : (get_intersect st s1 s2).2 = some ip)
    (hb : atOrBeforeSweep st ip.x = true) :
    ∃ st2, unschedule_intersect st s1 s2 = some st2
      ∧ st2.queue = st.queue ∧ st2.counts = st.counts := by
  rcases hgi : get_intersect st s1 s2 with ⟨st1, ipq⟩
  have hfr := get_intersect_frame st s1 s2
  rw [hgi] at hfr hip
  simp only at hip
  subst hip
  have hb1 : atOrBeforeSweep st1 ip.x = true := by
    unfold atOrBeforeSweep at hb ⊢
    rw [hfr.2.2.1]
    exact hb
  refine ⟨st1, ?_, hfr.1, hfr.2.1⟩
  simp only [unschedule_intersect, hgi]
  rw [if_pos hb1]

/-- When `unschedule_intersect` drives a count to zero, no MEET entry for
that intersection remains in the queue. -/
theorem unschedule_zero_removes (st : BOState) (s1 s2 : Seg)
    (st2 : BOState) (ip : Pt) (h : qInv st)
    (hip : (get_intersect st s1 s2).2 = some ip)
    (hres : unschedule_intersect st s1 s2 = some st2)
    (hz : countsTotal st2 ip = 0) :
    st2.queue.countP (fun e => isMeetFor e ip) = 0 := by
  rcases hgi : get_intersect st s1 s2 with ⟨st1, ipq⟩
  have hfr := get_intersect_frame st s1 s2
  rw [hgi] at hfr hip
  simp only at hip
  subst hip
  have hst1 : qInv st1 := qInv_frame hfr.1 hfr.2.1 h
  simp only [unschedule_intersect, hgi] at hres
  by_cases hb : atOrBeforeSweep st1 ip.x = true
  · rw [if_pos hb, Option.some_inj] at hres
    subst hres
    obtain ⟨h1, h2, _⟩ := hst1 ip
    by_cases hc : st1.queue.countP (fun e => isMeetFor e ip) = 0
    · exact hc
    · exfalso
      have hpos : 0 < st1.queue.countP (fun e => isMeetFor e ip) :=
        Nat.pos_of_ne_zero hc
      obtain ⟨e, he, hm⟩ := List.countP_pos_iff.mp hpos
      have h0 := h2 ⟨e, he, hm⟩
      omega
  · rw [if_neg hb] at hres
    by_cases hzz : countsTotal
        { st1 with counts :=
          countsBump (countsBump st1.counts ip s1 (-1)) ip s2 (-1) } ip = 0
    · rw [if_pos hzz, Option.map_eq_some'] at hres
      obtain ⟨q2, hq2, hst2⟩ := hres
      subst hst2
      obtain ⟨h1, _, _⟩ := hst1 ip
      have hcount := queueRemove_countP _ _ _ _ _ hq2
        (fun e => isMeetFor e ip)
        (fun e hm => isMeetFor_of_removeMatch ip ip e (Pt.eqb_refl_pt ip) hm)
      simp only
      omega
    · rw [if_neg hzz, Option.some_inj] at hres
      subst hres
      exact absurd hz hzz

/-- C4, counterexample scene: a rising diagonal and a horizontal segment
that starts at the diagonal's midpoint `(1, 1)`. -/
def horizFromMid : Seg :=
  ⟨⟨Frac.ofInt 1, Frac.ofInt 1⟩, ⟨Frac.ofInt 3, Frac.ofInt 1⟩⟩

def c4Scene : List Seg := [diagUp, horizFromMid]

def hasMeetAt (st : BOState) (p : Pt) : Bool :=
  st.queue.any (fun e => isMeetFor e p)

/-- After one event (START of the diagonal at `x = 0`) no MEET entry for
`(1,1)` exists; after the second event (START of the horizontal at
`x = 1`) the sweep position is `1` and a MEET entry for `(1,1)` - an
intersection whose x-coordinate equals the sweep position - has just been
pushed. -/
def c4Check : Bool :=
  match stepN 1 (boInit c4Scene 9), stepN 2 (boInit c4Scene 9) with
  | some st1, some st2 =>
    !(hasMeetAt st1 ⟨Frac.ofInt 1, Frac.ofInt 1⟩)
    && hasMeetAt st2 ⟨Frac.ofInt 1, Frac.ofInt 1⟩
    && (match st2.sweep with
        | some sx => Frac.eqb sx (Frac.ofInt 1)
        | none => false)
  | _, _ => false

/-- C4, counterexample.  The claim states that an intersection whose
x-coordinate is *at or before* the current sweep position is never pushed
into the queue; but `schedule_intersect` only skips intersections
*strictly before* the sweep position (`intersect.x < sweep_x`), and
intersections exactly at the sweep position are pushed: in `c4Scene`,
processing the second START event at `x = 1` pushes the MEET entry for
`(1, 1)` while the sweep position is `1`. -/
theorem c4_counterexample : c4Check = true := by rfl

/-- C4, amended: at every state of the main loop, (i) a MEET entry for an
intersection is present in the queue only if the intersection's
contributing-segment count is positive (and each intersection has at most
one entry, counts staying even); (ii) when an unschedule drives the count
to zero the queue entry is removed; and (iii) an intersection *strictly
before* the sweep position is never pushed - one *exactly at* the sweep
position can be pushed (see `c4_counterexample`), while unscheduling skips
intersections at or before the sweep position. -/
theorem c4_amended :
    (∀ segs nd, qInv (boInit segs nd))
    ∧ (∀ st st2 em, boStep st = some (st2, em) → qInv st → qInv st2)
    ∧ (∀ st s1 s2 ip, (get_intersect st s1 s2).2 = some ip →
        beforeSweep st ip.x = true →
        (schedule_intersect st s1 s2).queue = st.queue
        ∧ (schedule_intersect st s1 s2).counts = st.counts)
    ∧ (∀ st s1 s2 ip, (get_intersect st s1 s2).2 = some ip →
        atOrBeforeSweep st ip.x = true →
        ∃ st2, unschedule_intersect st s1 s2 = some st2
          ∧ st2.queue = st.queue ∧ st2.counts = st.counts)
    ∧ (∀ st s1 s2 st2 ip, qInv st → (get_intersect st s1 s2).2 = some ip →
        unschedule_intersect st s1 s2 = some st2 →
        countsTotal st2 ip = 0 →
        st2.queue.countP (fun e => isMeetFor e ip) = 0) :=
  ⟨boInit_qInv,
    fun st st2 em hres h => boStep_preserves_qInv st st2 em h hres,
    fun st s1 s2 ip hip hb => schedule_intersect_guard st s1 s2 ip hip hb,
    fun st s1 s2 ip hip hb => unschedule_intersect_guard st s1 s2 ip hip hb,
    fun st s1 s2 st2 ip h hip hres hz =>
      unschedule_zero_removes st s1 s2 st2 ip h hip hres hz⟩

/-- Witness for `c4_amended`: the invariant holds in the initial state of
the crossing-diagonals scene and is preserved by its first step. -/
theorem c4_amended_witness :
    ∃ st2 em, boStep (boInit segsX 9) = some (st2, em) ∧ qInv st2 := by
  have hs : (boStep (boInit segsX 9)).isSome = true := by rfl
  obtain ⟨pr, hpr⟩ := Option.isSome_iff_exists.mp hs
  obtain ⟨st2, em⟩ := pr
  exact ⟨st2, em, hpr,
    c4_amended.2.1 (boInit segsX 9) st2 em hpr (c4_amended.1 segsX 9)⟩

/-! ## Claim C2: the interior condition of the emitted intersections -/

/-- The static interior predicate: the point is not one of the segment's
own endpoints.  This is exactly the value `get_intersect` stores in the
segment-intersection interior map (`flag1`/`flag2`). -/
def staticInterior (s : Seg) (p : Pt) : Bool :=
  !(Pt.eqb p s.p1 || Pt.eqb p s.p2)

theorem Pt.eqb_congr {a a2 b b2 : Pt} (ha : Pt.eqb a a2 = true)
    (hb : Pt.eqb b b2 = true) : Pt.eqb a b = Pt.eqb a2 b2 := by
  by_cases h : Pt.eqb a b = true
  · rw [h, Pt.eqb_trans_pt (Pt.eqb_trans_pt (Pt.eqb_symm_pt ha) h) hb]
  · rw [Bool.not_eq_true] at h
    rw [h]
    by_cases h2 : Pt.eqb a2 b2 = true
    · exact absurd (Pt.eqb_trans_pt (Pt.eqb_trans_pt ha h2) (Pt.eqb_symm_pt hb))
        (by simp [h])
    · rw [Bool.not_eq_true] at h2
      rw [h2]

theorem staticInterior_congr {k s : Seg} {q p : Pt}
    (hk : Seg.eqb k s = true) (hq : Pt.eqb q p = true) :
    staticInterior k q = staticInterior s p := by
  simp only [Seg.eqb, Bool.and_eq_true] at hk
  simp only [staticInterior]
  rw [Pt.eqb_congr hq hk.1, Pt.eqb_congr hq hk.2]

/-- The interior-map invariant behind claim C2:
(a) every value stored in the segment-intersection interior map is the
static interior predicate of its key; (b) every segment counted for an
intersection point has a matching entry in the interior map; (c) every
successful intersection-cache entry has matching interior-map entries for
both segments of its key. -/
def sInv (st : BOState) : Prop :=
  (∀ kv ∈ st.simap, kv.2 = staticInterior kv.1.1 kv.1.2)
  ∧ (∀ pe ∈ st.counts, ∀ sc ∈ pe.2, ∃ kv ∈ st.simap,
      Seg.eqb kv.1.1 sc.1 = true ∧ Pt.eqb kv.1.2 pe.1 = true)
  ∧ (∀ cv ∈ st.icache, ∀ ip : Pt, cv.2 = some ip →
      (∃ kv ∈ st.simap, Seg.eqb kv.1.1 cv.1.1 = true
        ∧ Pt.eqb kv.1.2 ip = true)
      ∧ (∃ kv ∈ st.simap, Seg.eqb kv.1.1 cv.1.2 = true
        ∧ Pt.eqb kv.1.2 ip = true))

theorem sInv_frame {st st2 : BOState} (hc : st2.counts = st.counts)
    (hs : st2.simap = st.simap) (hi : st2.icache = st.icache)
    (h : sInv st) : sInv st2 := by
  obtain ⟨ha, hb, hcc⟩ := h
  refine ⟨?_, ?_, ?_⟩
  · rw [hs]; exact ha
  · rw [hc, hs]; exact hb
  · rw [hi, hs]; exact hcc

theorem simapSet_keys (m : List ((Seg × Pt) × Bool)) (s : Seg) (p : Pt)
    (b : Bool) : ∀ kv ∈ m, ∃ kv2 ∈ simapSet m s p b, kv2.1 = kv.1 := by
  induction m with
  | nil => intro kv h; simp at h
  | cons hd rest ih =>
    intro kv hkv
    obtain ⟨k, v⟩ := hd
    simp only [simapSet]
    by_cases hc : (Seg.eqb k.1 s && Pt.eqb k.2 p) = true
    · rw [if_pos hc]
      rcases List.mem_cons.mp hkv with h1 | h1
      · exact ⟨(k, b), List.mem_cons_self _ _, by rw [h1]⟩
      · exact ⟨kv, List.mem_cons_of_mem _ h1, rfl⟩
    · rw [if_neg hc]
      rcases List.mem_cons.mp hkv with h1 | h1
      · exact ⟨(k, v), List.mem_cons_self _ _, by rw [h1]⟩
      · obtain ⟨kv2, hm, he⟩ := ih kv h1
        exact ⟨kv2, List.mem_cons_of_mem _ hm, he⟩

theorem simapSet_mem (m : List ((Seg × Pt) × Bool)) (s : Seg) (p : Pt)
    (b : Bool) : ∃ kv ∈ simapSet m s p b,
      Seg.eqb kv.1.1 s = true ∧ Pt.eqb kv.1.2 p = true := by
  induction m with
  | nil =>
    exact ⟨((s, p), b), List.mem_singleton.mpr rfl, Seg.eqb_refl_seg s,
      Pt.eqb_refl_pt p⟩
  | cons hd rest ih =>
    obtain ⟨k, v⟩ := hd
    simp only [simapSet]
    by_cases hc : (Seg.eqb k.1 s && Pt.eqb k.2 p) = true
    · rw [if_pos hc]
      simp only [Bool.and_eq_true] at hc
      exact ⟨(k, b), List.mem_cons_self _ _, hc.1, hc.2⟩
    · rw [if_neg hc]
      obtain ⟨kv, hm, h1, h2⟩ := ih
      exact ⟨kv, List.mem_cons_of_mem _ hm, h1, h2⟩

theorem simapSet_values (s : Seg) (p : Pt) :
    ∀ m : List ((Seg × Pt) × Bool),
      (∀ kv ∈ m, kv.2 = staticInterior kv.1.1 kv.1.2) →
      ∀ kv ∈ simapSet m s p (staticInterior s p),
        kv.2 = staticInterior kv.1.1 kv.1.2 := by
  intro m
  induction m with
  | nil =>
    intro _ kv hkv
    simp only [simapSet, List.mem_singleton] at hkv
    rw [hkv]
  | cons hd rest ih =>
    intro hA kv hkv
    obtain ⟨k, v⟩ := hd
    simp only [simapSet] at hkv
    by_cases hc : (Seg.eqb k.1 s && Pt.eqb k.2 p) = true
    · rw [if_pos hc] at hkv
      simp only [Bool.and_eq_true] at hc
      rcases List.mem_cons.mp hkv with h1 | h1
      · rw [h1]
        exact (staticInterior_congr hc.1 hc.2).symm
      · exact hA kv (List.mem_cons_of_mem _ h1)
    · rw [if_neg hc] at hkv
      rcases List.mem_cons.mp hkv with h1 | h1
      · rw [h1]
        exact hA (k, v) (List.mem_cons_self _ _)
      · exact ih (fun kv2 h2 => hA kv2 (List.mem_cons_of_mem _ h2)) kv h1

theorem simapGet_inv (s : Seg) (p : Pt) :
    ∀ m : List ((Seg × Pt) × Bool),
      (∀ kv ∈ m, kv.2 = staticInterior kv.1.1 kv.1.2) →
      (∃ kv ∈ m, Seg.eqb kv.1.1 s = true ∧ Pt.eqb kv.1.2 p = true) →
      simapGet m s p = staticInterior s p := by
  intro m
  induction m with
  | nil =>
    intro _ hex
    obtain ⟨kv, hm, _⟩ := hex
    simp at hm
  | cons hd rest ih =>
    intro hA hex
    obtain ⟨k, v⟩ := hd
    simp only [simapGet]
    by_cases hc : (Seg.eqb k.1 s && Pt.eqb k.2 p) = true
    · rw [if_pos hc]
      simp only [Bool.and_eq_true] at hc
      have hv : v = staticInterior k.1 k.2 :=
        hA (k, v) (List.mem_cons_self _ _)
      rw [hv]
      exact staticInterior_congr hc.1 hc.2
    · rw [if_neg hc]
      refine ih (fun kv2 h2 => hA kv2 (List.mem_cons_of_mem _ h2)) ?_
      obtain ⟨kv, hm, h1, h2⟩ := hex
      rcases List.mem_cons.mp hm with he | he
      · exfalso
        subst he
        apply hc
        rw [Bool.and_eq_true]
        exact ⟨h1, h2⟩
      · exact ⟨kv, he, h1, h2⟩

theorem icacheGet_mem (key : Seg × Seg) :
    ∀ (m : List ((Seg × Seg) × Option Pt)) (v : Option Pt),
      icacheGet m key = some v →
      ∃ cv ∈ m, Seg.eqb cv.1.1 key.1 = true ∧ Seg.eqb cv.1.2 key.2 = true
        ∧ cv.2 = v := by
  intro m
  induction m with
  | nil => intro v h; exact Option.noConfusion h
  | cons hd rest ih =>
    intro v h
    obtain ⟨k, w⟩ := hd
    simp only [icacheGet] at h
    by_cases hc : (Seg.eqb k.1 key.1 && Seg.eqb k.2 key.2) = true
    · rw [if_pos hc, Option.some_inj] at h
      simp only [Bool.and_eq_true] at hc
      exact ⟨(k, w), List.mem_cons_self _ _, hc.1, hc.2, h⟩
    · rw [if_neg hc] at h
      obtain ⟨cv, hm, h1, h2, h3⟩ := ih v h
      exact ⟨cv, List.mem_cons_of_mem _ hm, h1, h2, h3⟩

theorem bumpCount_fst (s : Seg) (d : ℤ) : ∀ inner : List (Seg × ℤ),
    ∀ sc ∈ bumpCount inner s d, sc.1 ∈ inner.map Prod.fst ∨ sc.1 = s := by
  intro inner
  induction inner with
  | nil =>
    intro sc hsc
    simp only [bumpCount, List.mem_singleton] at hsc
    right
    rw [hsc]
  | cons tc rest ih =>
    intro sc hsc
    obtain ⟨t, c⟩ := tc
    simp only [bumpCount] at hsc
    by_cases hc : Seg.eqb t s = true
    · rw [if_pos hc] at hsc
      rcases List.mem_cons.mp hsc with h1 | h1
      · left
        rw [h1]
        exact List.mem_cons_self _ _
      · left
        simp only [List.map_cons, List.mem_cons]
        right
        exact List.mem_map_of_mem Prod.fst h1
    · rw [if_neg hc] at hsc
      rcases List.mem_cons.mp hsc with h1 | h1
      · left
        rw [h1]
        exact List.mem_cons_self _ _
      · rcases ih sc h1 with h2 | h2
        · left
          simp only [List.map_cons, List.mem_cons]
          right
          exact h2
        · right
          exact h2

theorem countsBump_covers (simap : List ((Seg × Pt) × Bool)) (s : Seg)
    (p : Pt) (d : ℤ)
    (hs : ∃ kv ∈ simap, Seg.eqb kv.1.1 s = true ∧ Pt.eqb kv.1.2 p = true) :
    ∀ m : List (Pt × List (Seg × ℤ)),
      (∀ pe ∈ m, ∀ sc ∈ pe.2, ∃ kv ∈ simap,
        Seg.eqb kv.1.1 sc.1 = true ∧ Pt.eqb kv.1.2 pe.1 = true) →
      ∀ pe ∈ countsBump m p s d, ∀ sc ∈ pe.2, ∃ kv ∈ simap,
        Seg.eqb kv.1.1 sc.1 = true ∧ Pt.eqb kv.1.2 pe.1 = true := by
  intro m
  induction m with
  | nil =>
    intro _ pe hpe sc hsc
    simp only [countsBump, List.mem_singleton] at hpe
    subst hpe
    simp only [List.mem_singleton] at hsc
    subst hsc
    exact hs
  | cons qe rest ih =>
    intro hB pe hpe sc hsc
    obtain ⟨q, inner⟩ := qe
    simp only [countsBump] at hpe
    by_cases hc : Pt.eqb q p = true
    · rw [if_pos hc] at hpe
      rcases List.mem_cons.mp hpe with h1 | h1
      · subst h1
        rcases bumpCount_fst s d inner sc hsc with h2 | h2
        · obtain ⟨sc0, hsc0, he⟩ := List.mem_map.mp h2
          obtain ⟨kv, hkm, hk1, hk2⟩ :=
            hB (q, inner) (List.mem_cons_self _ _) sc0 hsc0
          refine ⟨kv, hkm, ?_, hk2⟩
          rw [← he]
          exact hk1
        · obtain ⟨kv, hkm, hk1, hk2⟩ := hs
          refine ⟨kv, hkm, ?_, Pt.eqb_trans_pt hk2 (Pt.eqb_symm_pt hc)⟩
          rw [h2]
          exact hk1
      · exact hB pe (List.mem_cons_of_mem _ h1) sc hsc
    · rw [if_neg hc] at hpe
      rcases List.mem_cons.mp hpe with h1 | h1
      · subst h1
        exact hB (q, inner) (List.mem_cons_self _ _) sc hsc
      · exact ih (fun pe2 h2 => hB pe2 (List.mem_cons_of_mem _ h2)) pe h1
          sc hsc

theorem countP_ext {α : Type} (f g : α → Bool) :
    ∀ l : List α, (∀ x ∈ l, f x = g x) → l.countP f = l.countP g := by
  intro l
  induction l with
  | nil => intro _; rfl
  | cons a t ih =>
    intro h
    rw [List.countP_cons, List.countP_cons, h a (List.mem_cons_self _ _),
      ih (fun x hx => h x (List.mem_cons_of_mem _ hx))]

theorem countsGet_cases (p : Pt) : ∀ m : List (Pt × List (Seg × ℤ)),
    countsGet m p = []
    ∨ ∃ pe ∈ m, Pt.eqb pe.1 p = true ∧ countsGet m p = pe.2 := by
  intro m
  induction m with
  | nil => exact Or.inl rfl
  | cons hd rest ih =>
    obtain ⟨q, inner⟩ := hd
    simp only [countsGet]
    by_cases hc : Pt.eqb q p = true
    · rw [if_pos hc]
      exact Or.inr ⟨(q, inner), List.mem_cons_self _ _, hc, rfl⟩
    · rw [if_neg hc]
      rcases ih with h | ⟨pe, hm, h1, h2⟩
      · exact Or.inl h
      · exact Or.inr ⟨pe, List.mem_cons_of_mem _ hm, h1, h2⟩

/-- Under the interior-map invariant the interior condition computed by
`non_endpoint_intersect` is exactly "at least two of the contributing
segments do not have the point as one of their own endpoints". -/
theorem non_endpoint_intersect_char (st : BOState) (p : Pt) (h : sInv st) :
    non_endpoint_intersect st p =
      decide (2 ≤ (countsGet st.counts p).countP
        (fun sc => staticInterior sc.1 p)) := by
  obtain ⟨ha, hb, _⟩ := h
  have hcnt : ∀ sc ∈ countsGet st.counts p,
      simapGet st.simap sc.1 p = staticInterior sc.1 p := by
    intro sc hsc
    rcases countsGet_cases p st.counts with hnil | ⟨pe, hm, h1, h2⟩
    · rw [hnil] at hsc
      simp at hsc
    · rw [h2] at hsc
      obtain ⟨kv, hkm, hk1, hk2⟩ := hb pe hm sc hsc
      exact simapGet_inv sc.1 p st.simap ha ⟨kv, hkm, hk1, Pt.eqb_trans_pt hk2 h1⟩
  unfold non_endpoint_intersect
  rw [countP_ext (fun (sc : Seg × ℤ) => simapGet st.simap sc.1 p)
    (fun (sc : Seg × ℤ) => staticInterior sc.1 p) _ hcnt]

theorem get_intersect_preserves_sInv (st : BOState) (s1 s2 : Seg)
    (h : sInv st) : sInv (get_intersect st s1 s2).1 := by
  obtain ⟨ha, hb, hcc⟩ := h
  cases hic : icacheGet st.icache
      (if Seg.ltb s1 s2 = true then (s1, s2) else (s2, s1)) with
  | some v =>
    simp only [get_intersect, hic]
    exact ⟨ha, hb, hcc⟩
  | none =>
    cases hint : Seg.intersect s1 s2 true with
    | none =>
      simp only [get_intersect, hic, hint]
      refine ⟨ha, hb, ?_⟩
      intro cv hm ip hip
      rcases List.mem_append.mp hm with h1 | h1
      · exact hcc cv h1 ip hip
      · rw [List.mem_singleton.mp h1] at hip
        exact Option.noConfusion hip
    | some raw =>
      simp only [get_intersect, hic, hint]
      have hkeys : ∀ kv ∈ st.simap,
          ∃ kv2 ∈ simapSet (simapSet st.simap s1 (Pt.roundTo raw st.nd)
            (staticInterior s1 (Pt.roundTo raw st.nd))) s2
            (Pt.roundTo raw st.nd)
            (staticInterior s2 (Pt.roundTo raw st.nd)),
            kv2.1 = kv.1 := by
        intro kv hkv
        obtain ⟨kv1, hm1, he1⟩ := simapSet_keys st.simap s1 _ _ kv hkv
        obtain ⟨kv2, hm2, he2⟩ := simapSet_keys _ s2 _ _ kv1 hm1
        exact ⟨kv2, hm2, he2.trans he1⟩
      have hw1 : ∃ kv ∈ simapSet (simapSet st.simap s1 (Pt.roundTo raw st.nd)
          (staticInterior s1 (Pt.roundTo raw st.nd))) s2 (Pt.roundTo raw st.nd)
          (staticInterior s2 (Pt.roundTo raw st.nd)),
          Seg.eqb kv.1.1 s1 = true
            ∧ Pt.eqb kv.1.2 (Pt.roundTo raw st.nd) = true := by
        obtain ⟨kv1, hm1, h11, h12⟩ := simapSet_mem st.simap s1 _ _
        obtain ⟨kv2, hm2, he⟩ := simapSet_keys _ s2 _ _ kv1 hm1
        refine ⟨kv2, hm2, ?_, ?_⟩
        · rw [he]; exact h11
        · rw [he]; exact h12
      have hw2 : ∃ kv ∈ simapSet (simapSet st.simap s1 (Pt.roundTo raw st.nd)
          (staticInterior s1 (Pt.roundTo raw st.nd))) s2 (Pt.roundTo raw st.nd)
          (staticInterior s2 (Pt.roundTo raw st.nd)),
          Seg.eqb kv.1.1 s2 = true
            ∧ Pt.eqb kv.1.2 (Pt.roundTo raw st.nd) = true :=
        simapSet_mem _ s2 _ _
      refine ⟨?_, ?_, ?_⟩
      · exact simapSet_values s2 _ _
          (simapSet_values s1 _ st.simap ha)
      · intro pe hpe sc hsc
        obtain ⟨kv, hkm, hk1, hk2⟩ := hb pe hpe sc hsc
        obtain ⟨kv2, hm2, he⟩ := hkeys kv hkm
        refine ⟨kv2, hm2, ?_, ?_⟩
        · rw [he]; exact hk1
        · rw [he]; exact hk2
      · intro cv hm ip hip
        rcases List.mem_append.mp hm with h1 | h1
        · obtain ⟨hcv1, hcv2⟩ := hcc cv h1 ip hip
          constructor
          · obtain ⟨kv, hkm, hk1, hk2⟩ := hcv1
            obtain ⟨kv2, hm2, he⟩ := hkeys kv hkm
            exact ⟨kv2, hm2, by rw [he]; exact hk1, by rw [he]; exact hk2⟩
          · obtain ⟨kv, hkm, hk1, hk2⟩ := hcv2
            obtain ⟨kv2, hm2, he⟩ := hkeys kv hkm
            exact ⟨kv2, hm2, by rw [he]; exact hk1, by rw [he]; exact hk2⟩
        · rw [List.mem_singleton.mp h1] at hip ⊢
          simp only [Option.some_inj] at hip
          subst hip
          by_cases hlt : Seg.ltb s1 s2 = true
          · simp only [hlt, if_true]
            exact ⟨hw1, hw2⟩
          · simp only [hlt, Bool.false_eq_true, if_false]
            exact ⟨hw2, hw1⟩

/-- After `get_intersect` reports an intersection, the interior map covers
both segments at the reported point. -/
theorem get_intersect_covers (st : BOState) (s1 s2 : Seg) (st1 : BOState)
    (ip : Pt) (h : sInv st)
    (hgi : get_intersect st s1 s2 = (st1, some ip)) :
    (∃ kv ∈ st1.simap, Seg.eqb kv.1.1 s1 = true ∧ Pt.eqb kv.1.2 ip = true)
    ∧ (∃ kv ∈ st1.simap, Seg.eqb kv.1.1 s2 = true
        ∧ Pt.eqb kv.1.2 ip = true) := by
  obtain ⟨ha, hb, hcc⟩ := h
  cases hic : icacheGet st.icache
      (if Seg.ltb s1 s2 = true then (s1, s2) else (s2, s1)) with
  | some v =>
    simp only [get_intersect, hic, Prod.mk.injEq] at hgi
    obtain ⟨hst, hv⟩ := hgi
    subst hst
    subst hv
    obtain ⟨cv, hm, h1, h2, h3⟩ := icacheGet_mem _ st.icache _ hic
    obtain ⟨hcv1, hcv2⟩ := hcc cv hm ip h3
    by_cases hlt : Seg.ltb s1 s2 = true
    · rw [hlt] at h1 h2
      simp only [if_true] at h1 h2
      constructor
      · obtain ⟨kv, hkm, hk1, hk2⟩ := hcv1
        exact ⟨kv, hkm, Seg.eqb_trans_seg hk1 h1, hk2⟩
      · obtain ⟨kv, hkm, hk1, hk2⟩ := hcv2
        exact ⟨kv, hkm, Seg.eqb_trans_seg hk1 h2, hk2⟩
    · simp only [hlt, Bool.false_eq_true, if_false] at h1 h2
      constructor
      · obtain ⟨kv, hkm, hk1, hk2⟩ := hcv2
        exact ⟨kv, hkm, Seg.eqb_trans_seg hk1 h2, hk2⟩
      · obtain ⟨kv, hkm, hk1, hk2⟩ := hcv1
        exact ⟨kv, hkm, Seg.eqb_trans_seg hk1 h1, hk2⟩
  | none =>
    cases hint : Seg.intersect s1 s2 true with
    | none =>
      simp only [get_intersect, hic, hint, Prod.mk.injEq] at hgi
      exact Option.noConfusion hgi.2
    | some raw =>
      simp only [get_intersect, hic, hint, Prod.mk.injEq] at hgi
      obtain ⟨hst, hv⟩ := hgi
      simp only [Option.some_inj] at hv
      subst hv
      subst hst
      constructor
      · obtain ⟨kv1, hm1, h11, h12⟩ := simapSet_mem st.simap s1
          (Pt.roundTo raw st.nd) (staticInterior s1 (Pt.roundTo raw st.nd))
        obtain ⟨kv2, hm2, he⟩ := simapSet_keys _ s2 (Pt.roundTo raw st.nd)
          (staticInterior s2 (Pt.roundTo raw st.nd)) kv1 hm1
        exact ⟨kv2, hm2, by rw [he]; exact h11, by rw [he]; exact h12⟩
      · exact simapSet_mem _ s2 _ _

theorem schedule_preserves_sInv (st : BOState) (s1 s2 : Seg) (h : sInv st) :
    sInv (schedule_intersect st s1 s2) := by
  rcases hgi : get_intersect st s1 s2 with ⟨st1, ipq⟩
  have hst1 : sInv st1 := by
    have := get_intersect_preserves_sInv st s1 s2 h
    rw [hgi] at this
    exact this
  cases ipq with
  | none => simpa only [schedule_intersect, hgi] using hst1
  | some ip =>
    have hcov := get_intersect_covers st s1 s2 st1 ip h hgi
    simp only [schedule_intersect, hgi]
    by_cases hb : beforeSweep st1 ip.x = true
    · simpa only [hb, if_true] using hst1
    · simp only [hb, Bool.false_eq_true, if_false]
      obtain ⟨ha1, hb1, hc1⟩ := hst1
      by_cases hz : countsTotal st1 ip = 0
      · rw [if_pos hz]
        refine ⟨ha1, ?_, hc1⟩
        exact countsBump_covers st1.simap s2 ip 1 hcov.2 _
          (countsBump_covers st1.simap s1 ip 1 hcov.1 st1.counts hb1)
      · rw [if_neg hz]
        refine ⟨ha1, ?_, hc1⟩
        exact countsBump_covers st1.simap s2 ip 1 hcov.2 _
          (countsBump_covers st1.simap s1 ip 1 hcov.1 st1.counts hb1)

theorem unschedule_preserves_sInv (st : BOState) (s1 s2 : Seg)
    (st2 : BOState) (h : sInv st)
    (hres : unschedule_intersect st s1 s2 = some st2) : sInv st2 := by
  rcases hgi : get_intersect st s1 s2 with ⟨st1, ipq⟩
  have hst1 : sInv st1 := by
    have := get_intersect_preserves_sInv st s1 s2 h
    rw [hgi] at this
    exact this
  cases ipq with
  | none =>
    simp only [unschedule_intersect, hgi, Option.some_inj] at hres
    subst hres
    exact hst1
  | some ip =>
    have hcov := get_intersect_covers st s1 s2 st1 ip h hgi
    simp only [unschedule_intersect, hgi] at hres
    by_cases hb : atOrBeforeSweep st1 ip.x = true
    · rw [if_pos hb, Option.some_inj] at hres
      subst hres
      exact hst1
    · rw [if_neg hb] at hres
      obtain ⟨ha1, hb1, hc1⟩ := hst1
      have hbump : sInv { st1 with counts := countsBump (countsBump st1.counts ip s1 (-1)) ip s2 (-1) } := by
        refine ⟨ha1, ?_, hc1⟩
        exact countsBump_covers st1.simap s2 ip (-1) hcov.2 _
          (countsBump_covers st1.simap s1 ip (-1) hcov.1 st1.counts hb1)
      by_cases hz : countsTotal
          { st1 with counts :=
            countsBump (countsBump st1.counts ip s1 (-1)) ip s2 (-1) } ip = 0
      · rw [if_pos hz, Option.map_eq_some'] at hres
        obtain ⟨q2, _, hst2⟩ := hres
        subst hst2
        exact sInv_frame rfl rfl rfl hbump
      · rw [if_neg hz, Option.some_inj] at hres
        subst hres
        exact hbump

theorem foldl_schedule_preserves_sInv (l : List Seg) :
    ∀ (st : BOState) (s : Seg), sInv st →
      sInv (l.foldl (fun acc nb => schedule_intersect acc s nb) st) := by
  induction l with
  | nil => intro st s h; exact h
  | cons nb rest ih =>
    intro st s h
    simp only [List.foldl_cons]
    exact ih (schedule_intersect st s nb) s (schedule_preserves_sInv st s nb h)

theorem foldlM_unschedule_preserves_sInv (l : List Seg) :
    ∀ (st : BOState) (s : Seg) (st2 : BOState), sInv st →
      l.foldlM (fun acc nb => unschedule_intersect acc s nb) st = some st2 →
      sInv st2 := by
  induction l with
  | nil =>
    intro st s st2 h hres
    simp only [List.foldlM_nil, Option.pure_def, Option.some_inj] at hres
    subst hres
    exact h
  | cons nb rest ih =>
    intro st s st2 h hres
    simp only [List.foldlM_cons] at hres
    cases hu : unschedule_intersect st s nb with
    | none =>
      rw [hu] at hres
      exact Option.noConfusion hres
    | some st1 =>
      rw [hu] at hres
      have hres2 : rest.foldlM (fun acc nb => unschedule_intersect acc s nb)
          st1 = some st2 := hres
      exact ih st1 s st2 (unschedule_preserves_sInv st s nb st1 h hu) hres2

theorem insertNeighborOps_preserves_sInv (st : BOState) (s : Seg)
    (nbs : List Seg) (st2 : BOState) (h : sInv st)
    (hres : insertNeighborOps st s nbs = some st2) : sInv st2 := by
  rcases nbs with _ | ⟨a, _ | ⟨b, _ | ⟨c, t⟩⟩⟩
  · have hres2 : (some st : Option BOState) = some st2 := hres
    rw [← Option.some_inj.mp hres2]
    exact h
  · have hres2 : (some (schedule_intersect st s a) : Option BOState) =
        some st2 := hres
    rw [← Option.some_inj.mp hres2]
    exact schedule_preserves_sInv st s a h
  · have hres2 : (match unschedule_intersect st a b with
        | none => none
        | some stm => some (schedule_intersect (schedule_intersect stm s a)
            s b) : Option BOState) = some st2 := hres
    cases hu : unschedule_intersect st a b with
    | none =>
      rw [hu] at hres2
      exact Option.noConfusion hres2
    | some stm =>
      simp only [hu, Option.some_inj] at hres2
      rw [← hres2]
      exact schedule_preserves_sInv _ s b (schedule_preserves_sInv _ s a
        (unschedule_preserves_sInv st a b stm h hu))
  · have hres2 : (some ((a :: b :: c :: t).foldl
        (fun acc nb => schedule_intersect acc s nb) st) : Option BOState) =
        some st2 := hres
    rw [← Option.some_inj.mp hres2]
    exact foldl_schedule_preserves_sInv (a :: b :: c :: t) st s h

theorem insert_into_tree_preserves_sInv (st : BOState) (s : Seg)
    (st2 : BOState) (h : sInv st)
    (hres : insert_into_tree st s = some st2) : sInv st2 := by
  unfold insert_into_tree at hres
  have h1 : sInv (insertWrapTree st s) := sInv_frame rfl rfl rfl h
  cases hnb : get_tree_neighbors (insertWrapTree st s) s with
  | none =>
    rw [hnb] at hres
    exact Option.noConfusion hres
  | some nbs =>
    rw [hnb] at hres
    exact insertNeighborOps_preserves_sInv _ s nbs st2 h1 hres

theorem removeNeighborOps_preserves_sInv (st : BOState) (s : Seg)
    (nbs : List Seg) (st2 : BOState) (h : sInv st)
    (hres : removeNeighborOps st s nbs = some st2) : sInv st2 := by
  have main : ∀ (stm : BOState), sInv stm →
      (match removeSeg stm.tree s with
        | none => none
        | some t => some { stm with tree := t }) = some st2 → sInv st2 := by
    intro stm hm hr
    cases hrm : removeSeg stm.tree s with
    | none =>
      rw [hrm] at hr
      exact Option.noConfusion hr
    | some t2 =>
      simp only [hrm, Option.some_inj] at hr
      rw [← hr]
      exact sInv_frame rfl rfl rfl hm
  have step : ∀ (stf : BOState),
      (nbs.foldlM (fun acc nb => unschedule_intersect acc s nb) st
        = some stf) →
      (match removeSeg (match nbs with
          | [a, b] => schedule_intersect stf a b
          | _ => stf).tree s with
        | none => none
        | some t => some { (match nbs with
            | [a, b] => schedule_intersect stf a b
            | _ => stf) with tree := t }) = some st2 → sInv st2 := by
    intro stf hfold hr
    have hqf : sInv stf := foldlM_unschedule_preserves_sInv nbs st s stf h hfold
    rcases nbs with _ | ⟨a, _ | ⟨b, _ | ⟨c, t⟩⟩⟩
    · exact main stf hqf hr
    · exact main stf hqf hr
    · exact main (schedule_intersect stf a b)
        (schedule_preserves_sInv stf a b hqf) hr
    · exact main stf hqf hr
  unfold removeNeighborOps at hres
  cases hfold : nbs.foldlM (fun acc nb => unschedule_intersect acc s nb) st
    with
  | none =>
    rw [hfold] at hres
    exact Option.noConfusion hres
  | some stf =>
    rw [hfold] at hres
    exact step stf hfold hres

theorem remove_from_tree_preserves_sInv (st : BOState) (s : Seg)
    (st2 : BOState) (h : sInv st)
    (hres : remove_from_tree st s = some st2) : sInv st2 := by
  unfold remove_from_tree at hres
  cases hnb : get_tree_neighbors st s with
  | none =>
    rw [hnb] at hres
    exact Option.noConfusion hres
  | some nbs =>
    rw [hnb] at hres
    exact removeNeighborOps_preserves_sInv st s nbs st2 h hres

theorem foldl_assignY_frame2 (ipy : Frac) (l : List (Seg × ℤ)) :
    ∀ st : BOState,
      (l.foldl (fun acc p => assignY acc ipy p) st).counts = st.counts
      ∧ (l.foldl (fun acc p => assignY acc ipy p) st).simap = st.simap
      ∧ (l.foldl (fun acc p => assignY acc ipy p) st).icache = st.icache := by
  induction l with
  | nil => intro st; exact ⟨rfl, rfl, rfl⟩
  | cons p rest ih =>
    intro st
    simp only [List.foldl_cons]
    exact ih (assignY st ipy p)

theorem swapRewrite_frame2 (ipy : Frac) :
    ∀ (pairs : List (Seg × ℤ)) (st : BOState) (pos : ℕ),
      (swapRewrite ipy st pos pairs).counts = st.counts
      ∧ (swapRewrite ipy st pos pairs).simap = st.simap
      ∧ (swapRewrite ipy st pos pairs).icache = st.icache := by
  intro pairs
  induction pairs with
  | nil => intro st pos; exact ⟨rfl, rfl, rfl⟩
  | cons p rest ih =>
    intro st pos
    obtain ⟨s, step⟩ := p
    rw [swapRewrite_cons]
    exact ih _ _

theorem swapOuterLow_preserves_sInv (st : BOState) (idx0 : ℕ)
    (s0 slast : Seg) (st2 : BOState) (h : sInv st)
    (hres : swapOuterLow st idx0 s0 slast = some st2) : sInv st2 := by
  unfold swapOuterLow at hres
  by_cases h0 : idx0 = 0
  · rw [if_pos h0] at hres
    simp only [Option.some_inj] at hres
    subst hres
    exact h
  · rw [if_neg h0] at hres
    cases hg : st.tree[idx0 - 1]? with
    | none =>
      simp only [hg] at hres
      exact Option.noConfusion hres
    | some sprev =>
      simp only [hg] at hres
      cases hu : unschedule_intersect st sprev s0 with
      | none =>
        simp only [hu] at hres
        exact Option.noConfusion hres
      | some stu =>
        simp only [hu, Option.some_inj] at hres
        subst hres
        exact schedule_preserves_sInv _ _ _
          (unschedule_preserves_sInv _ _ _ _ h hu)

theorem swapOuterHigh_preserves_sInv (st : BOState) (s0 slast : Seg)
    (st2 : BOState) (h : sInv st)
    (hres : swapOuterHigh st s0 slast = some st2) : sInv st2 := by
  unfold swapOuterHigh at hres
  cases hidx : idxOfSeg st.tree slast with
  | none =>
    simp only [hidx] at hres
    exact Option.noConfusion hres
  | some idxT =>
    simp only [hidx] at hres
    by_cases hc : idxT + 1 < st.tree.length
    · rw [if_pos hc] at hres
      cases hg : st.tree[idxT + 1]? with
      | none =>
        simp only [hg] at hres
        exact Option.noConfusion hres
      | some snext =>
        simp only [hg] at hres
        cases hu : unschedule_intersect st slast snext with
        | none =>
          simp only [hu] at hres
          exact Option.noConfusion hres
        | some stu =>
          simp only [hu, Option.some_inj] at hres
          subst hres
          exact schedule_preserves_sInv _ _ _
            (unschedule_preserves_sInv _ _ _ _ h hu)
    · rw [if_neg hc] at hres
      simp only [Option.some_inj] at hres
      subst hres
      exact h

theorem swap_preserves_sInv (st : BOState) (group : List Seg)
    (st2 : BOState) (h : sInv st) (hres : swap st group = some st2) :
    sInv st2 := by
  unfold swap at hres
  rcases hsort : isort swapSortLtb group with _ | ⟨s0, _ | ⟨s1, rest⟩⟩ <;>
    rw [hsort] at hres
  · simp at hres
  · simp at hres
  · dsimp only at hres
    rcases hgi : get_intersect st s0 s1 with ⟨st1, ipq⟩
    have hst1 : sInv st1 := by
      have := get_intersect_preserves_sInv st s0 s1 h
      rw [hgi] at this
      exact this
    rw [hgi] at hres
    cases ipq with
    | none => simp at hres
    | some ip =>
      dsimp only at hres
      have hstfq : sInv (((s0 :: s1 :: rest).zip
          (swapSteps (s0 :: s1 :: rest).length)).foldl
          (fun acc p => assignY acc ip.y p) st1) := by
        have := foldl_assignY_frame2 ip.y
          ((s0 :: s1 :: rest).zip (swapSteps (s0 :: s1 :: rest).length)) st1
        exact sInv_frame this.1 this.2.1 this.2.2 hst1
      cases hidx : idxOfSeg (((s0 :: s1 :: rest).zip
          (swapSteps (s0 :: s1 :: rest).length)).foldl
          (fun acc p => assignY acc ip.y p) st1).tree s0 with
      | none =>
        simp only [hidx] at hres
        exact Option.noConfusion hres
      | some idx0 =>
        simp only [hidx] at hres
        cases hlow : swapOuterLow (((s0 :: s1 :: rest).zip
            (swapSteps (s0 :: s1 :: rest).length)).foldl
            (fun acc p => assignY acc ip.y p) st1) idx0 s0
            ((s1 :: rest).getLastD s1) with
        | none =>
          simp only [hlow] at hres
          exact Option.noConfusion hres
        | some stl =>
          simp only [hlow] at hres
          cases hhigh : swapOuterHigh stl s0 ((s1 :: rest).getLastD s1) with
          | none =>
            simp only [hhigh] at hres
            exact Option.noConfusion hres
          | some sth =>
            simp only [hhigh, Option.some_inj] at hres
            subst hres
            have hl : sInv stl :=
              swapOuterLow_preserves_sInv _ _ _ _ _ hstfq hlow
            have hh : sInv sth :=
              swapOuterHigh_preserves_sInv _ _ _ _ hl hhigh
            have := swapRewrite_frame2 ip.y
              ((s0 :: s1 :: rest).reverse.zip
                (swapSteps (s0 :: s1 :: rest).length)) sth idx0
            exact sInv_frame this.1 this.2.1 this.2.2 hh

theorem boStep_preserves_sInv (st st2 : BOState) (em : Option Emission)
    (h : sInv st) (hres : boStep st = some (st2, em)) : sInv st2 := by
  unfold boStep at hres
  cases hpop : popMin st.queue with
  | none =>
    rw [hpop] at hres
    exact Option.noConfusion hres
  | some er =>
    obtain ⟨e, rest⟩ := er
    rw [hpop] at hres
    have hq : sInv (popState st e rest) := sInv_frame rfl rfl rfl h
    have hres2 : (match e.ev, e.data with
      | .START, .seg s =>
        (insert_into_tree (popState st e rest) s).map (fun st2 => (st2, none))
      | .END, .seg s =>
        (remove_from_tree (popState st e rest) s).map (fun st2 => (st2, none))
      | .MEET, .pt p =>
        (swap (popState st e rest)
          ((countsGet (popState st e rest).counts p).map Prod.fst)).map
          (fun st2 => (st2, some ⟨p,
            (countsGet (popState st e rest).counts p).map Prod.fst,
            non_endpoint_intersect (popState st e rest) p⟩))
      | _, _ => none) = some (st2, em) := hres
    clear hres
    cases hev : e.ev with
    | START =>
      cases hdata : e.data with
      | pt p =>
        simp only [hev, hdata] at hres2
        exact Option.noConfusion hres2
      | seg s =>
        simp only [hev, hdata] at hres2
        cases hri : insert_into_tree (popState st e rest) s with
        | none => rw [hri] at hres2; exact Option.noConfusion hres2
        | some stx =>
          rw [hri] at hres2
          simp only [Option.map_some', Option.some_inj, Prod.mk.injEq]
            at hres2
          rw [← hres2.1]
          exact insert_into_tree_preserves_sInv _ _ _ hq hri
    | MEET =>
      cases hdata : e.data with
      | seg s =>
        simp only [hev, hdata] at hres2
        exact Option.noConfusion hres2
      | pt p =>
        simp only [hev, hdata] at hres2
        cases hsw : swap (popState st e rest)
            ((countsGet (popState st e rest).counts p).map Prod.fst) with
        | none => rw [hsw] at hres2; exact Option.noConfusion hres2
        | some stx =>
          rw [hsw] at hres2
          simp only [Option.map_some', Option.some_inj, Prod.mk.injEq]
            at hres2
          rw [← hres2.1]
          exact swap_preserves_sInv _ _ _ hq hsw
    | END =>
      cases hdata : e.data with
      | pt p =>
        simp only [hev, hdata] at hres2
        exact Option.noConfusion hres2
      | seg s =>
        simp only [hev, hdata] at hres2
        cases hrr : remove_from_tree (popState st e rest) s with
        | none => rw [hrr] at hres2; exact Option.noConfusion hres2
        | some stx =>
          rw [hrr] at hres2
          simp only [Option.map_some', Option.some_inj, Prod.mk.injEq]
            at hres2
          rw [← hres2.1]
          exact remove_from_tree_preserves_sInv _ _ _ hq hrr

/-- The interior condition recorded in an emission, expressed statically:
at least two of the contributing segments do not have the intersection
point as one of their own endpoints. -/
def interiorOK (em : Emission) : Prop :=
  em.interior =
    decide (2 ≤ em.contribs.countP (fun s => staticInterior s em.pt))

theorem boStep_emission_char (st st2 : BOState) (em : Emission)
    (h : sInv st) (hres : boStep st = some (st2, some em)) :
    interiorOK em := by
  unfold boStep at hres
  cases hpop : popMin st.queue with
  | none =>
    rw [hpop] at hres
    exact Option.noConfusion hres
  | some er =>
    obtain ⟨e, rest⟩ := er
    rw [hpop] at hres
    have hq : sInv (popState st e rest) := sInv_frame rfl rfl rfl h
    have hres2 : (match e.ev, e.data with
      | .START, .seg s =>
        (insert_into_tree (popState st e rest) s).map (fun st2 => (st2, none))
      | .END, .seg s =>
        (remove_from_tree (popState st e rest) s).map (fun st2 => (st2, none))
      | .MEET, .pt p =>
        (swap (popState st e rest)
          ((countsGet (popState st e rest).counts p).map Prod.fst)).map
          (fun st2 => (st2, some ⟨p,
            (countsGet (popState st e rest).counts p).map Prod.fst,
            non_endpoint_intersect (popState st e rest) p⟩))
      | _, _ => none) = some (st2, some em) := hres
    clear hres
    cases hev : e.ev with
    | START =>
      cases hdata : e.data with
      | pt p =>
        simp only [hev, hdata] at hres2
        exact Option.noConfusion hres2
      | seg s =>
        simp only [hev, hdata] at hres2
        cases hri : insert_into_tree (popState st e rest) s with
        | none => rw [hri] at hres2; exact Option.noConfusion hres2
        | some stx =>
          rw [hri] at hres2
          simp only [Option.map_some', Option.some_inj, Prod.mk.injEq]
            at hres2
          exact Option.noConfusion hres2.2
    | MEET =>
      cases hdata : e.data with
      | seg s =>
        simp only [hev, hdata] at hres2
        exact Option.noConfusion hres2
      | pt p =>
        simp only [hev, hdata] at hres2
        cases hsw : swap (popState st e rest)
            ((countsGet (popState st e rest).counts p).map Prod.fst) with
        | none => rw [hsw] at hres2; exact Option.noConfusion hres2
        | some stx =>
          rw [hsw] at hres2
          simp only [Option.map_some', Option.some_inj, Prod.mk.injEq]
            at hres2
          have hem : em = ⟨p,
              (countsGet (popState st e rest).counts p).map Prod.fst,
              non_endpoint_intersect (popState st e rest) p⟩ :=
            hres2.2.symm
          subst hem
          unfold interiorOK
          simp only
          rw [non_endpoint_intersect_char (popState st e rest) p hq]
          congr 1
          rw [List.countP_map]
          rfl
    | END =>
      cases hdata : e.data with
      | pt p =>
        simp only [hev, hdata] at hres2
        exact Option.noConfusion hres2
      | seg s =>
        simp only [hev, hdata] at hres2
        cases hrr : remove_from_tree (popState st e rest) s with
        | none => rw [hrr] at hres2; exact Option.noConfusion hres2
        | some stx =>
          rw [hrr] at hres2
          simp only [Option.map_some', Option.some_inj, Prod.mk.injEq]
            at hres2
          exact Option.noConfusion hres2.2

theorem boInit_sInv (segs : List Seg) (nd : ℕ) : sInv (boInit segs nd) := by
  refine ⟨?_, ?_, ?_⟩
  · intro kv hkv
    simp only [boInit] at hkv
    simp at hkv
  · intro pe hpe
    simp only [boInit] at hpe
    simp at hpe
  · intro cv hcv
    simp only [boInit] at hcv
    simp at hcv

theorem boLoopA_interiorOK :
    ∀ (fuel : ℕ) (st : BOState) (acc : List Emission) (stf : BOState)
      (ems : List Emission), sInv st → (∀ em ∈ acc, interiorOK em) →
      boLoopA fuel st acc = some (stf, ems) → ∀ em ∈ ems, interiorOK em := by
  intro fuel
  induction fuel with
  | zero =>
    intro st acc stf ems h hacc hres
    simp only [boLoopA] at hres
    by_cases he : st.queue.isEmpty = true
    · rw [if_pos he, Option.some_inj] at hres
      have h2 : acc = ems := congrArg Prod.snd hres
      rw [← h2]
      exact hacc
    · rw [if_neg he] at hres
      exact Option.noConfusion hres
  | succ n ih =>
    intro st acc stf ems h hacc hres
    simp only [boLoopA] at hres
    by_cases he : st.queue.isEmpty = true
    · rw [if_pos he, Option.some_inj] at hres
      have h2 : acc = ems := congrArg Prod.snd hres
      rw [← h2]
      exact hacc
    · rw [if_neg he] at hres
      cases hstep : boStep st with
      | none =>
        simp only [hstep] at hres
        exact Option.noConfusion hres
      | some pr =>
        obtain ⟨st2, emq⟩ := pr
        cases emq with
        | none =>
          simp only [hstep] at hres
          exact ih st2 acc stf ems
            (boStep_preserves_sInv st st2 none h hstep) hacc hres
        | some em2 =>
          simp only [hstep] at hres
          refine ih st2 (acc ++ [em2]) stf ems
            (boStep_preserves_sInv st st2 (some em2) h hstep) ?_ hres
          intro em3 hm
          rcases List.mem_append.mp hm with h1 | h1
          · exact hacc em3 h1
          · rw [List.mem_singleton.mp h1]
            exact boStep_emission_char st st2 em2 h hstep

theorem selectEmits_false_eq (l : List Emission) :
    selectEmits false l = (l.filter (fun em => em.interior)).map
      Emission.pt := by
  induction l with
  | nil => rfl
  | cons e t ih =>
    rw [selectEmits_cons, List.filter_cons]
    by_cases h : e.interior = true
    · simp only [h, Bool.false_or, if_true, List.map_cons, ih,
        List.singleton_append]
    · simp only [Bool.not_eq_true] at h
      simp only [h, Bool.false_or, Bool.false_eq_true, if_false,
        List.nil_append, ih]

/-- C2: with `include_end = False`, the returned list consists exactly of
the emitted intersection points for which at least two contributing
segments have the point as a genuine interior point (the point is not one
of the segment's own endpoints), and every emission's recorded interior
flag equals that static condition. -/
theorem c2_interior_filter (segs : List Seg) (nd fuel : ℕ)
    (l : List Emission) (hl : boEmits segs nd fuel = some l) :
    bentley_ottmann segs false nd fuel =
      some ((l.filter (fun em =>
        2 ≤ em.contribs.countP (fun s => staticInterior s em.pt))).map
        Emission.pt)
    ∧ ∀ em ∈ l, (em.interior = true ↔
        2 ≤ em.contribs.countP (fun s => staticInterior s em.pt)) := by
  simp only [boEmits, Option.map_eq_some'] at hl
  obtain ⟨r, hr, hrl⟩ := hl
  obtain ⟨stf, ems⟩ := r
  simp only at hrl
  subst hrl
  have hok : ∀ em ∈ ems, interiorOK em :=
    boLoopA_interiorOK fuel (boInit segs nd) [] stf ems
      (boInit_sInv segs nd) (by intro em hm; simp at hm) hr
  have hiff : ∀ em ∈ ems, (em.interior = true ↔
      2 ≤ em.contribs.countP (fun s => staticInterior s em.pt)) := by
    intro em hm
    rw [hok em hm]
    exact decide_eq_true_iff
  refine ⟨?_, hiff⟩
  have hF := boLoopF_eq_boLoopA false fuel (boInit segs nd) []
  have hsel : (selectEmits false [] : List Pt) = [] := rfl
  rw [hsel] at hF
  simp only [bentley_ottmann, hF, hr, Option.map_some', Option.some_inj]
  rw [selectEmits_false_eq]
  congr 1
  apply List.filter_congr
  intro em hm
  exact hok em hm

/-- Witness for `c2_interior_filter`: the crossing-diagonals scene. -/
theorem c2_interior_filter_witness :
    ∃ l, boEmits segsX 9 100 = some l
      ∧ bentley_ottmann segsX false 9 100 =
          some ((l.filter (fun em =>
            2 ≤ em.contribs.countP (fun s => staticInterior s em.pt))).map
            Emission.pt)
      ∧ ∀ em ∈ l, (em.interior = true ↔
          2 ≤ em.contribs.countP (fun s => staticInterior s em.pt)) := by
  have hs : (boEmits segsX 9 100).isSome = true := by rfl
  obtain ⟨l, hl⟩ := Option.isSome_iff_exists.mp hs
  obtain ⟨h1, h2⟩ := c2_interior_filter segsX 9 100 l hl
  exact ⟨l, hl, h1, h2⟩

/-! ## The monotone triangulation engine: preprocessing (claims C3, C7)

Embedding of `_preprocess_points`, `PointType` and the sort key of
`WrappedPointPriority` (`algorithms.py`).  A `WrappedPoint`'s links are
represented by ring indices into the vertex list. -/

/-- `PointType`: LEAVE = 0, MERGE = 1, FLANK = 2, SPLIT = 3, ENTER = 4
(the values order the types inside the priority key). -/
inductive PType where
  | LEAVE
  | MERGE
  | FLANK
  | SPLIT
  | ENTER
deriving DecidableEq

/-- The enum value of a point type. -/
def PType.val : PType → ℕ
  | .LEAVE => 0
  | .MERGE => 1
  | .FLANK => 2
  | .SPLIT => 3
  | .ENTER => 4

/-- A preprocessed polygon vertex (`WrappedPoint`): its point, its ring
index, the ring indices of its deasil (clockwise) and widdershins
(counter-clockwise) neighbors, the index of the neighbor with the larger
point (`posx_point`), and its classification. -/
structure WP where
  point : Pt
  idx : ℕ
  deasilIdx : ℕ
  widderIdx : ℕ
  posxIdx : ℕ
  ptype : PType

def defaultPt : Pt := ⟨Frac.ofInt 0, Frac.ofInt 0⟩

def defaultWP : WP := ⟨defaultPt, 0, 0, 0, 0, PType.FLANK⟩

/-- The classification of `_preprocess_points`: FLANK by default; ENTER or
SPLIT when both neighbors are larger points (in the lexicographic point
order) according to the turn orientation; LEAVE or MERGE when both
neighbors are smaller. -/
def classifyPoint (deasil self widder : Pt) : PType :=
  if Pt.gtb deasil self && Pt.gtb widder self then
    if orientation deasil self widder = -1 then PType.ENTER
    else if orientation deasil self widder = 1 then PType.SPLIT
    else PType.FLANK
  else if Pt.ltb deasil self && Pt.ltb widder self then
    if orientation deasil self widder = -1 then PType.LEAVE
    else if orientation deasil self widder = 1 then PType.MERGE
    else PType.FLANK
  else PType.FLANK

/-- `_preprocess_points(polygon_index, points)`: wrap every ring vertex
with its neighbor links, `posx` pointer and classification. -/
def _preprocess_points (points : List Pt) : List WP :=
  (List.range points.length).map (fun k =>
    let n := points.length
    let di := (k + n - 1) % n
    let wi := (k + 1) % n
    let pd := points.getD di defaultPt
    let p := points.getD k defaultPt
    let pw := points.getD wi defaultPt
    { point := p, idx := k, deasilIdx := di, widderIdx := wi,
      posxIdx := if Pt.ltb pd p then wi else di,
      ptype := classifyPoint pd p pw })

theorem orientation_cases (a b c : Pt) :
    orientation a b c = -1 ∨ orientation a b c = 1 ∨ orientation a b c = 0 := by
  unfold orientation
  dsimp only
  split_ifs <;> simp

theorem classifyPoint_enter (d p w : Pt) :
    classifyPoint d p w = PType.ENTER ↔
      (Pt.gtb d p = true ∧ Pt.gtb w p = true ∧ orientation d p w = -1) := by
  unfold classifyPoint
  simp only [Bool.and_eq_true]
  by_cases h1 : Pt.gtb d p = true ∧ Pt.gtb w p = true
  · rw [if_pos h1]
    rcases orientation_cases d p w with ho | ho | ho <;>
      simp [ho, h1.1, h1.2]
  · rw [if_neg h1]
    constructor
    · intro h
      exfalso
      split_ifs at h <;> simp_all
    · rintro ⟨ha, hb, _⟩
      exact absurd ⟨ha, hb⟩ h1

theorem classifyPoint_split (d p w : Pt) :
    classifyPoint d p w = PType.SPLIT ↔
      (Pt.gtb d p = true ∧ Pt.gtb w p = true ∧ orientation d p w = 1) := by
  unfold classifyPoint
  simp only [Bool.and_eq_true]
  by_cases h1 : Pt.gtb d p = true ∧ Pt.gtb w p = true
  · rw [if_pos h1]
    rcases orientation_cases d p w with ho | ho | ho <;>
      simp [ho, h1.1, h1.2]
  · rw [if_neg h1]
    constructor
    · intro h
      exfalso
      split_ifs at h <;> simp_all
    · rintro ⟨ha, hb, _⟩
      exact absurd ⟨ha, hb⟩ h1

theorem classifyPoint_leave (d p w : Pt) :
    classifyPoint d p w = PType.LEAVE ↔
      (Pt.ltb d p = true ∧ Pt.ltb w p = true ∧ orientation d p w = -1) := by
  unfold classifyPoint
  simp only [Bool.and_eq_true]
  by_cases h1 : Pt.gtb d p = true ∧ Pt.gtb w p = true
  · rw [if_pos h1]
    constructor
    · intro h
      exfalso
      split_ifs at h <;> simp_all
    · rintro ⟨ha, _, _⟩
      have h1d : Pt.ltb p d = true := h1.1
      have := Pt.ltb_asymm_pt ha
      simp_all
  · rw [if_neg h1]
    by_cases h2 : Pt.ltb d p = true ∧ Pt.ltb w p = true
    · rw [if_pos h2]
      rcases orientation_cases d p w with ho | ho | ho <;>
        simp [ho, h2.1, h2.2]
    · rw [if_neg h2]
      constructor
      · intro h
        exact absurd h (by decide)
      · rintro ⟨ha, hb, _⟩
        exact absurd ⟨ha, hb⟩ h2

theorem classifyPoint_merge (d p w : Pt) :
    classifyPoint d p w = PType.MERGE ↔
      (Pt.ltb d p = true ∧ Pt.ltb w p = true ∧ orientation d p w = 1) := by
  unfold classifyPoint
  simp only [Bool.and_eq_true]
  by_cases h1 : Pt.gtb d p = true ∧ Pt.gtb w p = true
  · rw [if_pos h1]
    constructor
    · intro h
      exfalso
      split_ifs at h <;> simp_all
    · rintro ⟨ha, _, _⟩
      have h1d : Pt.ltb p d = true := h1.1
      have := Pt.ltb_asymm_pt ha
      simp_all
  · rw [if_neg h1]
    by_cases h2 : Pt.ltb d p = true ∧ Pt.ltb w p = true
    · rw [if_pos h2]
      rcases orientation_cases d p w with ho | ho | ho <;>
        simp [ho, h2.1, h2.2]
    · rw [if_neg h2]
      constructor
      · intro h
        exact absurd h (by decide)
      · rintro ⟨ha, hb, _⟩
        exact absurd ⟨ha, hb⟩ h2

theorem classifyPoint_spec (d p w : Pt) :
    (classifyPoint d p w = PType.ENTER ↔
      (Pt.gtb d p = true ∧ Pt.gtb w p = true ∧ orientation d p w = -1))
    ∧ (classifyPoint d p w = PType.SPLIT ↔
      (Pt.gtb d p = true ∧ Pt.gtb w p = true ∧ orientation d p w = 1))
    ∧ (classifyPoint d p w = PType.LEAVE ↔
      (Pt.ltb d p = true ∧ Pt.ltb w p = true ∧ orientation d p w = -1))
    ∧ (classifyPoint d p w = PType.MERGE ↔
      (Pt.ltb d p = true ∧ Pt.ltb w p = true ∧ orientation d p w = 1)) :=
  ⟨classifyPoint_enter d p w, classifyPoint_split d p w,
    classifyPoint_leave d p w, classifyPoint_merge d p w⟩

/-- C3, counterexample.  The claim classifies by "both neighbors have
strictly larger x-coordinate"; the code compares whole points in the
lexicographic `(x, y)` order.  For the unit square ring
`(0,0),(1,0),(1,1),(0,1)` the vertex `(0,0)` is classified ENTER although
its deasil neighbor `(0,1)` has an equal (not strictly larger)
x-coordinate: the claim's x-based rule would make it FLANK. -/
theorem c3_counterexample :
    ((_preprocess_points
      [⟨Frac.ofInt 0, Frac.ofInt 0⟩, ⟨Frac.ofInt 1, Frac.ofInt 0⟩,
       ⟨Frac.ofInt 1, Frac.ofInt 1⟩, ⟨Frac.ofInt 0, Frac.ofInt 1⟩]).getD 0
        defaultWP).ptype = PType.ENTER
    ∧ Frac.ltb (Frac.ofInt 0) ((⟨Frac.ofInt 0, Frac.ofInt 1⟩ : Pt).x) = false :=
  ⟨by rfl, by rfl⟩

/-- C3, amended: each vertex's classification satisfies: ENTER iff both the
deasil and widder neighbors are strictly larger *points* (in the
lexicographic `(x, y)` point order, not merely in x) and the turn is
convex (orientation `-1`); SPLIT iff both neighbors are larger and the
turn is reflex (orientation `1`); LEAVE iff both neighbors are smaller
points and the turn is convex; MERGE iff both neighbors are smaller and
the turn is reflex; FLANK in every other case (including collinear
turns). -/
theorem c3_amended (points : List Pt) (k : ℕ) (hk : k < points.length) :
    ((_preprocess_points points).getD k defaultWP).ptype =
      classifyPoint
        (points.getD ((k + points.length - 1) % points.length) defaultPt)
        (points.getD k defaultPt)
        (points.getD ((k + 1) % points.length) defaultPt)
    ∧ ∀ d p w : Pt,
      ((classifyPoint d p w = PType.ENTER ↔
        (Pt.gtb d p = true ∧ Pt.gtb w p = true ∧ orientation d p w = -1))
      ∧ (classifyPoint d p w = PType.SPLIT ↔
        (Pt.gtb d p = true ∧ Pt.gtb w p = true ∧ orientation d p w = 1))
      ∧ (classifyPoint d p w = PType.LEAVE ↔
        (Pt.ltb d p = true ∧ Pt.ltb w p = true ∧ orientation d p w = -1))
      ∧ (classifyPoint d p w = PType.MERGE ↔
        (Pt.ltb d p = true ∧ Pt.ltb w p = true ∧ orientation d p w = 1))) := by
  constructor
  · unfold _preprocess_points
    rw [List.getD_eq_getElem?_getD, List.getElem?_map]
    have hrange : (List.range points.length)[k]? = some k := by
      rw [List.getElem?_range hk]
    rw [hrange]
    rfl
  · intro d p w
    exact classifyPoint_spec d p w

/-- Witness for `c3_amended` at vertex 1 of the unit square. -/
theorem c3_amended_witness :
    (1 < ([⟨Frac.ofInt 0, Frac.ofInt 0⟩, ⟨Frac.ofInt 1, Frac.ofInt 0⟩,
       ⟨Frac.ofInt 1, Frac.ofInt 1⟩, ⟨Frac.ofInt 0, Frac.ofInt 1⟩] :
        List Pt).length)
    ∧ ((_preprocess_points
      [⟨Frac.ofInt 0, Frac.ofInt 0⟩, ⟨Frac.ofInt 1, Frac.ofInt 0⟩,
       ⟨Frac.ofInt 1, Frac.ofInt 1⟩, ⟨Frac.ofInt 0, Frac.ofInt 1⟩]).getD 1
        defaultWP).ptype =
      classifyPoint
        (([⟨Frac.ofInt 0, Frac.ofInt 0⟩, ⟨Frac.ofInt 1, Frac.ofInt 0⟩,
       ⟨Frac.ofInt 1, Frac.ofInt 1⟩, ⟨Frac.ofInt 0, Frac.ofInt 1⟩] :
        List Pt).getD ((1 + 4 - 1) % 4) defaultPt)
        (([⟨Frac.ofInt 0, Frac.ofInt 0⟩, ⟨Frac.ofInt 1, Frac.ofInt 0⟩,
       ⟨Frac.ofInt 1, Frac.ofInt 1⟩, ⟨Frac.ofInt 0, Frac.ofInt 1⟩] :
        List Pt).getD 1 defaultPt)
        (([⟨Frac.ofInt 0, Frac.ofInt 0⟩, ⟨Frac.ofInt 1, Frac.ofInt 0⟩,
       ⟨Frac.ofInt 1, Frac.ofInt 1⟩, ⟨Frac.ofInt 0, Frac.ofInt 1⟩] :
        List Pt).getD ((1 + 1) % 4) defaultPt) :=
  ⟨by decide,
    (c3_amended
      [⟨Frac.ofInt 0, Frac.ofInt 0⟩, ⟨Frac.ofInt 1, Frac.ofInt 0⟩,
       ⟨Frac.ofInt 1, Frac.ofInt 1⟩, ⟨Frac.ofInt 0, Frac.ofInt 1⟩] 1
      (by decide)).1⟩

/-! ## Claim C7: the re-enqueue condition at the end of the sweep loop -/

/-- The sort key comparison of `WrappedPointPriority.key`:
`(x, y, point_type)` compared lexicographically. -/
def wpKeyLtb (a b : WP) : Bool :=
  Frac.ltb a.point.x b.point.x ||
    (Frac.eqb a.point.x b.point.x &&
      (Frac.ltb a.point.y b.point.y ||
        (Frac.eqb a.point.y b.point.y &&
          decide (a.ptype.val < b.ptype.val))))

/-- C7: after processing a vertex, a ring neighbor is pushed into the
priority queue iff `neighbor.point > point.point` (the code's condition);
for vertices with distinct coordinates this holds iff the neighbor's sort
key `(x, y, point_type)` is strictly larger than the processed vertex's,
so each polygon edge is examined exactly once per direction. -/
theorem c7_reenqueue_key (a b : WP) (hne : Pt.eqb a.point b.point = false) :
    Pt.gtb b.point a.point = wpKeyLtb a b := by
  unfold Pt.gtb Pt.ltb wpKeyLtb
  by_cases hx : Frac.eqb a.point.x b.point.x = true
  · have hy : Frac.eqb a.point.y b.point.y = false := by
      simp only [Pt.eqb, Bool.and_eq_true] at hne
      by_cases h2 : Frac.eqb a.point.y b.point.y = true
      · simp_all
      · simpa using h2
    have hx2 : Frac.eqb b.point.x a.point.x = true := Frac.eqb_symm hx
    have hxl1 : Frac.ltb a.point.x b.point.x = false := Frac.not_ltb_of_eqb hx
    have hxl2 : Frac.ltb b.point.x a.point.x = false := Frac.not_ltb_of_eqb hx2
    simp [hx, hx2, hxl1, hxl2, hy]
  · have hx2 : Frac.eqb b.point.x a.point.x = false := by
      by_cases h2 : Frac.eqb b.point.x a.point.x = true
      · have := Frac.eqb_symm h2
        simp_all
      · simpa using h2
    have := Frac.ltb_or_of_not_eqb (a := a.point.x) (b := b.point.x)
      (by simpa using hx)
    rcases this with h | h
    · simp [hx, hx2, h, Frac.ltb_asymm h]
    · simp [hx, hx2, h, Frac.ltb_asymm h]

/-- Witness for `c7_reenqueue_key` at two concrete wrapped points. -/
theorem c7_reenqueue_key_witness :
    Pt.eqb (defaultWP.point) (⟨⟨Frac.ofInt 1, Frac.ofInt 2⟩, 1, 0, 2, 2,
      PType.FLANK⟩ : WP).point = false
    ∧ Pt.gtb (⟨⟨Frac.ofInt 1, Frac.ofInt 2⟩, 1, 0, 2, 2,
        PType.FLANK⟩ : WP).point defaultWP.point =
      wpKeyLtb defaultWP ⟨⟨Frac.ofInt 1, Frac.ofInt 2⟩, 1, 0, 2, 2,
        PType.FLANK⟩ :=
  ⟨by rfl,
    c7_reenqueue_key defaultWP
      ⟨⟨Frac.ofInt 1, Frac.ofInt 2⟩, 1, 0, 2, 2, PType.FLANK⟩ (by rfl)⟩

/-! ## The monotone triangulation engine: the sweep loop (claims C8, C10)

Embedding of `triangulate_polygon`, `Chain`, `ChainEnd` and `Chains`
(`algorithms.py`).  The `SortedDict` of chain ends (from the absent
`binary_search_tree.py`) is modelled from the spec as a sorted association
list whose `bracket` query returns the last key comparing less than the
probe point and the first key comparing greater.  Chains are stored by
numeric id; a `ChainEnd` is the pair (chain id, clock direction) with
`true` for widdershins.  The slope tie-breaks (`_compare_slopes`, backed
by `mean_bearings`) compare means of real-valued bearings, which have no
exact rational representation: the embedding leaves those comparisons
unresolved (`none`), so a run that consults them fails instead of
computing an unfaithful answer - every theorem below is therefore about
runs that never reach the unresolved comparisons. -/

/-- A chain of untriangulated ring indices in widdershins order
(`Chain.points`), with the index of its most-positive-x point
(`Chain.posx_index`). -/
structure Chain where
  pts : List ℕ
  posx : ℕ
deriving DecidableEq

/-- The state of the triangulation sweep: the preprocessed ring, the
priority queue and visited set of ring indices, the chain store and the
sorted tree of chain ends, and the accumulated triangles. -/
structure TriState where
  wps : List WP
  queue : List ℕ
  visited : List ℕ
  store : List (ℕ × Chain)
  nextId : ℕ
  tree : List (ℕ × Bool)
  tris : List (ℕ × ℕ × ℕ)

def wpAt (st : TriState) (i : ℕ) : WP := st.wps.getD i defaultWP

def storeGet (st : TriState) (cid : ℕ) : Option Chain :=
  (st.store.find? (fun kv => kv.1 = cid)).map Prod.snd

def storeSet : List (ℕ × Chain) → ℕ → Chain → List (ℕ × Chain)
  | [], cid, c => [(cid, c)]
  | (k, v) :: rest, cid, c =>
    if k = cid then (k, c) :: rest else (k, v) :: storeSet rest cid c

/-- The `(x, y, point_type)` key equality of `WrappedPointPriority`. -/
def wpKeyEqb (a b : WP) : Bool :=
  Frac.eqb a.point.x b.point.x && Frac.eqb a.point.y b.point.y &&
    decide (a.ptype.val = b.ptype.val)

/-- `WrappedPointPriority.__lt__`: identity first, then the key, then the
slope tie-break (unresolved). -/
def wpPrioLt (st : TriState) (i j : ℕ) : Option Bool :=
  if i = j then some false
  else if wpKeyEqb (wpAt st i) (wpAt st j) then none
  else some (wpKeyLtb (wpAt st i) (wpAt st j))

/-- Pop the leftmost minimal entry of the queue. -/
def triPopAux (st : TriState) : ℕ → List ℕ → Option (ℕ × List ℕ)
  | best, [] => some (best, [])
  | best, e :: rest =>
    match wpPrioLt st e best with
    | none => none
    | some true => (triPopAux st e rest).map (fun r => (r.1, best :: r.2))
    | some false => (triPopAux st best rest).map (fun r => (r.1, e :: r.2))

def triPopMin (st : TriState) : Option (ℕ × List ℕ) :=
  match st.queue with
  | [] => none
  | e :: rest => triPopAux st e rest

/-- `WrappedPoint.deasil_segment`: the ring segment into the vertex. -/
def deasilSegOf (st : TriState) (i : ℕ) : Seg :=
  ⟨(wpAt st (wpAt st i).deasilIdx).point, (wpAt st i).point⟩

/-- `WrappedPoint.widder_segment`: the ring segment out of the vertex. -/
def widderSegOf (st : TriState) (i : ℕ) : Seg :=
  ⟨(wpAt st i).point, (wpAt st (wpAt st i).widderIdx).point⟩

/-- `Chain.interval_at(x)`: the deasil (upper) and widder (lower) bounds
of the chain at abscissa `x`; fails on the source's `deasil_y >= widder_y`
assertion. -/
def intervalAt (st : TriState) (c : Chain) (x : Frac) : Option (Frac × Frac) :=
  match c.pts.head?, c.pts.getLast? with
  | some dp, some wp =>
    let dw := wpAt st dp
    let dpp := wpAt st dw.deasilIdx
    let dy := if Frac.eqb dpp.point.x dw.point.x then
        Frac.fmax dw.point.y dpp.point.y
      else Frac.add dw.point.y
        (Frac.mul (Seg.slope (deasilSegOf st dp)) (Frac.sub x dw.point.x))
    let ww := wpAt st wp
    let wpp := wpAt st ww.widderIdx
    let wy := if Frac.eqb wpp.point.x ww.point.x then
        Frac.fmin ww.point.y wpp.point.y
      else Frac.add ww.point.y
        (Frac.mul (Seg.slope (widderSegOf st wp)) (Frac.sub x ww.point.x))
    if Frac.ltb dy wy then none else some (dy, wy)
  | _, _ => none

def pairLtb (a b : Frac × Frac) : Bool :=
  Frac.ltb a.1 b.1 || (Frac.eqb a.1 b.1 && Frac.ltb a.2 b.2)

def pairEqb (a b : Frac × Frac) : Bool :=
  Frac.eqb a.1 b.1 && Frac.eqb a.2 b.2

/-- The x-extent of a chain's two end points. -/
def chainEndXs (st : TriState) (c : Chain) : Option (Frac × Frac) :=
  match c.pts.head?, c.pts.getLast? with
  | some dp, some wp => some ((wpAt st dp).point.x, (wpAt st wp).point.x)
  | _, _ => none

/-- `ChainEnd.__lt__` against another `ChainEnd`: same chain puts the
widder end first; different chains compare their intervals at the largest
end x; an interval tie falls through to the unresolved slope
comparison. -/
def ceLt (st : TriState) (k1 k2 : ℕ × Bool) : Option Bool :=
  if k1.1 = k2.1 then some (k1.2 && !k2.2)
  else
    match storeGet st k1.1, storeGet st k2.1 with
    | some c1, some c2 =>
      match chainEndXs st c1, chainEndXs st c2 with
      | some (x1, x2), some (x3, x4) =>
        let x := Frac.fmax (Frac.fmax x1 x2) (Frac.fmax x3 x4)
        match intervalAt st c1 x, intervalAt st c2 x with
        | some i1, some i2 =>
          if pairEqb i1 i2 then none else some (pairLtb i1 i2)
        | _, _ => none
      | _, _ => none
    | _, _ => none

/-- `ChainEnd.__lt__` against a `WrappedPoint` (the tree search
comparison used by `bracket`). -/
def ceVsPtLt (st : TriState) (k : ℕ × Bool) (i : ℕ) : Option Bool :=
  match storeGet st k.1 with
  | none => none
  | some c =>
    match c.pts.head?, c.pts.getLast? with
    | some d, some w =>
      let ddp := (wpAt st d).deasilIdx
      let wwp := (wpAt st w).widderIdx
      if ddp = i ∧ wwp = i then some k.2
      else
        let e := if k.2 then w else d
        let edd := if k.2 then wwp else ddp
        if edd = i then some (!k.2)
        else if Pt.eqb (wpAt st i).point (wpAt st e).point then none
        else if Pt.eqb (wpAt st i).point (wpAt st edd).point then none
        else
          let seg := if k.2 then widderSegOf st w else deasilSegOf st d
          if Frac.eqb seg.p1.x seg.p2.x then
            some (Frac.ltb (Frac.fmax seg.p1.y seg.p2.y) (wpAt st i).point.y)
          else
            some (Frac.ltb (Seg.pointAtY seg (wpAt st i).point.x)
              (wpAt st i).point.y)
    | _, _ => none

/-- `ChainEnd.__gt__` against a `WrappedPoint` (not the negation of
`__lt__`: the source defines it separately). -/
def ceVsPtGt (st : TriState) (k : ℕ × Bool) (i : ℕ) : Option Bool :=
  match storeGet st k.1 with
  | none => none
  | some c =>
    match c.pts.head?, c.pts.getLast? with
    | some d, some w =>
      let ddp := (wpAt st d).deasilIdx
      let wwp := (wpAt st w).widderIdx
      if ddp = i ∧ wwp = i then some (!k.2)
      else
        let e := if k.2 then w else d
        let edd := if k.2 then wwp else ddp
        if edd = i then some k.2
        else if Pt.eqb (wpAt st i).point (wpAt st e).point then none
        else if Pt.eqb (wpAt st i).point (wpAt st edd).point then none
        else
          let seg := if k.2 then widderSegOf st w else deasilSegOf st d
          if Frac.eqb seg.p1.x seg.p2.x then
            some (Frac.ltb (wpAt st i).point.y (Frac.fmax seg.p1.y seg.p2.y))
          else
            some (Frac.ltb (wpAt st i).point.y
              (Seg.pointAtY seg (wpAt st i).point.x))
    | _, _ => none

/-- Sorted insertion of a chain-end key into the tree. -/
def treeInsertKey (st : TriState) (k : ℕ × Bool) :
    List (ℕ × Bool) → Option (List (ℕ × Bool))
  | [] => some [k]
  | e :: rest =>
    match ceLt st k e with
    | none => none
    | some true => some (k :: e :: rest)
    | some false => (treeInsertKey st k rest).map (fun l => e :: l)

/-- Key deletion (`del tree[key]`); a missing key is a lookup error. -/
def treeRemoveKey (k : ℕ × Bool) :
    List (ℕ × Bool) → Option (List (ℕ × Bool))
  | [] => none
  | e :: rest =>
    if e = k then some rest else (treeRemoveKey k rest).map (fun l => e :: l)

/-- `Chains.add_chain`: insert the chain's deasil key, then its widder
key. -/
def addChain (st : TriState) (cid : ℕ) : Option TriState :=
  match treeInsertKey st (cid, false) st.tree with
  | none => none
  | some t1 =>
    match treeInsertKey { st with tree := t1 } (cid, true) t1 with
    | none => none
    | some t2 => some { st with tree := t2 }

/-- `Chains.remove_chain`: delete both keys. -/
def removeChain (st : TriState) (cid : ℕ) : Option TriState :=
  match treeRemoveKey (cid, false) st.tree with
  | none => none
  | some t1 =>
    match treeRemoveKey (cid, true) t1 with
    | none => none
    | some t2 => some { st with tree := t2 }

/-- The triangle-forming loop of `Chain.add_point` in the deasil
direction, operating on the front of the point list. -/
def addPointD (st : TriState) (i : ℕ) :
    List ℕ → Option (List ℕ × List (ℕ × ℕ × ℕ))
  | p1 :: p2 :: rest =>
    if orientation (wpAt st p1).point (wpAt st p2).point (wpAt st i).point
        = -1 then
      if p1 = p2 ∨ p1 = i ∨ p2 = i then none
      else (addPointD st i (p2 :: rest)).map
        (fun r => (r.1, (p1, p2, i) :: r.2))
    else some (p1 :: p2 :: rest, [])
  | l => some (l, [])

/-- The same loop in the widder direction, operating on the reversed point
list. -/
def addPointW (st : TriState) (i : ℕ) :
    List ℕ → Option (List ℕ × List (ℕ × ℕ × ℕ))
  | q1 :: q2 :: rest =>
    if orientation (wpAt st q2).point (wpAt st q1).point (wpAt st i).point
        = -1 then
      if q1 = q2 ∨ q1 = i ∨ q2 = i then none
      else (addPointW st i (q2 :: rest)).map
        (fun r => (r.1, (q2, q1, i) :: r.2))
    else some (q1 :: q2 :: rest, [])
  | l => some (l, [])

/-- `Chain.add_point(point, clock_dir)`: clip ears at the chosen end, then
push the new point there and move `posx_index` onto it. -/
def chainAddPoint (st : TriState) (c : Chain) (i : ℕ) (dir : Bool) :
    Option (Chain × List (ℕ × ℕ × ℕ)) :=
  if dir then
    match addPointW st i c.pts.reverse with
    | none => none
    | some (r, ts) => some (⟨(i :: r).reverse, r.length⟩, ts)
  else
    match addPointD st i c.pts with
    | none => none
    | some (l, ts) => some (⟨i :: l, 0⟩, ts)

/-- `Chains.extend_chain`: remove the chain, add the point, and reinsert
unless the chain closed at a LEAVE point. -/
def extendChain (st : TriState) (cid : ℕ) (i : ℕ) (dir : Bool) :
    Option TriState :=
  match storeGet st cid with
  | none => none
  | some c =>
    match removeChain st cid with
    | none => none
    | some st1 =>
      match chainAddPoint st1 c i dir with
      | none => none
      | some (c2, ts) =>
        let st2 := { st1 with
          store := storeSet st1.store cid c2
          tris := st1.tris ++ ts }
        match c2.pts with
        | [d, w] =>
          if (wpAt st2 d).deasilIdx = w then some st2 else addChain st2 cid
        | _ => addChain st2 cid

/-- The `bracket` scan for the last key comparing less than the point. -/
def bracketPrev (st : TriState) (i : ℕ) :
    List (ℕ × Bool) → Option (Option (ℕ × Bool))
  | [] => some none
  | k :: rest =>
    match ceVsPtLt st k i with
    | none => none
    | some b =>
      match bracketPrev st i rest with
      | none => none
      | some r => some (if r.isSome then r else if b then some k else none)

/-- The `bracket` scan for the first key comparing greater than the
point. -/
def bracketNext (st : TriState) (i : ℕ) :
    List (ℕ × Bool) → Option (Option (ℕ × Bool))
  | [] => some none
  | k :: rest =>
    match ceVsPtGt st k i with
    | none => none
    | some true => some (some k)
    | some false => bracketNext st i rest

/-- `Chains.get_nearest_chains`: the chain above (from the next cursor)
and below (from the previous cursor) the point. -/
def nearestChains (st : TriState) (i : ℕ) :
    Option (Option ℕ × Option ℕ) :=
  match bracketPrev st i st.tree, bracketNext st i st.tree with
  | some prev, some next =>
    some (next.map Prod.fst, prev.map Prod.fst)
  | _, _ => none

/-- ENTER: `Chains.create_chain`. -/
def handleEnter (st : TriState) (i : ℕ) : Option TriState :=
  let cid := st.nextId
  addChain { st with
    store := st.store ++ [(cid, ⟨[i], 0⟩)]
    nextId := cid + 1 } cid

/-- LEAVE: the bracketing chain must close here. -/
def handleLeave (st : TriState) (i : ℕ) : Option TriState :=
  match nearestChains st i with
  | some (some d, some w) =>
    if d = w then
      match storeGet st d with
      | none => none
      | some c =>
        match c.pts.head?, c.pts.getLast? with
        | some hd, some lst =>
          if (wpAt st lst).widderIdx = i ∧ (wpAt st hd).deasilIdx = i then
            extendChain st d i true
          else none
        | _, _ => none
    else none
  | _ => none

/-- SPLIT: split the bracketing chain at its most-positive-x point. -/
def handleSplit (st : TriState) (i : ℕ) : Option TriState :=
  match nearestChains st i with
  | some (some d, some w) =>
    if d = w then
      match storeGet st d with
      | none => none
      | some c =>
        match removeChain st d with
        | none => none
        | some st1 =>
          match chainAddPoint st1 ⟨c.pts.take (c.posx + 1), 0⟩ i true with
          | none => none
          | some (d2, ts1) =>
            match chainAddPoint st1 ⟨c.pts.drop c.posx, 0⟩ i false with
            | none => none
            | some (w2, ts2) =>
              let id1 := st1.nextId
              let st2 := { st1 with
                tris := st1.tris ++ ts1 ++ ts2
                store := st1.store ++ [(id1, d2), (id1 + 1, w2)]
                nextId := id1 + 2 }
              match addChain st2 id1 with
              | none => none
              | some st3 => addChain st3 (id1 + 1)
    else none
  | _ => none

/-- MERGE: `Chains.merge_chains_at`. -/
def handleMerge (st : TriState) (i : ℕ) : Option TriState :=
  match nearestChains st i with
  | some (some d, some w) =>
    match storeGet st d, storeGet st w with
    | some cd, some cw =>
      match cd.pts.getLast?, cw.pts.head? with
      | some dl, some wh =>
        if (wpAt st dl).widderIdx = i ∧ (wpAt st wh).deasilIdx = i then
          match removeChain st d with
          | none => none
          | some st1 =>
            match removeChain st1 w with
            | none => none
            | some st2 =>
              match chainAddPoint st2 cd i true with
              | none => none
              | some (d2, ts1) =>
                match chainAddPoint st2 cw i false with
                | none => none
                | some (w2, ts2) =>
                  let posx := if Pt.gtb
                      (wpAt st2 (w2.pts.getD w2.posx 0)).point
                      (wpAt st2 (d2.pts.getD d2.posx 0)).point
                    then cd.pts.length + w2.posx else d2.posx
                  addChain { st2 with
                    tris := st2.tris ++ ts1 ++ ts2
                    store := storeSet st2.store d
                      ⟨d2.pts ++ w2.pts.drop 1, posx⟩ } d
        else none
      | _, _ => none
    | _, _ => none
  | _ => none

/-- FLANK: extend on whichever side the point continues. -/
def handleFlank (st : TriState) (i : ℕ) : Option TriState :=
  match nearestChains st i with
  | some (dq, wq) =>
    if (wpAt st i).posxIdx = (wpAt st i).widderIdx then
      match dq with
      | none => none
      | some d => extendChain st d i true
    else
      match wq with
      | none => none
      | some w => extendChain st w i false
  | none => none

def triHandle (st : TriState) (i : ℕ) : Option TriState :=
  match (wpAt st i).ptype with
  | .ENTER => handleEnter st i
  | .LEAVE => handleLeave st i
  | .SPLIT => handleSplit st i
  | .MERGE => handleMerge st i
  | .FLANK => handleFlank st i

/-- One iteration of the main loop of `triangulate_polygon`: pop, skip if
visited, dispatch on the point type, then re-enqueue the larger ring
neighbors. -/
def triStep (st : TriState) : Option TriState :=
  match triPopMin st with
  | none => none
  | some (i, rest) =>
    let st1 := { st with queue := rest }
    if i ∈ st1.visited then some st1
    else
      let st2 := { st1 with visited := st1.visited ++ [i] }
      match triHandle st2 i with
      | none => none
      | some st3 =>
        let wp := wpAt st3 i
        let st4 := if Pt.gtb (wpAt st3 wp.deasilIdx).point wp.point
          then { st3 with queue := st3.queue ++ [wp.deasilIdx] } else st3
        let st5 := if Pt.gtb (wpAt st4 wp.widderIdx).point wp.point
          then { st4 with queue := st4.queue ++ [wp.widderIdx] } else st4
        some st5

/-- The fuel-indexed main loop. -/
def triRun : ℕ → TriState → Option TriState
  | 0, st => if st.queue.isEmpty then some st else none
  | fuel + 1, st =>
    if st.queue.isEmpty then some st
    else
      match triStep st with
      | none => none
      | some st2 => triRun fuel st2

/-- The initial state: preprocess the ring and enqueue the ENTER and SPLIT
vertices. -/
def triInit (points : List Pt) : TriState :=
  let wps := _preprocess_points points
  { wps := wps
    queue := (List.range points.length).filter (fun k =>
      decide ((wps.getD k defaultWP).ptype = PType.ENTER
        ∨ (wps.getD k defaultWP).ptype = PType.SPLIT))
    visited := []
    store := []
    nextId := 0
    tree := []
    tris := [] }

/-- `triangulate_polygon(points)`: initialize, check that the first event
is an ENTER (the source's assertion), and run the sweep. -/
def triangulate_polygon (points : List Pt) (fuel : ℕ) :
    Option (List (ℕ × ℕ × ℕ)) :=
  let st := triInit points
  match triPopMin st with
  | none => none
  | some (i, _) =>
    if (wpAt st i).ptype = PType.ENTER then (triRun fuel st).map TriState.tris
    else none
/-! ## Convex partition (claim C8)

Embedding of `convex_partition` (`algorithms.py`).  Bearings are
represented by the exact pseudo-angle `pseudoBearing` (monotone in the
true angle, with an exact half-turn shift of `2`), which is faithful for
every comparison the function performs: per-vertex angular sorting, the
reversed-edge bearing (`bearing +- PI`, here `+- 2`), and the reflex test
`(difference mod 2*PI) >= PI` (here `mod 4 >= 2`).  Python's set
iterations are modelled by first-insertion order. -/

/-- The circular adjacency record (`BearingInfo`). -/
structure BInfo where
  prev : ℕ
  bearing : Frac
  next : ℕ

def natAssocGet {β : Type} (m : List (ℕ × β)) (k : ℕ) : Option β :=
  (m.find? (fun kv => kv.1 = k)).map Prod.snd

def natAssocSet {β : Type} : List (ℕ × β) → ℕ → β → List (ℕ × β)
  | [], k, v => [(k, v)]
  | (k0, v0) :: rest, k, v =>
    if k0 = k then (k0, v) :: rest else (k0, v0) :: natAssocSet rest k v

def natAssocDel {β : Type} : List (ℕ × β) → ℕ → List (ℕ × β)
  | [], _ => []
  | (k0, v0) :: rest, k =>
    if k0 = k then rest else (k0, v0) :: natAssocDel rest k

def pairAssocGet {β : Type} (m : List ((ℕ × ℕ) × β)) (k : ℕ × ℕ) :
    Option β :=
  (m.find? (fun kv => kv.1 = k)).map Prod.snd

def pairAssocSet {β : Type} : List ((ℕ × ℕ) × β) → ℕ × ℕ → β →
    List ((ℕ × ℕ) × β)
  | [], k, v => [(k, v)]
  | (k0, v0) :: rest, k, v =>
    if k0 = k then (k0, v) :: rest else (k0, v0) :: pairAssocSet rest k v

/-- Record a triangle-edge neighbor (`point_bearings_map[i][j] = None`):
dict keys keep first-insertion order. -/
def addNeighbor (adj : List (ℕ × List ℕ)) (i j : ℕ) : List (ℕ × List ℕ) :=
  match natAssocGet adj i with
  | none => adj ++ [(i, [j])]
  | some l => if j ∈ l then adj else natAssocSet adj i (l ++ [j])

/-- The reversed-edge bearing: `bearing - PI` if `bearing > PI` else
`bearing + PI` (pseudo-angles: `2` for `PI`). -/
def flipBearing (b : Frac) : Frac :=
  if Frac.ltb piB b then Frac.sub b piB else Frac.add b piB

/-- Whether an edge is a diagonal (`abs(i1 - i2) not in (1, n - 1)`). -/
def isDiagonal (n i1 i2 : ℕ) : Bool :=
  !(decide ((max i1 i2 - min i1 i2) = 1)
    || decide ((max i1 i2 - min i1 i2) = n - 1))

/-- The three directed edges of a triangle (`zip(triangle_index,
shifted_index)`). -/
def triEdges (t : ℕ × ℕ × ℕ) : List (ℕ × ℕ) :=
  [(t.1, t.2.1), (t.2.1, t.2.2), (t.2.2, t.1)]

/-- Stage 1 of `convex_partition`: neighbor sets, bearings of both edge
directions, and the set of interior diagonals. -/
def cpStage1 (points : List Pt) (tris : List (ℕ × ℕ × ℕ)) :
    List (ℕ × List ℕ) × List ((ℕ × ℕ) × Frac) × List (ℕ × ℕ) :=
  tris.foldl (fun acc t =>
    (triEdges t).foldl (fun acc e =>
      let (adj, bearings, interior) := acc
      let (i1, i2) := e
      let adj := addNeighbor (addNeighbor adj i1 i2) i2 i1
      let b := Seg.bearing ⟨points.getD i1 defaultPt, points.getD i2 defaultPt⟩
      let bearings := pairAssocSet (pairAssocSet bearings (i1, i2) b)
        (i2, i1) (flipBearing b)
      let interior :=
        if isDiagonal points.length i1 i2 then
          let key := (min i1 i2, max i1 i2)
          if key ∈ interior then interior else interior ++ [key]
        else interior
      (adj, bearings, interior)) acc)
    ([], [], [])

def bearingPairLtb (a b : Frac × ℕ) : Bool :=
  Frac.ltb a.1 b.1 || (Frac.eqb a.1 b.1 && decide (a.2 < b.2))

def insertBP (x : Frac × ℕ) : List (Frac × ℕ) → List (Frac × ℕ)
  | [] => [x]
  | y :: rest =>
    if bearingPairLtb x y then x :: y :: rest else y :: insertBP x rest

def sortBP : List (Frac × ℕ) → List (Frac × ℕ)
  | [] => []
  | x :: rest => insertBP x (sortBP rest)

/-- Stage 2: per vertex, the circular adjacency list ordered by outgoing
bearing. -/
def cpStage2 (n : ℕ) (adj : List (ℕ × List ℕ))
    (bearings : List ((ℕ × ℕ) × Frac)) : List (ℕ × List (ℕ × BInfo)) :=
  (List.range n).map (fun i =>
    let nbs := (natAssocGet adj i).getD []
    let sorted := sortBP (nbs.map (fun j =>
      ((pairAssocGet bearings (i, j)).getD (Frac.ofInt 0), j)))
    let m := sorted.length
    (i, (List.range m).map (fun k =>
      ((sorted.getD k (Frac.ofInt 0, 0)).2,
        ⟨(sorted.getD ((k + m - 1) % m) (Frac.ofInt 0, 0)).2,
          (sorted.getD k (Frac.ofInt 0, 0)).1,
          (sorted.getD ((k + 1) % m) (Frac.ofInt 0, 0)).2⟩))))

/-- Whether the diagonal is essential at `src` (the angle between its two
adjacency neighbors, measured mod a full turn, is at least a half
turn). -/
def essentialAt (pbm : List (ℕ × List (ℕ × BInfo))) (src dst : ℕ) :
    Option Bool :=
  match natAssocGet pbm src with
  | none => none
  | some pi2 =>
    match natAssocGet pi2 dst with
    | none => none
    | some bi =>
      match natAssocGet pi2 bi.next, natAssocGet pi2 bi.prev with
      | some nb, some pb =>
        some (Frac.leb piB
          (Frac.fmod (Frac.sub nb.bearing pb.bearing)
            (Frac.ofInt 4)))
      | _, _ => none

/-- Remove one direction of a diagonal from its endpoint's circular list
and requeue the adjacent interior diagonals. -/
def cpUnlink (pbm : List (ℕ × List (ℕ × BInfo))) (interior : List (ℕ × ℕ))
    (newChanged : List (ℕ × ℕ)) (src dst : ℕ) :
    Option (List (ℕ × List (ℕ × BInfo)) × List (ℕ × ℕ)) :=
  match natAssocGet pbm src with
  | none => none
  | some pi2 =>
    match natAssocGet pi2 dst with
    | none => none
    | some bi =>
      match natAssocGet pi2 bi.prev with
      | none => none
      | some pb =>
        let pi3 := natAssocSet pi2 bi.prev ⟨pb.prev, pb.bearing, bi.next⟩
        match natAssocGet pi3 bi.next with
        | none => none
        | some nb =>
          let pi4 := natAssocSet pi3 bi.next ⟨bi.prev, nb.bearing, nb.next⟩
          let nc1 := if (src, bi.prev) ∈ interior
              ∧ (src, bi.prev) ∉ newChanged
            then newChanged ++ [(src, bi.prev)] else newChanged
          let nc2 := if (src, bi.next) ∈ interior ∧ (src, bi.next) ∉ nc1
            then nc1 ++ [(src, bi.next)] else nc1
          some (natAssocSet pbm src pi4, nc2)

/-- Process one queued diagonal: skip if already removed, keep if
essential at either endpoint, otherwise unlink both directions. -/
def cpProcessOne (interior : List (ℕ × ℕ))
    (acc : List (ℕ × List (ℕ × BInfo)) × List (ℕ × ℕ)) (e : ℕ × ℕ) :
    Option (List (ℕ × List (ℕ × BInfo)) × List (ℕ × ℕ)) :=
  let (pbm, newChanged) := acc
  let (i1, i2) := e
  match natAssocGet pbm i1 with
  | none => none
  | some pi2 =>
    if (natAssocGet pi2 i2).isSome then
      match essentialAt pbm i1 i2, essentialAt pbm i2 i1 with
      | some e1, some e2 =>
        if e1 || e2 then some (pbm, newChanged)
        else
          match cpUnlink pbm interior newChanged i1 i2 with
          | none => none
          | some (pbm2, nc1) =>
            match cpUnlink pbm2 interior nc1 i2 i1 with
            | none => none
            | some (pbm3, nc2) =>
              match natAssocGet pbm3 i1, natAssocGet pbm3 i2 with
              | some m1, some m2 =>
                some (natAssocSet (natAssocSet pbm3 i1 (natAssocDel m1 i2))
                  i2 (natAssocDel m2 i1), nc2)
              | _, _ => none
      | _, _ => none
    else some (pbm, newChanged)

def cpProcessList (interior : List (ℕ × ℕ)) :
    List (ℕ × ℕ) → (List (ℕ × List (ℕ × BInfo)) × List (ℕ × ℕ)) →
    Option (List (ℕ × List (ℕ × BInfo)) × List (ℕ × ℕ))
  | [], acc => some acc
  | e :: rest, acc =>
    match cpProcessOne interior acc e with
    | none => none
    | some acc2 => cpProcessList interior rest acc2

/-- Stage 3: remove non-essential diagonals to a fixed point. -/
def cpLoop (interior : List (ℕ × ℕ)) :
    ℕ → List (ℕ × List (ℕ × BInfo)) → List (ℕ × ℕ) →
    Option (List (ℕ × List (ℕ × BInfo)))
  | _, pbm, [] => some pbm
  | 0, _, _ => none
  | fuel + 1, pbm, changed =>
    match cpProcessList interior changed (pbm, []) with
    | none => none
    | some (pbm2, newChanged) => cpLoop interior fuel pbm2 newChanged

/-- The inner face walk of stage 4: repeatedly step to the previous
adjacency neighbor until back at the start vertex. -/
def cpWalk (pbm : List (ℕ × List (ℕ × BInfo))) (n : ℕ) (init : ℕ) :
    ℕ → ℕ → ℕ → List ℕ → List (ℕ × ℕ) → List (ℕ × ℕ) →
    Option (List ℕ × List (ℕ × ℕ) × List (ℕ × ℕ))
  | 0, _, _, _, _, _ => none
  | fuel + 1, curr, nxt, face, visited, frontier =>
    if nxt = init then some (face, visited, frontier)
    else
      match natAssocGet pbm nxt with
      | none => none
      | some pi2 =>
        match natAssocGet pi2 curr with
        | none => none
        | some bi =>
          let curr2 := nxt
          let nxt2 := bi.prev
          let face2 := face ++ [curr2]
          let visited2 := visited ++ [(curr2, nxt2)]
          let frontier2 := if (nxt2, curr2) ∉ visited2
              ∧ isDiagonal n nxt2 curr2 = true
            then frontier ++ [(nxt2, curr2)] else frontier
          cpWalk pbm n init fuel curr2 nxt2 face2 visited2 frontier2

/-- Stage 4: breadth-first extraction of the convex faces. -/
def cpFaces (pbm : List (ℕ × List (ℕ × BInfo))) (n : ℕ) :
    ℕ → List (ℕ × ℕ) → List (ℕ × ℕ) → List (List ℕ) →
    Option (List (List ℕ))
  | 0, _, _, _ => none
  | _ + 1, [], _, faces => some faces
  | fuel + 1, (curr, nxt) :: frontier, visited, faces =>
    if (curr, nxt) ∈ visited then cpFaces pbm n fuel frontier visited faces
    else
      match cpWalk pbm n curr (n * n + 2) curr nxt [curr]
          (visited ++ [(curr, nxt)]) frontier with
      | none => none
      | some (face, visited2, frontier2) =>
        cpFaces pbm n fuel frontier2 visited2 (faces ++ [face])

/-- `convex_partition(points, triangle_indices)`. -/
def convex_partition (points : List Pt) (tris : List (ℕ × ℕ × ℕ))
    (fuel : ℕ) : Option (List (List ℕ)) :=
  let (adj, bearings, interior) := cpStage1 points tris
  let pbm := cpStage2 points.length adj bearings
  match cpLoop interior fuel pbm interior with
  | none => none
  | some pbm2 =>
    cpFaces pbm2 points.length (tris.length * 3 + 2) [(0, 1)] [] []

/-! ## Claim C8: the unit square -/

/-- The unit square ring `(0,0), (1,0), (1,1), (0,1)`. -/
def squarePts : List Pt :=
  [⟨Frac.ofInt 0, Frac.ofInt 0⟩, ⟨Frac.ofInt 1, Frac.ofInt 0⟩,
   ⟨Frac.ofInt 1, Frac.ofInt 1⟩, ⟨Frac.ofInt 0, Frac.ofInt 1⟩]

/-- C8: on the unit square, `triangulate_polygon` returns exactly the two
triangles `(3,0,1)` and `(3,1,2)`, whose index triples together cover all
four vertex indices, and `convex_partition` on that triangulation returns
exactly the one face `(0,1,2,3)` consisting of all four vertex indices. -/
theorem c8_square_partition :
    triangulate_polygon squarePts 20 =
      some [(3, 0, 1), (3, 1, 2)]
    ∧ (∀ k < 4, ∃ t ∈ [((3 : ℕ), (0 : ℕ), (1 : ℕ)), (3, 1, 2)],
        k = t.1 ∨ k = t.2.1 ∨ k = t.2.2)
    ∧ convex_partition squarePts [(3, 0, 1), (3, 1, 2)] 20 =
      some [[0, 1, 2, 3]]
    ∧ (∀ k < 4, k ∈ ([0, 1, 2, 3] : List ℕ))
    ∧ squarePts.length = 4 :=
  ⟨by rfl, by decide, by rfl, by decide, by rfl⟩

/-! ## Claim C10: the queue discipline of the triangulation sweep -/

/-- The queue invariant: every queued vertex is an ENTER or SPLIT vertex,
or is a ring neighbor of an already-processed vertex. -/
def queuedOK (st : TriState) : Prop :=
  ∀ i ∈ st.queue,
    (wpAt st i).ptype = PType.ENTER ∨ (wpAt st i).ptype = PType.SPLIT
    ∨ ∃ j ∈ st.visited, i = (wpAt st j).deasilIdx ∨ i = (wpAt st j).widderIdx

/-- The sweep invariant: the queue invariant plus distinctness of the
processed trace (`visited`, in processing order). -/
def tInv (st : TriState) : Prop := queuedOK st ∧ st.visited.Nodup

theorem addChain_frame (st : TriState) (cid : ℕ) (st2 : TriState)
    (h : addChain st cid = some st2) :
    st2.wps = st.wps ∧ st2.queue = st.queue ∧ st2.visited = st.visited := by
  unfold addChain at h
  cases h1 : treeInsertKey st (cid, false) st.tree with
  | none => simp only [h1] at h; exact Option.noConfusion h
  | some t1 =>
    simp only [h1] at h
    cases h2 : treeInsertKey { st with tree := t1 } (cid, true) t1 with
    | none => simp only [h2] at h; exact Option.noConfusion h
    | some t2 =>
      simp only [h2, Option.some_inj] at h
      subst h
      exact ⟨rfl, rfl, rfl⟩

theorem removeChain_frame (st : TriState) (cid : ℕ) (st2 : TriState)
    (h : removeChain st cid = some st2) :
    st2.wps = st.wps ∧ st2.queue = st.queue ∧ st2.visited = st.visited := by
  unfold removeChain at h
  cases h1 : treeRemoveKey (cid, false) st.tree with
  | none => simp only [h1] at h; exact Option.noConfusion h
  | some t1 =>
    simp only [h1] at h
    cases h2 : treeRemoveKey (cid, true) t1 with
    | none => simp only [h2] at h; exact Option.noConfusion h
    | some t2 =>
      simp only [h2, Option.some_inj] at h
      subst h
      exact ⟨rfl, rfl, rfl⟩

theorem extendChain_frame (st : TriState) (cid i : ℕ) (dir : Bool)
    (st2 : TriState) (h : extendChain st cid i dir = some st2) :
    st2.wps = st.wps ∧ st2.queue = st.queue ∧ st2.visited = st.visited := by
  unfold extendChain at h
  cases hg : storeGet st cid with
  | none => simp only [hg] at h; exact Option.noConfusion h
  | some c =>
    simp only [hg] at h
    cases hr : removeChain st cid with
    | none => simp only [hr] at h; exact Option.noConfusion h
    | some st1 =>
      simp only [hr] at h
      have hf1 := removeChain_frame st cid st1 hr
      cases hap : chainAddPoint st1 c i dir with
      | none => simp only [hap] at h; exact Option.noConfusion h
      | some r =>
        obtain ⟨c2, ts⟩ := r
        simp only [hap] at h
        have hmid : ∀ (pts : List ℕ) (stm : TriState), stm.wps = st.wps →
            stm.queue = st.queue → stm.visited = st.visited →
            (match pts with
              | [d, w] =>
                if (wpAt stm d).deasilIdx = w then some stm
                else addChain stm cid
              | _ => addChain stm cid) = some st2 →
            st2.wps = st.wps ∧ st2.queue = st.queue
              ∧ st2.visited = st.visited := by
          intro pts stm hw hq hv hm
          rcases pts with _ | ⟨d, _ | ⟨w, _ | ⟨z, t⟩⟩⟩
          · have hm2 : addChain stm cid = some st2 := hm
            obtain ⟨ha, hb, hc⟩ := addChain_frame stm cid st2 hm2
            exact ⟨ha.trans hw, hb.trans hq, hc.trans hv⟩
          · have hm2 : addChain stm cid = some st2 := hm
            obtain ⟨ha, hb, hc⟩ := addChain_frame stm cid st2 hm2
            exact ⟨ha.trans hw, hb.trans hq, hc.trans hv⟩
          · have hm2 : (if (wpAt stm d).deasilIdx = w then some stm
                else addChain stm cid) = some st2 := hm
            by_cases hd : (wpAt stm d).deasilIdx = w
            · rw [if_pos hd, Option.some_inj] at hm2
              subst hm2
              exact ⟨hw, hq, hv⟩
            · rw [if_neg hd] at hm2
              obtain ⟨ha, hb, hc⟩ := addChain_frame stm cid st2 hm2
              exact ⟨ha.trans hw, hb.trans hq, hc.trans hv⟩
          · have hm2 : addChain stm cid = some st2 := hm
            obtain ⟨ha, hb, hc⟩ := addChain_frame stm cid st2 hm2
            exact ⟨ha.trans hw, hb.trans hq, hc.trans hv⟩
        exact hmid c2.pts { st1 with
          store := storeSet st1.store cid c2
          tris := st1.tris ++ ts } hf1.1 hf1.2.1 hf1.2.2 h

theorem handleEnter_frame (st : TriState) (i : ℕ) (st2 : TriState)
    (h : handleEnter st i = some st2) :
    st2.wps = st.wps ∧ st2.queue = st.queue ∧ st2.visited = st.visited := by
  unfold handleEnter at h
  have h2 : addChain { st with store := st.store ++ [(st.nextId, ⟨[i], 0⟩)], nextId := st.nextId + 1 } st.nextId = some st2 := h
  obtain ⟨ha, hb, hc⟩ := addChain_frame _ _ _ h2
  exact ⟨ha, hb, hc⟩

theorem handleLeave_frame (st : TriState) (i : ℕ) (st2 : TriState)
    (h : handleLeave st i = some st2) :
    st2.wps = st.wps ∧ st2.queue = st.queue ∧ st2.visited = st.visited := by
  unfold handleLeave at h
  cases hn : nearestChains st i with
  | none => simp only [hn] at h; exact Option.noConfusion h
  | some pr =>
    obtain ⟨dq, wq⟩ := pr
    rcases dq with _ | d
    · simp only [hn] at h; exact Option.noConfusion h
    rcases wq with _ | w
    · simp only [hn] at h; exact Option.noConfusion h
    simp only [hn] at h
    by_cases hdw : d = w
    · rw [if_pos hdw] at h
      cases hg : storeGet st d with
      | none => simp only [hg] at h; exact Option.noConfusion h
      | some c =>
        simp only [hg] at h
        cases hhd : c.pts.head? with
        | none => simp only [hhd] at h; exact Option.noConfusion h
        | some hd =>
          cases hlst : c.pts.getLast? with
          | none => simp only [hhd, hlst] at h; exact Option.noConfusion h
          | some lst =>
            simp only [hhd, hlst] at h
            by_cases hcond : (wpAt st lst).widderIdx = i
              ∧ (wpAt st hd).deasilIdx = i
            · rw [if_pos hcond] at h
              exact extendChain_frame _ _ _ _ _ h
            · rw [if_neg hcond] at h
              exact Option.noConfusion h
    · rw [if_neg hdw] at h
      exact Option.noConfusion h

theorem handleSplit_frame (st : TriState) (i : ℕ) (st2 : TriState)
    (h : handleSplit st i = some st2) :
    st2.wps = st.wps ∧ st2.queue = st.queue ∧ st2.visited = st.visited := by
  unfold handleSplit at h
  cases hn : nearestChains st i with
  | none => simp only [hn] at h; exact Option.noConfusion h
  | some pr =>
    obtain ⟨dq, wq⟩ := pr
    rcases dq with _ | d
    · simp only [hn] at h; exact Option.noConfusion h
    rcases wq with _ | w
    · simp only [hn] at h; exact Option.noConfusion h
    simp only [hn] at h
    by_cases hdw : d = w
    · rw [if_pos hdw] at h
      cases hg : storeGet st d with
      | none => simp only [hg] at h; exact Option.noConfusion h
      | some c =>
        simp only [hg] at h
        cases hr : removeChain st d with
        | none => simp only [hr] at h; exact Option.noConfusion h
        | some st1 =>
          simp only [hr] at h
          have hf1 := removeChain_frame st d st1 hr
          cases hap : chainAddPoint st1 ⟨c.pts.take (c.posx + 1), 0⟩ i true
            with
          | none => simp only [hap] at h; exact Option.noConfusion h
          | some r1 =>
            obtain ⟨d2, ts1⟩ := r1
            simp only [hap] at h
            cases hap2 : chainAddPoint st1 ⟨c.pts.drop c.posx, 0⟩ i false
              with
            | none => simp only [hap2] at h; exact Option.noConfusion h
            | some r2 =>
              obtain ⟨w2, ts2⟩ := r2
              simp only [hap2] at h
              cases ha1 : addChain { st1 with
                  tris := st1.tris ++ ts1 ++ ts2
                  store := st1.store ++ [(st1.nextId, d2),
                    (st1.nextId + 1, w2)]
                  nextId := st1.nextId + 2 } st1.nextId with
              | none => simp only [ha1] at h; exact Option.noConfusion h
              | some st3 =>
                simp only [ha1] at h
                have hf2 := addChain_frame _ _ _ ha1
                have hf3 := addChain_frame _ _ _ h
                refine ⟨?_, ?_, ?_⟩
                · exact hf3.1.trans (hf2.1.trans hf1.1)
                · exact hf3.2.1.trans (hf2.2.1.trans hf1.2.1)
                · exact hf3.2.2.trans (hf2.2.2.trans hf1.2.2)
    · rw [if_neg hdw] at h
      exact Option.noConfusion h

theorem handleMerge_frame (st : TriState) (i : ℕ) (st2 : TriState)
    (h : handleMerge st i = some st2) :
    st2.wps = st.wps ∧ st2.queue = st.queue ∧ st2.visited = st.visited := by
  unfold handleMerge at h
  cases hn : nearestChains st i with
  | none => simp only [hn] at h; exact Option.noConfusion h
  | some pr =>
    obtain ⟨dq, wq⟩ := pr
    rcases dq with _ | d
    · simp only [hn] at h; exact Option.noConfusion h
    rcases wq with _ | w
    · simp only [hn] at h; exact Option.noConfusion h
    simp only [hn] at h
    cases hgd : storeGet st d with
    | none => simp only [hgd] at h; exact Option.noConfusion h
    | some cd =>
      simp only [hgd] at h
      cases hgw : storeGet st w with
      | none => simp only [hgw] at h; exact Option.noConfusion h
      | some cw =>
        simp only [hgw] at h
        cases hdl : cd.pts.getLast? with
        | none => simp only [hdl] at h; exact Option.noConfusion h
        | some dl =>
          cases hwh : cw.pts.head? with
          | none => simp only [hdl, hwh] at h; exact Option.noConfusion h
          | some wh =>
            simp only [hdl, hwh] at h
            by_cases hcond : (wpAt st dl).widderIdx = i
              ∧ (wpAt st wh).deasilIdx = i
            · rw [if_pos hcond] at h
              cases hr1 : removeChain st d with
              | none => simp only [hr1] at h; exact Option.noConfusion h
              | some st1 =>
                simp only [hr1] at h
                cases hr2 : removeChain st1 w with
                | none => simp only [hr2] at h; exact Option.noConfusion h
                | some stm =>
                  simp only [hr2] at h
                  cases hap : chainAddPoint stm cd i true with
                  | none => simp only [hap] at h; exact Option.noConfusion h
                  | some r1 =>
                    obtain ⟨d2, ts1⟩ := r1
                    simp only [hap] at h
                    cases hap2 : chainAddPoint stm cw i false with
                    | none => simp only [hap2] at h; exact Option.noConfusion h
                    | some r2 =>
                      obtain ⟨w2, ts2⟩ := r2
                      simp only [hap2] at h
                      have hf1 := removeChain_frame st d st1 hr1
                      have hf2 := removeChain_frame st1 w stm hr2
                      have hf3 := addChain_frame _ _ _ h
                      refine ⟨?_, ?_, ?_⟩
                      · exact hf3.1.trans (hf2.1.trans hf1.1)
                      · exact hf3.2.1.trans (hf2.2.1.trans hf1.2.1)
                      · exact hf3.2.2.trans (hf2.2.2.trans hf1.2.2)
            · rw [if_neg hcond] at h
              exact Option.noConfusion h

theorem handleFlank_frame (st : TriState) (i : ℕ) (st2 : TriState)
    (h : handleFlank st i = some st2) :
    st2.wps = st.wps ∧ st2.queue = st.queue ∧ st2.visited = st.visited := by
  unfold handleFlank at h
  cases hn : nearestChains st i with
  | none => simp only [hn] at h; exact Option.noConfusion h
  | some pr =>
    obtain ⟨dq, wq⟩ := pr
    rcases dq with _ | d
    · rcases wq with _ | w
      · simp only [hn] at h
        by_cases hp : (wpAt st i).posxIdx = (wpAt st i).widderIdx
        · rw [if_pos hp] at h
          exact Option.noConfusion h
        · rw [if_neg hp] at h
          exact Option.noConfusion h
      · simp only [hn] at h
        by_cases hp : (wpAt st i).posxIdx = (wpAt st i).widderIdx
        · rw [if_pos hp] at h
          exact Option.noConfusion h
        · rw [if_neg hp] at h
          exact extendChain_frame _ _ _ _ _ h
    · rcases wq with _ | w
      · simp only [hn] at h
        by_cases hp : (wpAt st i).posxIdx = (wpAt st i).widderIdx
        · rw [if_pos hp] at h
          exact extendChain_frame _ _ _ _ _ h
        · rw [if_neg hp] at h
          exact Option.noConfusion h
      · simp only [hn] at h
        by_cases hp : (wpAt st i).posxIdx = (wpAt st i).widderIdx
        · rw [if_pos hp] at h
          exact extendChain_frame _ _ _ _ _ h
        · rw [if_neg hp] at h
          exact extendChain_frame _ _ _ _ _ h

theorem triHandle_frame (st : TriState) (i : ℕ) (st2 : TriState)
    (h : triHandle st i = some st2) :
    st2.wps = st.wps ∧ st2.queue = st.queue ∧ st2.visited = st.visited := by
  unfold triHandle at h
  cases hp : (wpAt st i).ptype <;> rw [hp] at h
  · exact handleLeave_frame st i st2 h
  · exact handleMerge_frame st i st2 h
  · exact handleFlank_frame st i st2 h
  · exact handleSplit_frame st i st2 h
  · exact handleEnter_frame st i st2 h

theorem triPopAux_mem (st : TriState) :
    ∀ (l : List ℕ) (best m : ℕ) (r : List ℕ),
      triPopAux st best l = some (m, r) →
      ∀ x ∈ r, x = best ∨ x ∈ l := by
  intro l
  induction l with
  | nil =>
    intro best m r h x hx
    simp only [triPopAux, Option.some_inj, Prod.mk.injEq] at h
    rw [← h.2] at hx
    simp at hx
  | cons e rest ih =>
    intro best m r h x hx
    simp only [triPopAux] at h
    cases hlt : wpPrioLt st e best with
    | none => simp only [hlt] at h; exact Option.noConfusion h
    | some b =>
      simp only [hlt] at h
      cases b with
      | true =>
        simp only [Option.map_eq_some'] at h
        obtain ⟨⟨m2, r2⟩, h2, h3⟩ := h
        injection h3 with hm3 hr3
        have hxr : x ∈ best :: r2 := by
          rw [← hr3] at hx
          exact hx
        rcases List.mem_cons.mp hxr with h4 | h4
        · exact Or.inl h4
        · rcases ih e m2 r2 h2 x h4 with h5 | h5
          · exact Or.inr (by rw [h5]; exact List.mem_cons_self _ _)
          · exact Or.inr (List.mem_cons_of_mem _ h5)
      | false =>
        simp only [Option.map_eq_some'] at h
        obtain ⟨⟨m2, r2⟩, h2, h3⟩ := h
        injection h3 with hm3 hr3
        have hxr : x ∈ e :: r2 := by
          rw [← hr3] at hx
          exact hx
        rcases List.mem_cons.mp hxr with h4 | h4
        · exact Or.inr (by rw [h4]; exact List.mem_cons_self _ _)
        · rcases ih best m2 r2 h2 x h4 with h5 | h5
          · exact Or.inl h5
          · exact Or.inr (List.mem_cons_of_mem _ h5)

theorem triPopMin_mem (st : TriState) (i : ℕ) (rest : List ℕ)
    (h : triPopMin st = some (i, rest)) : ∀ x ∈ rest, x ∈ st.queue := by
  unfold triPopMin at h
  cases hq : st.queue with
  | nil => simp only [hq] at h; exact Option.noConfusion h
  | cons e t =>
    simp only [hq] at h
    intro x hx
    rcases triPopAux_mem st t e i rest h x hx with h1 | h1
    · rw [h1]; exact List.mem_cons_self _ _
    · exact List.mem_cons_of_mem _ h1

theorem triStep_preserves_tInv (st st2 : TriState) (h : tInv st)
    (hres : triStep st = some st2) : tInv st2 := by
  obtain ⟨hq, hnd⟩ := h
  unfold triStep at hres
  cases hpop : triPopMin st with
  | none => simp only [hpop] at hres; exact Option.noConfusion hres
  | some pr =>
    obtain ⟨i, rest⟩ := pr
    simp only [hpop] at hres
    have hrest : ∀ x ∈ rest, x ∈ st.queue := triPopMin_mem st i rest hpop
    by_cases hv : i ∈ st.visited
    · rw [if_pos hv, Option.some_inj] at hres
      subst hres
      refine ⟨?_, hnd⟩
      intro x hx
      exact hq x (hrest x hx)
    · rw [if_neg hv] at hres
      cases hh : triHandle { st with
          queue := rest
          visited := st.visited ++ [i] } i with
      | none => simp only [hh] at hres; exact Option.noConfusion hres
      | some st3 =>
        simp only [hh] at hres
        obtain ⟨hw3, hq3, hv3⟩ := triHandle_frame _ _ _ hh
        simp only at hw3 hq3 hv3
        have hnd2 : (st.visited ++ [i]).Nodup := by
          rw [List.nodup_append]
          exact ⟨hnd, List.nodup_singleton i, by
            intro a ha hb
            rw [List.mem_singleton] at hb
            rw [hb] at ha
            exact hv ha⟩
        have hwp3 : ∀ k, wpAt st3 k = wpAt st k := by
          intro k
          unfold wpAt
          rw [hw3]
        have hmain : ∀ stf : TriState, some stf = some st2 →
            stf.wps = st.wps → stf.visited = st.visited ++ [i] →
            (∀ x ∈ stf.queue, x ∈ rest
              ∨ x = (wpAt st3 i).deasilIdx ∨ x = (wpAt st3 i).widderIdx) →
            tInv st2 := by
          intro stf heq hfw hfv hfq
          rw [← Option.some_inj.mp heq]
          constructor
          · intro x hx
            have hwpf : ∀ k, wpAt stf k = wpAt st k := by
              intro k
              unfold wpAt
              rw [hfw]
            rcases hfq x hx with h1 | h1 | h1
            · rcases hq x (hrest x h1) with h2 | h2 | ⟨j, hj, h3⟩
              · exact Or.inl (by rw [hwpf]; exact h2)
              · exact Or.inr (Or.inl (by rw [hwpf]; exact h2))
              · refine Or.inr (Or.inr ⟨j, ?_, ?_⟩)
                · rw [hfv]
                  exact List.mem_append_left _ hj
                · rw [hwpf]
                  exact h3
            · refine Or.inr (Or.inr ⟨i, ?_, ?_⟩)
              · rw [hfv]
                exact List.mem_append_right _ (List.mem_singleton.mpr rfl)
              · rw [hwpf, ← hwp3 i]
                exact Or.inl h1
            · refine Or.inr (Or.inr ⟨i, ?_, ?_⟩)
              · rw [hfv]
                exact List.mem_append_right _ (List.mem_singleton.mpr rfl)
              · rw [hwpf, ← hwp3 i]
                exact Or.inr h1
          · rw [hfv]
            exact hnd2
        split at hres <;> split at hres <;>
          refine hmain _ hres hw3 hv3 (fun x hx => ?_) <;>
          simp only [hq3, List.append_assoc, List.mem_append,
            List.mem_singleton] at hx <;>
          tauto

theorem triRun_preserves_tInv :
    ∀ (fuel : ℕ) (st st2 : TriState), tInv st →
      triRun fuel st = some st2 → tInv st2 := by
  intro fuel
  induction fuel with
  | zero =>
    intro st st2 h hres
    simp only [triRun] at hres
    by_cases he : st.queue.isEmpty = true
    · rw [if_pos he, Option.some_inj] at hres
      rw [← hres]
      exact h
    · rw [if_neg he] at hres
      exact Option.noConfusion hres
  | succ n ih =>
    intro st st2 h hres
    simp only [triRun] at hres
    by_cases he : st.queue.isEmpty = true
    · rw [if_pos he, Option.some_inj] at hres
      rw [← hres]
      exact h
    · rw [if_neg he] at hres
      cases hstep : triStep st with
      | none => simp only [hstep] at hres; exact Option.noConfusion hres
      | some st3 =>
        simp only [hstep] at hres
        exact ih st3 st2 (triStep_preserves_tInv st st3 h hstep) hres

theorem triInit_queue_types (points : List Pt) :
    ∀ i ∈ (triInit points).queue,
      (wpAt (triInit points) i).ptype = PType.ENTER
      ∨ (wpAt (triInit points) i).ptype = PType.SPLIT := by
  intro i hi
  have h2 := List.of_mem_filter hi
  rw [decide_eq_true_eq] at h2
  exact h2

theorem triInit_tInv (points : List Pt) : tInv (triInit points) := by
  refine ⟨?_, List.nodup_nil⟩
  intro i hi
  rcases triInit_queue_types points i hi with h | h
  · exact Or.inl h
  · exact Or.inr (Or.inl h)

/-- C10: (i) initialization enqueues exactly the ENTER and SPLIT vertices;
(ii) the sweep invariant - every queued vertex is ENTER or SPLIT or a
ring neighbor of an already-processed vertex, and the processed trace
(`visited`, which gates every handler) has no duplicates - holds
initially and is preserved by every loop iteration, hence by every
complete run; so a LEAVE, MERGE or FLANK vertex can enter the queue only
after one of its ring neighbors has been processed, and each vertex's
handler executes at most once per run. -/
theorem c10_queue_discipline (points : List Pt) :
    ((triInit points).queue = (List.range points.length).filter (fun k =>
      decide (((_preprocess_points points).getD k defaultWP).ptype =
          PType.ENTER
        ∨ ((_preprocess_points points).getD k defaultWP).ptype =
          PType.SPLIT))
      ∧ ∀ i ∈ (triInit points).queue,
        (wpAt (triInit points) i).ptype = PType.ENTER
        ∨ (wpAt (triInit points) i).ptype = PType.SPLIT)
    ∧ tInv (triInit points)
    ∧ (∀ st st2 : TriState, tInv st → triStep st = some st2 → tInv st2)
    ∧ (∀ (fuel : ℕ) (st2 : TriState),
        triRun fuel (triInit points) = some st2 →
        queuedOK st2 ∧ st2.visited.Nodup) :=
  ⟨⟨rfl, triInit_queue_types points⟩, triInit_tInv points,
    fun st st2 h hres => triStep_preserves_tInv st st2 h hres,
    fun fuel st2 hres =>
      triRun_preserves_tInv fuel (triInit points) st2 (triInit_tInv points)
        hres⟩

/-- Witness for `c10_queue_discipline`: the unit square's run completes
and its final state satisfies the invariant. -/
theorem c10_queue_discipline_witness :
    ∃ st2, triRun 20 (triInit squarePts) = some st2
      ∧ queuedOK st2 ∧ st2.visited.Nodup := by
  have hs : (triRun 20 (triInit squarePts)).isSome = true := by rfl
  obtain ⟨st2, hst2⟩ := Option.isSome_iff_exists.mp hs
  exact ⟨st2, hst2, (c10_queue_discipline squarePts).2.2.2 20 st2 hst2⟩

/-! ## Supporting evidence for the engine's completeness (claim C1)

The universal statement - for every set of pairwise non-overlapping
segments the engine's `include_end = true` output, as a set, equals the
brute-force pairwise intersection set - would need a full sweep-line
correctness proof and is left unsettled.  The definitions below state the
brute force side (from the spec's words, as the claim is a refinement)
and kernel-check the equality on concrete scenes exercising crossings,
concurrent triple points, vertical segments and shared endpoints. -/

/-- Brute force, from the spec: intersect every unordered pair with
endpoint-inclusive semantics and round to `nd` digits. -/
def bruteForceAux (nd : ℕ) (s : Seg) (rest : List Seg) : List Pt :=
  rest.filterMap (fun t => (Seg.intersect s t true).map
    (fun p => Pt.roundTo p nd))

def bruteForce (nd : ℕ) : List Seg → List Pt
  | [] => []
  | s :: rest => bruteForceAux nd s rest ++ bruteForce nd rest

/-- Equality of two point lists viewed as sets (value equality). -/
def sameSet (a b : List Pt) : Bool :=
  a.all (fun p => b.any (Pt.eqb p)) && b.all (fun p => a.any (Pt.eqb p))

/-- A scene of six segments with nine distinct intersection points:
crossing diagonals, a horizontal and a vertical segment, a shallow
segment sharing an endpoint with a diagonal, and a fourth crossing. -/
def scene6 : List Seg :=
  [⟨⟨Frac.ofInt 0, Frac.ofInt 0⟩, ⟨Frac.ofInt 4, Frac.ofInt 4⟩⟩,
   ⟨⟨Frac.ofInt 0, Frac.ofInt 4⟩, ⟨Frac.ofInt 4, Frac.ofInt 0⟩⟩,
   ⟨⟨Frac.ofInt 0, Frac.ofInt 2⟩, ⟨Frac.ofInt 4, Frac.ofInt 2⟩⟩,
   ⟨⟨Frac.ofInt 1, Frac.ofInt 0⟩, ⟨Frac.ofInt 1, Frac.ofInt 4⟩⟩,
   ⟨⟨Frac.ofInt 0, Frac.ofInt 0⟩, ⟨Frac.ofInt 4, Frac.ofInt 1⟩⟩,
   ⟨⟨Frac.ofInt 3, Frac.ofInt 0⟩, ⟨Frac.ofInt 0, Frac.ofInt 3⟩⟩]

/-- A vertical segment crossed by a diagonal and touched by a
horizontal's endpoint. -/
def sceneV : List Seg :=
  [vertSeg, ⟨⟨Frac.ofInt (-1), Frac.ofInt 0⟩, ⟨Frac.ofInt 1, Frac.ofInt 1⟩⟩,
   ⟨⟨Frac.ofInt 0, Frac.ofInt 1⟩, ⟨Frac.ofInt 2, Frac.ofInt 1⟩⟩]

/-- On four concrete scenes the engine's `include_end = true` output,
viewed as a set, equals the brute-force pairwise intersection set. -/
theorem bo_brute_force_scenes :
    (bentley_ottmann segsX true 9 100).map
      (fun l => sameSet l (bruteForce 9 segsX)) = some true
    ∧ (bentley_ottmann tripleScene true 9 200).map
      (fun l => sameSet l (bruteForce 9 tripleScene)) = some true
    ∧ (bentley_ottmann sceneV true 9 200).map
      (fun l => sameSet l (bruteForce 9 sceneV)) = some true
    ∧ (bentley_ottmann scene6 true 9 500).map
      (fun l => sameSet l (bruteForce 9 scene6)) = some true :=
  ⟨rfl, rfl, rfl, rfl⟩

end Animabotics
